import Mathlib

/-! # RLP decoder (`rlpv2/decode_v2.go`) and event stream (`blockchain/subscription.go`)

A shallow embedding of the two source files and theorems about it.

Conventions of the embedding
* A Go `[]byte` is a `List UInt8`.  Every slice expression of the decoder is
  either in range for the length of the slice or panics whatever the capacity
  is (`readUint` evaluates both `b[:size]` and `b[size:]`), so capacities are
  not modelled.
* Go `int` is 64 bit; sizes are `Int`, and the one conversion that can wrap
  (`int(i)` for a `uint64`) is `toInt64`.
* A run-time panic is the outcome `panic`.
* Recursion of `parseValue` through `parseList` is bounded by an explicit
  fuel; `parseValue` supplies `len(b) + 1`, which is shown to be enough.
-/

namespace rlpv2

/-! ## Data model -/

/-- Node kinds the decoder writes into `Value.t`. -/
inductive ValueType
  | TypeBytes
  | TypeArray
deriving DecidableEq, Repr

/-- Modelled from the spec: the declaration of `Value` is not among the source
files; the fields are the ones `decode_v2.go` assigns: the discriminant `t`,
the byte view `b`, the length `l` (a `uint64`) and the children `a`. -/
inductive Value
  | mk (t : ValueType) (b : List UInt8) (l : Nat) (a : List Value)

namespace Value

def t : Value → ValueType
  | mk t _ _ _ => t

def b : Value → List UInt8
  | mk _ b _ _ => b

def l : Value → Nat
  | mk _ _ l _ => l

def a : Value → List Value
  | mk _ _ _ a => a

def setT (v : Value) (t : ValueType) : Value := mk t v.b v.l v.a

def setB (v : Value) (b : List UInt8) : Value := mk v.t b v.l v.a

def setL (v : Value) (l : Nat) : Value := mk v.t v.b l v.a

def setA (v : Value) (a : List Value) : Value := mk v.t v.b v.l a

/-- The Go zero value `Value{}` appended to the arena when it has to grow. -/
def zero : Value := mk ValueType.TypeArray [] 0 []

end Value

/-- Modelled from the spec: the arena `cache` (its declaration, `reset` and
`getValue` are not among the source files).  `buf` is the 8-byte scratch buffer
`readUint` writes, `vs` the node slots that are recycled from one parse to the
next, `n` the number of slots handed out since the last `reset`.  A `*Value` is
the index of its slot; a write through the pointer is `store`.  Which content a
recycled slot holds is left open: the theorems about the decoder hold for every
content. -/
structure cache where
  buf : Fin 8 → UInt8
  vs : List Value
  n : Nat

namespace cache

/-- A new `cache{}`. -/
def empty : cache := ⟨fun _ => 0, [], 0⟩

/-- Modelled from the spec: `reset` makes every slot available again. -/
def reset (c : cache) : cache := { c with n := 0 }

/-- Modelled from the spec: `getValue` hands out the next slot, with whatever
it held before, or a zero node when the arena has to grow. -/
def getValue (c : cache) : Nat × Value × cache :=
  if c.n < c.vs.length then (c.n, c.vs.getD c.n Value.zero, { c with n := c.n + 1 })
  else (c.vs.length, Value.zero, { c with vs := c.vs ++ [Value.zero], n := c.vs.length + 1 })

/-- A write through the pointer to slot `i`. -/
def store (c : cache) (i : Nat) (v : Value) : cache := { c with vs := c.vs.set i v }

end cache

/-- An `error` value built by `fmt.Errorf`. -/
inductive Error
  /-- `fmt.Errorf(msg)` -/
  | errorf (msg : String)
  /-- `fmt.Errorf(msg + ": %s", inner)` -/
  | wrapf (msg : String) (inner : Error)
deriving DecidableEq, Repr

namespace Error

/-- The text `err.Error()` renders. -/
def text : Error → String
  | errorf m => m
  | wrapf m e => m ++ ": " ++ e.text

/-- The innermost error of a chain of wrappings. -/
def cause : Error → Error
  | errorf m => errorf m
  | wrapf _ e => e.cause

end Error

/-- Outcome of one of the decoder's functions: the Go triple
`(result, tail, err)` with `err == nil` (`ok`) or `err != nil` (`err`), together
with the arena after the call; or a run-time panic; or `outOfFuel` when the
recursion bound of the embedding was too small. -/
inductive Res (α : Type)
  | ok (v : α) (tail : List UInt8) (c : cache)
  | err (e : Error) (tail : List UInt8) (c : cache)
  | panic
  | outOfFuel

/-- Go `int(i)` for a `uint64` `i`: two's complement reinterpretation. -/
def toInt64 (i : Nat) : Int :=
  if i % 2 ^ 64 < 2 ^ 63 then ((i % 2 ^ 64 : Nat) : Int) else ((i % 2 ^ 64 : Nat) : Int) - 2 ^ 64

/-- `binary.BigEndian.Uint64` of the 8-byte buffer. -/
def bigEndianUint64 (buf : Fin 8 → UInt8) : Nat :=
  (buf 0).toNat * 2 ^ 56 + (buf 1).toNat * 2 ^ 48 + (buf 2).toNat * 2 ^ 40
    + (buf 3).toNat * 2 ^ 32 + (buf 4).toNat * 2 ^ 24 + (buf 5).toNat * 2 ^ 16
    + (buf 6).toNat * 2 ^ 8 + (buf 7).toNat

/-! ## `decode_v2.go` -/

/-- The buffer after `for i := 0; i < ini; i++ { c.buf[i] = 0 }`. -/
def zeroFill (buf : Fin 8 → UInt8) (ini : Int) : Fin 8 → UInt8 :=
  fun j => if (j.val : Int) < ini then 0 else buf j

/-- The buffer after `copy(c.buf[ini:], src)`: `min(8 - ini, len(src))` bytes
are copied to the positions from `ini` on. -/
def copyAt (buf : Fin 8 → UInt8) (ini : Int) (src : List UInt8) : Fin 8 → UInt8 :=
  fun j =>
    if ini ≤ (j.val : Int) ∧ (j.val : Int) - ini < (src.length : Int)
    then src.getD (j.val - ini.toNat) 0 else buf j

/-- `readUint(b, size, c)`.  The zeroing loop panics at `c.buf[8]` when
`size < 0`; `c.buf[ini:]` panics when `size > 8`; `b[:size]` or `b[size:]`
panics when `size > len(b)`.  The `error` result is always `nil`. -/
def readUint (b : List UInt8) (size : Int) (c : cache) : Res Int :=
  let ini : Int := 8 - size
  if size < 0 ∨ 8 < size ∨ (b.length : Int) < size then Res.panic
  else
    let buf := copyAt (zeroFill c.buf ini) ini (b.take size.toNat)
    let i := bigEndianUint64 buf
    Res.ok (toInt64 i) (b.drop size.toNat) { c with buf := buf }

/-- `parseBytes(b, size, c)`.  `b[:size]` panics for a negative `size`. -/
def parseBytes (b : List UInt8) (size : Int) (c : cache) : Res Value :=
  if size > (b.length : Int) then Res.err (Error.errorf "length is not enough") [] c
  else if size < 0 then Res.panic
  else
    let (i, v, c) := c.getValue
    let v := ((v.setT ValueType.TypeBytes).setB (b.take size.toNat)).setL (size.toNat % 2 ^ 64)
    Res.ok v (b.drop size.toNat) (c.store i v)

/-- The `for size > 0` loop of `parseList`: `a` is the array node, `i` its slot,
`pv` the recursive call of `parseValue`, `k` bounds the number of iterations.
In the body `size > 0`, so `size -= pre - len(b)` does not overflow. -/
def parseListLoop (pv : List UInt8 → cache → Res Value) :
    Nat → List UInt8 → Int → Value → Nat → cache → Res Value
  | 0, _, _, _, _, _ => Res.outOfFuel
  | k + 1, b, size, a, i, c =>
    if size > 0 then
      match pv b c with
      | Res.ok v b' c' =>
        let a' := a.setA (a.a ++ [v])
        parseListLoop pv k b' (size - ((b.length : Int) - (b'.length : Int))) a' i (c'.store i a')
      | Res.err e b' c' => Res.err (Error.wrapf "cannot parse array value" e) b' c'
      | Res.panic => Res.panic
      | Res.outOfFuel => Res.outOfFuel
    else if size < 0 then Res.err (Error.errorf "bad ending") [] c
    else Res.ok a b c

/-- `parseList(b, size, c)`, the recursive call of `parseValue` being `pv`. -/
def parseListF (pv : List UInt8 → cache → Res Value) (b : List UInt8) (size : Int) (c : cache) :
    Res Value :=
  let (i, a, c) := c.getValue
  let a := (a.setT ValueType.TypeArray).setA []
  parseListLoop pv (b.length + 1) b size a i (c.store i a)

/-- `parseValue(b, c)` with recursion depth bounded by the first argument. -/
def parseValueF : Nat → List UInt8 → cache → Res Value
  | 0, _, _ => Res.outOfFuel
  | fuel + 1, b, c =>
    match b with
    | [] => Res.err (Error.errorf "cannot parse empty string") b c
    | cur :: rest =>
      if cur.toNat < 0x80 then
        let (i, v, c) := c.getValue
        let v := (v.setT ValueType.TypeBytes).setB [cur]
        Res.ok v rest (c.store i v)
      else if cur.toNat < 0xB8 then
        match parseBytes rest ((cur - 0x80).toNat : Int) c with
        | Res.err e tail c => Res.err (Error.wrapf "cannot parse short bytes" e) tail c
        | r => r
      else if cur.toNat < 0xC0 then
        match readUint rest ((cur - 0xB7).toNat : Int) c with
        | Res.err e tail c => Res.err (Error.wrapf "cannot read size of long bytes" e) tail c
        | Res.panic => Res.panic
        | Res.outOfFuel => Res.outOfFuel
        | Res.ok size tail c =>
          match parseBytes tail size c with
          | Res.err e tail c => Res.err (Error.wrapf "cannot parse long bytes" e) tail c
          | r => r
      else if cur.toNat < 0xF8 then
        match parseListF (parseValueF fuel) rest ((cur - 0xC0).toNat : Int) c with
        | Res.err e tail c => Res.err (Error.wrapf "cannot parse short bytes" e) tail c
        | r => r
      else
        match readUint rest ((cur - 0xF7).toNat : Int) c with
        | Res.err e tail c => Res.err (Error.wrapf "cannot read size of long array" e) tail c
        | Res.panic => Res.panic
        | Res.outOfFuel => Res.outOfFuel
        | Res.ok size tail c =>
          match parseListF (parseValueF fuel) tail size c with
          | Res.err e tail c => Res.err (Error.wrapf "cannot parse long array" e) tail c
          | r => r

/-- `parseValue(b, c)`. -/
def parseValue (b : List UInt8) (c : cache) : Res Value :=
  parseValueF (b.length + 1) b c

/-- `parseList(b, size, c)`. -/
def parseList (b : List UInt8) (size : Int) (c : cache) : Res Value :=
  parseListF parseValue b size c

/-- The decoder `Parser`. -/
structure Parser where
  c : cache

/-- What `Parser.Parse` gives back: `(v, nil)`, `(nil, err)` or a panic, and
the parser as the call leaves it. -/
inductive ParseResult
  | value (v : Value) (p : Parser)
  | error (e : Error) (p : Parser)
  | panic
  | outOfFuel

/-- `(*Parser).Parse(b)`. -/
def Parser.Parse (p : Parser) (b : List UInt8) : ParseResult :=
  match parseValue b p.c.reset with
  | Res.ok v _ c => ParseResult.value v ⟨c⟩
  | Res.err e _ c => ParseResult.error (Error.wrapf "cannot parse RLP" e) ⟨c⟩
  | Res.panic => ParseResult.panic
  | Res.outOfFuel => ParseResult.outOfFuel

/-- A new `Parser{}`. -/
def Parser.new : Parser := ⟨cache.empty⟩

/-! ## The value tree a caller reads off a result -/

/-- The discriminated union a `Value` stands for: a byte string or an ordered
sequence of trees. -/
inductive Tree
  | bytes (b : List UInt8)
  | array (items : List Tree)
deriving Repr

mutual
/-- Equality of trees is decidable. -/
def Tree.decEq : (x y : Tree) → Decidable (x = y)
  | Tree.bytes b, Tree.bytes b' =>
    if h : b = b' then isTrue (congrArg Tree.bytes h)
    else isFalse (fun h' => h (Tree.bytes.inj h'))
  | Tree.array xs, Tree.array ys =>
    match Tree.decEqList xs ys with
    | isTrue h => isTrue (congrArg Tree.array h)
    | isFalse h => isFalse (fun h' => h (Tree.array.inj h'))
  | Tree.bytes _, Tree.array _ => isFalse (fun h => Tree.noConfusion h)
  | Tree.array _, Tree.bytes _ => isFalse (fun h => Tree.noConfusion h)
def Tree.decEqList : (xs ys : List Tree) → Decidable (xs = ys)
  | [], [] => isTrue rfl
  | x :: xs, y :: ys =>
    match Tree.decEq x y, Tree.decEqList xs ys with
    | isTrue h, isTrue h' => isTrue (by rw [h, h'])
    | isFalse h, _ => isFalse (fun h' => h (List.cons.inj h').1)
    | _, isFalse h => isFalse (fun h' => h (List.cons.inj h').2)
  | [], _ :: _ => isFalse (fun h => List.noConfusion h)
  | _ :: _, [] => isFalse (fun h => List.noConfusion h)
end

instance : DecidableEq Tree := Tree.decEq

mutual
/-- The tree of a node: its discriminant, and the byte content of a bytes node
or the children, in order, of an array node. -/
def Value.view : Value → Tree
  | Value.mk ValueType.TypeBytes b _ _ => Tree.bytes b
  | Value.mk ValueType.TypeArray _ _ a => Tree.array (Value.viewList a)
def Value.viewList : List Value → List Tree
  | [] => []
  | v :: vs => v.view :: Value.viewList vs
end

/-- What a caller of `Parse` observes. -/
inductive Outcome
  | value (t : Tree)
  | error (e : Error)
  | panic
  | outOfFuel
deriving DecidableEq

def ParseResult.view : ParseResult → Outcome
  | ParseResult.value v _ => Outcome.value v.view
  | ParseResult.error e _ => Outcome.error e
  | ParseResult.panic => Outcome.panic
  | ParseResult.outOfFuel => Outcome.outOfFuel

/-- What a caller of `parseValue`, `parseBytes` or `parseList` observes. -/
inductive PRes
  | ok (t : Tree) (tail : List UInt8)
  | err (e : Error) (tail : List UInt8)
  | panic
  | outOfFuel
deriving DecidableEq

def Res.view : Res Value → PRes
  | Res.ok v tail _ => PRes.ok v.view tail
  | Res.err e tail _ => PRes.err e tail
  | Res.panic => PRes.panic
  | Res.outOfFuel => PRes.outOfFuel

/-! ## The decoder without the arena

`decodeF` is `parseValueF` on trees; `parseValueF_view` relates the two. -/

/-- The size and tail `readUint` returns, `none` when it panics. -/
def uintOf (b : List UInt8) (size : Int) : Option (Int × List UInt8) :=
  if size < 0 ∨ 8 < size ∨ (b.length : Int) < size then none
  else
    some (toInt64 (bigEndianUint64 fun j =>
      if (j.val : Int) < 8 - size then 0 else b.getD (j.val - (8 - size).toNat) 0),
      b.drop size.toNat)

def decBytes (b : List UInt8) (size : Int) : PRes :=
  if size > (b.length : Int) then PRes.err (Error.errorf "length is not enough") []
  else if size < 0 then PRes.panic
  else PRes.ok (Tree.bytes (b.take size.toNat)) (b.drop size.toNat)

def decLoop (pv : List UInt8 → PRes) : Nat → List UInt8 → Int → List Tree → PRes
  | 0, _, _, _ => PRes.outOfFuel
  | k + 1, b, size, acc =>
    if size > 0 then
      match pv b with
      | PRes.ok v b' =>
        decLoop pv k b' (size - ((b.length : Int) - (b'.length : Int))) (acc ++ [v])
      | PRes.err e b' => PRes.err (Error.wrapf "cannot parse array value" e) b'
      | PRes.panic => PRes.panic
      | PRes.outOfFuel => PRes.outOfFuel
    else if size < 0 then PRes.err (Error.errorf "bad ending") []
    else PRes.ok (Tree.array acc) b

def decList (pv : List UInt8 → PRes) (b : List UInt8) (size : Int) : PRes :=
  decLoop pv (b.length + 1) b size []

/-- Wrap the error of a failed step. -/
def PRes.wrap (msg : String) : PRes → PRes
  | PRes.err e tail => PRes.err (Error.wrapf msg e) tail
  | r => r

def decodeF : Nat → List UInt8 → PRes
  | 0, _ => PRes.outOfFuel
  | fuel + 1, b =>
    match b with
    | [] => PRes.err (Error.errorf "cannot parse empty string") b
    | cur :: rest =>
      if cur.toNat < 0x80 then PRes.ok (Tree.bytes [cur]) rest
      else if cur.toNat < 0xB8 then
        (decBytes rest ((cur - 0x80).toNat : Int)).wrap "cannot parse short bytes"
      else if cur.toNat < 0xC0 then
        match uintOf rest ((cur - 0xB7).toNat : Int) with
        | none => PRes.panic
        | some (size, tail) => (decBytes tail size).wrap "cannot parse long bytes"
      else if cur.toNat < 0xF8 then
        (decList (decodeF fuel) rest ((cur - 0xC0).toNat : Int)).wrap "cannot parse short bytes"
      else
        match uintOf rest ((cur - 0xF7).toNat : Int) with
        | none => PRes.panic
        | some (size, tail) => (decList (decodeF fuel) tail size).wrap "cannot parse long array"

/-! ## Notions used in the statements -/

/-- `pv` consumes at least one byte whenever it succeeds. -/
def Shrinks (pv : List UInt8 → PRes) : Prop :=
  ∀ b v t, pv b = PRes.ok v t → ∃ pre, b = pre ++ t ∧ 0 < pre.length

/-- `Chain pv b items tail`: the items `pv` decodes one after the other from `b`,
and what is left after them. -/
inductive Chain (pv : List UInt8 → PRes) : List UInt8 → List Tree → List UInt8 → Prop
  | nil (b : List UInt8) : Chain pv b [] b
  | cons {b t t' : List UInt8} {v : Tree} {vs : List Tree} :
      pv b = PRes.ok v t → Chain pv t vs t' → Chain pv b (v :: vs) t'

/-- The tree decoder with the fuel `parseValue` supplies. -/
def decode (b : List UInt8) : PRes := decodeF (b.length + 1) b

/-! ## Canonical RLP encoding, from the specification -/

/-- The unsigned integer a big-endian byte sequence denotes. -/
def beNat (bs : List UInt8) : Nat := bs.foldl (fun a x => a * 256 + x.toNat) 0

/-- The eight big-endian bytes of `n` (modulo `2^64`). -/
def bytes8 (n : Nat) : List UInt8 :=
  [UInt8.ofNat (n / 2 ^ 56), UInt8.ofNat (n / 2 ^ 48), UInt8.ofNat (n / 2 ^ 40),
   UInt8.ofNat (n / 2 ^ 32), UInt8.ofNat (n / 2 ^ 24), UInt8.ofNat (n / 2 ^ 16),
   UInt8.ofNat (n / 2 ^ 8), UInt8.ofNat n]

/-- The minimal big-endian bytes of `n`: no leading zero byte. -/
def beMinimal (n : Nat) : List UInt8 := (bytes8 n).dropWhile (fun x => x == 0)

/-- The prefix of an item with payload length `n`: `off + n` for `n ≤ 55`,
else `off + 55 + k` followed by the minimal `k` bytes of `n`
(`off` is `0x80` for strings, `0xC0` for lists). -/
def encodeHeader (off n : Nat) : List UInt8 :=
  if n < 56 then [UInt8.ofNat (off + n)]
  else UInt8.ofNat (off + 55 + (beMinimal n).length) :: beMinimal n

mutual
/-- The canonical RLP encoding of a value tree. -/
def canonicalEncode : Tree → List UInt8
  | Tree.bytes b =>
    if b.length = 1 ∧ (b.headD 0).toNat < 0x80 then b else encodeHeader 0x80 b.length ++ b
  | Tree.array xs => encodeHeader 0xC0 (canonicalEncodeList xs).length ++ canonicalEncodeList xs
/-- The payload of a list: the encodings of its items, one after the other. -/
def canonicalEncodeList : List Tree → List UInt8
  | [] => []
  | x :: xs => canonicalEncode x ++ canonicalEncodeList xs
end

mutual
/-- Every string length and every list payload length of the tree is below
`2^63`. -/
def Tree.lengthsOk : Tree → Bool
  | Tree.bytes b => decide (b.length < 2 ^ 63)
  | Tree.array xs => decide ((canonicalEncodeList xs).length < 2 ^ 63) && Tree.lengthsOkList xs
def Tree.lengthsOkList : List Tree → Bool
  | [] => true
  | x :: xs => Tree.lengthsOk x && Tree.lengthsOkList xs
end

/-- What `Parse` makes of the outcome of `parseValue`. -/
def PRes.toOutcome : PRes → Outcome
  | PRes.ok v _ => Outcome.value v
  | PRes.err e _ => Outcome.error (Error.wrapf "cannot parse RLP" e)
  | PRes.panic => Outcome.panic
  | PRes.outOfFuel => Outcome.outOfFuel

/-- The error class Truncated: the innermost cause is the length check of
`parseBytes`. -/
abbrev Error.isTruncated (e : Error) : Prop := e.cause = Error.errorf "length is not enough"

/-- The error class EmptyInput: the innermost cause is the empty-input check of
`parseValue`. -/
abbrev Error.isEmptyInput (e : Error) : Prop :=
  e.cause = Error.errorf "cannot parse empty string"

/-- The error class MalformedListEnding: the innermost cause is the final check
of `parseList`. -/
abbrev Error.isBadEnding (e : Error) : Prop := e.cause = Error.errorf "bad ending"

/-- The innermost cause of an input that ends too early: Truncated or
EmptyInput. -/
def Error.isCutShort (e : Error) : Prop := e.isTruncated ∨ e.isEmptyInput

/-- The step fails with a cut-short error. -/
def PRes.CutShort (r : PRes) : Prop := ∃ e tail, r = PRes.err e tail ∧ e.isCutShort

/-- `pv` does not look past the item it decodes, on inputs of length at most `n`. -/
def LocalUpTo (pv : List UInt8 → PRes) (t : List UInt8) (n : Nat) : Prop :=
  ∀ b v r, b.length ≤ n → pv b = PRes.ok v r → pv (b ++ t) = PRes.ok v (r ++ t)

/-- On inputs of length at most `n`, what `pv` consumes is an item by itself. -/
def ItemUpTo (pv : List UInt8 → PRes) (n : Nat) : Prop :=
  ∀ b v r pre, b.length ≤ n → pv b = PRes.ok v r → b = pre ++ r → pv pre = PRes.ok v []

/-- What `parseValue` decodes at the start of `b` (the arena has no influence on
it, see `itemAt_eq`). -/
def itemAt (b : List UInt8) : PRes := (parseValue b cache.empty).view

/-- The header of a string or list item, read off the grammar of the
specification: the kind, the declared payload length (an unsigned big-endian
number in the long forms) and the input that remains after the header. -/
structure ItemHeader where
  isList : Bool
  declared : Nat
  rest : List UInt8
deriving DecidableEq

/-- The header at the start of `b`: `none` for an empty input, a single literal
byte, or a long form with fewer length bytes than announced. -/
def headerOf : List UInt8 → Option ItemHeader
  | [] => none
  | cur :: rest =>
    if cur.toNat < 0x80 then none
    else if cur.toNat < 0xB8 then some ⟨false, cur.toNat - 0x80, rest⟩
    else if cur.toNat < 0xC0 then
      if rest.length < cur.toNat - 0xB7 then none
      else some ⟨false, beNat (rest.take (cur.toNat - 0xB7)), rest.drop (cur.toNat - 0xB7)⟩
    else if cur.toNat < 0xF8 then some ⟨true, cur.toNat - 0xC0, rest⟩
    else
      if rest.length < cur.toNat - 0xF7 then none
      else some ⟨true, beNat (rest.take (cur.toNat - 0xF7)), rest.drop (cur.toNat - 0xF7)⟩

/-- The node a call of `Parse` returns, when it returns one. -/
def ParseResult.value? : ParseResult → Option Value
  | ParseResult.value v _ => some v
  | _ => none

/-- The parser as a call of `Parse` that returned leaves it. -/
def ParseResult.parser? : ParseResult → Option Parser
  | ParseResult.value _ p => some p
  | ParseResult.error _ p => some p
  | ParseResult.panic => none
  | ParseResult.outOfFuel => none

/-- The size and tail a call of `readUint` returns, when it returns. -/
def Res.result? : Res Int → Option (Int × List UInt8)
  | Res.ok n tail _ => some (n, tail)
  | _ => none

/-- The number `n` written as exactly `k` big-endian bytes (modulo `256^k`),
leading zero bytes included. -/
def beFixed : Nat → Nat → List UInt8
  | 0, _ => []
  | k + 1, n => beFixed k (n / 256) ++ [UInt8.ofNat n]

/-- The phases a wrapping error can name. -/
inductive Phase
  | string
  | array
  | longSize
deriving DecidableEq, Repr

/-- The phase named by the message of a wrapping error of `parseValue`: the
"... bytes" messages name the string phase, the "... array" ones the array
phase, the "cannot read size of ..." ones the long-size phase. -/
def phaseOf (msg : String) : Option Phase :=
  if msg = "cannot parse short bytes" ∨ msg = "cannot parse long bytes" then some Phase.string
  else if msg = "cannot parse short array" ∨ msg = "cannot parse long array" then some Phase.array
  else if msg = "cannot read size of long bytes" ∨ msg = "cannot read size of long array"
  then some Phase.longSize
  else none

/-- The phase an error names, when it is a wrapping error. -/
def Error.phase : Error → Option Phase
  | Error.wrapf msg _ => phaseOf msg
  | Error.errorf _ => none

/-- The message `parseValue` wraps a failure with, by the leading byte of the
item (from `0x80` on). -/
def itemMessage (cur : UInt8) : String :=
  if cur.toNat < 0xB8 then "cannot parse short bytes"
  else if cur.toNat < 0xC0 then "cannot parse long bytes"
  else if cur.toNat < 0xF8 then "cannot parse short bytes"
  else "cannot parse long array"

end rlpv2

namespace blockchain

/-! ## `subscription.go`

The log is a heap of `eventElem` nodes; a `*eventElem` is the index of a node,
`none` the nil pointer.  A `chan struct{}` is the number `make` gave it, `none`
the nil channel.  An `*Event` is `some` event or `none` for nil.

`Subscription.GetEvent` is a call of `GetEvent` that no `push` overlaps: a call
that finds no successor and no closed `closeCh` waits in `select`, which is
reported as `blocked`.  `System.step` interleaves the steps of any number of
subscribers inside `GetEvent` with calls of `push` and `subscribe`: a call that
waits stays parked until a `push` sends on its channel, and goes on from there.
`Conc.step` is the same interleaving for one subscriber.
-/

/-- Modelled from the spec: `types.Header` is outside the source files; a header
record is identified by its content. -/
structure Header where
  content : List UInt8
deriving DecidableEq, Repr

/-- The heap of header records; a `*types.Header` is the index of a record. -/
abbrev HeaderHeap := List Header

/-- `Event`: the two header sequences, each a `[]*types.Header`. -/
structure Event where
  OldChain : List Nat
  NewChain : List Nat
deriving DecidableEq, Repr

/-- `eventElem`: an event pointer and the link to the next node. -/
structure eventElem where
  event : Option Event
  next : Option Nat
deriving DecidableEq, Repr

/-- The heap: the `eventElem` nodes allocated so far, the number of channels
made so far, and the channels that have been closed. -/
structure Mem where
  elems : List eventElem
  chans : Nat
  closed : List Nat
deriving DecidableEq, Repr

/-- `eventStream` (the mutex is not modelled: calls are atomic). -/
structure eventStream where
  head : Option Nat
  updateCh : List Nat
deriving DecidableEq, Repr

/-- `Subscription`. -/
structure Subscription where
  updateCh : Option Nat
  closeCh : Option Nat
  elem : Option Nat
deriving DecidableEq, Repr

/-- A new heap. -/
def Mem.empty : Mem := ⟨[], 0, []⟩

/-- A new `eventStream{}`. -/
def eventStream.new : eventStream := ⟨none, []⟩

/-- `(*eventStream).Head()`: the current head and a newly made channel, which is
appended to `e.updateCh`. -/
def eventStream.Head (m : Mem) (e : eventStream) : (Option Nat × Nat) × Mem × eventStream :=
  ((e.head, m.chans), { m with chans := m.chans + 1 },
    { e with updateCh := e.updateCh ++ [m.chans] })

/-- `(*eventStream).subscribe()`: `closeCh` is not set and keeps its zero value,
the nil channel. -/
def eventStream.subscribe (m : Mem) (e : eventStream) : Subscription × Mem × eventStream :=
  match eventStream.Head m e with
  | ((head, updateCh), m', e') =>
    ({ elem := head, updateCh := some updateCh, closeCh := none }, m', e')

/-- Write `p.next = q` for the node at index `p`. -/
def Mem.setNext (m : Mem) (p q : Nat) : Mem :=
  match m.elems[p]? with
  | some el => { m with elems := m.elems.set p { el with next := some q } }
  | none => m

/-- `(*eventStream).push(event)`: allocate the new node, link it after the
current head when there is one, make it the head.  The notification loop
changes nothing in the heap or the stream; which parked subscribers its sends
wake is part of `System.step` and `Conc.step`. -/
def eventStream.push (m : Mem) (e : eventStream) (event : Option Event) : Mem × eventStream :=
  let newHead := m.elems.length
  let m1 : Mem := { m with elems := m.elems ++ [⟨event, none⟩] }
  let m2 : Mem :=
    match e.head with
    | some h => m1.setNext h newHead
    | none => m1
  (m2, { e with head := some newHead })

/-- How a call of `GetEvent` ends: it returns an `*Event` (nil when the
subscription is closed), it waits in `select` with no case ready, or it panics
on a nil pointer. -/
inductive GetEventResult
  | returned (event : Option Event)
  | blocked
  | panic
deriving DecidableEq, Repr

/-- `(*Subscription).GetEvent()`, with the subscription as the call leaves it.
`s.elem.next` dereferences `s.elem`.  In `select`, `updateCh` has no sender and
is never closed; `closeCh` is ready only when it is a closed channel, a nil
channel never is. -/
def Subscription.GetEvent (m : Mem) (s : Subscription) : GetEventResult × Subscription :=
  match s.elem with
  | none => (GetEventResult.panic, s)
  | some i =>
    match m.elems[i]? with
    | none => (GetEventResult.panic, s)
    | some el =>
      match el.next with
      | some j =>
        match m.elems[j]? with
        | some el' => (GetEventResult.returned el'.event, { s with elem := some j })
        | none => (GetEventResult.panic, { s with elem := some j })
      | none =>
        match s.closeCh with
        | some c => if c ∈ m.closed then (GetEventResult.returned none, s)
                    else (GetEventResult.blocked, s)
        | none => (GetEventResult.blocked, s)

/-- `(*Subscription).Close()`: `close` panics (`none`) on a nil channel and on a
channel that is already closed. -/
def Subscription.Close (m : Mem) (s : Subscription) : Option Mem :=
  match s.closeCh with
  | none => none
  | some c => if c ∈ m.closed then none else some { m with closed := c :: m.closed }

/-- Push the events of a list, in order. -/
def pushAll (m : Mem) (e : eventStream) : List (Option Event) → Mem × eventStream
  | [] => (m, e)
  | ev :: evs => pushAll (eventStream.push m e ev).1 (eventStream.push m e ev).2 evs

/-- The results of `n` successive calls of `GetEvent`, and the subscription
after them. -/
def getEvents (m : Mem) : Nat → Subscription → List GetEventResult × Subscription
  | 0, s => ([], s)
  | n + 1, s =>
    ((Subscription.GetEvent m s).1 :: (getEvents m n (Subscription.GetEvent m s).2).1,
      (getEvents m n (Subscription.GetEvent m s).2).2)

/-- The events of the log, oldest first. -/
def Mem.events (m : Mem) : List (Option Event) := m.elems.map eventElem.event

/-- The nodes form one chain in allocation order and the head is the last
node: the shape of every log built by `push` from a new `eventStream`. -/
def WellLinked (m : Mem) (e : eventStream) : Prop :=
  (∀ i el, m.elems[i]? = some el →
    el.next = if i + 1 < m.elems.length then some (i + 1) else none) ∧
  e.head = if m.elems.length = 0 then none else some (m.elems.length - 1)

/-- The scenario of a subscriber that arrives between two runs of pushes: push
`es1`, subscribe, push `es2`; the heap at the end and the subscription. -/
def subscribeBetween (m : Mem) (e : eventStream) (es1 es2 : List (Option Event)) :
    Mem × Subscription :=
  ((pushAll (eventStream.subscribe (pushAll m e es1).1 (pushAll m e es1).2).2.1
      (eventStream.subscribe (pushAll m e es1).1 (pushAll m e es1).2).2.2 es2).1,
    (eventStream.subscribe (pushAll m e es1).1 (pushAll m e es1).2).1)

/-- Modelled from the spec: `(*types.Header).Copy()` is outside the source
files; headers are deep-copied at insertion: `Copy` allocates a new record with
the content of the record `h` points to and returns the pointer to it, and
panics (`none`) when `h` points to no record, as the nil pointer does. -/
def Header.Copy (heap : HeaderHeap) (h : Nat) : Option (Nat × HeaderHeap) :=
  match heap[h]? with
  | some hd => some (heap.length, heap ++ [hd])
  | none => none

/-- `(*Event).AddNewHeader(h)`: the heap and the event after the call. -/
def Event.AddNewHeader (heap : HeaderHeap) (e : Event) (h : Nat) : Option (HeaderHeap × Event) :=
  match Header.Copy heap h with
  | some (hh, heap') => some (heap', { e with NewChain := e.NewChain ++ [hh] })
  | none => none

/-- `(*Event).AddOldHeader(h)`: the heap and the event after the call. -/
def Event.AddOldHeader (heap : HeaderHeap) (e : Event) (h : Nat) : Option (HeaderHeap × Event) :=
  match Header.Copy heap h with
  | some (hh, heap') => some (heap', { e with OldChain := e.OldChain ++ [hh] })
  | none => none

/-- The records the pointers of a chain point to, in order. -/
def deref (heap : HeaderHeap) (chain : List Nat) : List (Option Header) :=
  chain.map fun p => heap[p]?

/-- The nodes met from node `i` on by following the links, at most `fuel` of
them. -/
def Mem.chainFromF (m : Mem) : Nat → Nat → List Nat
  | 0, _ => []
  | fuel + 1, i =>
    match m.elems[i]? with
    | none => []
    | some el =>
      i :: (match el.next with
            | some j => m.chainFromF fuel j
            | none => [])

/-- The sequence of nodes reachable from node `i`. -/
def Mem.chainFrom (m : Mem) (i : Nat) : List Nat := m.chainFromF m.elems.length i

/-- Where the goroutine of a subscriber is inside `GetEvent`: about to test
`s.elem.next` at the head of the loop; past the test, which found no successor,
and about to execute `select`; parked in `select` as a ready receiver on its
channels; returned with an `*Event`; or stopped by a panic. -/
inductive Pc
  | checking
  | selecting
  | waiting
  | returned (event : Option Event)
  | panicked
deriving DecidableEq, Repr

/-- A log, one subscription of it, and the place of the subscriber's goroutine
in its call of `GetEvent`. -/
structure Conc where
  m : Mem
  e : eventStream
  s : Subscription
  pc : Pc
deriving DecidableEq

/-- The scheduler's choices: the subscriber's goroutine takes its next step, or
the writer runs one call of `push`. -/
inductive Act
  | sub
  | push (event : Option Event)

/-- One step of an interleaved execution (`none`: the chosen goroutine cannot
move).  The subscriber's steps are the test of `s.elem.next` and the `select`;
`select` returns nil when `closeCh` is a closed channel and parks otherwise; a
parked subscriber has no step of its own.  A call of `push` is one step; its
non-blocking send on the subscriber's `updateCh` is received only when the
subscriber is parked in `select`, which then loops (`continue`), and is dropped
otherwise. -/
def Conc.step (st : Conc) : Act → Option Conc
  | Act.sub =>
    match st.pc with
    | Pc.checking =>
      match st.s.elem with
      | none => some { st with pc := Pc.panicked }
      | some i =>
        match st.m.elems[i]? with
        | none => some { st with pc := Pc.panicked }
        | some el =>
          match el.next with
          | some j =>
            match st.m.elems[j]? with
            | some el' =>
              some { st with s := { st.s with elem := some j }, pc := Pc.returned el'.event }
            | none => some { st with s := { st.s with elem := some j }, pc := Pc.panicked }
          | none => some { st with pc := Pc.selecting }
    | Pc.selecting =>
      match st.s.closeCh with
      | some c =>
        if c ∈ st.m.closed then some { st with pc := Pc.returned none }
        else some { st with pc := Pc.waiting }
      | none => some { st with pc := Pc.waiting }
    | Pc.waiting => none
    | Pc.returned _ => none
    | Pc.panicked => none
  | Act.push event =>
    some { st with
      m := (eventStream.push st.m st.e event).1,
      e := (eventStream.push st.m st.e event).2,
      pc := if st.pc = Pc.waiting ∧ (∃ ch, st.s.updateCh = some ch ∧ ch ∈ st.e.updateCh)
            then Pc.checking else st.pc }

/-- The start of the scenario: one event `e0` has been pushed to a new log, a
subscription has been taken, and its `GetEvent` has been called. -/
def Conc.start (e0 : Option Event) : Conc :=
  { m := (eventStream.subscribe (eventStream.push Mem.empty eventStream.new e0).1
            (eventStream.push Mem.empty eventStream.new e0).2).2.1,
    e := (eventStream.subscribe (eventStream.push Mem.empty eventStream.new e0).1
            (eventStream.push Mem.empty eventStream.new e0).2).2.2,
    s := (eventStream.subscribe (eventStream.push Mem.empty eventStream.new e0).1
            (eventStream.push Mem.empty eventStream.new e0).2).1,
    pc := Pc.checking }

/-- The states of the stalling execution: after the test, after the `push` of
`e1`, after the `select`. -/
def Conc.stall (e0 e1 : Option Event) : Conc × Conc × Conc :=
  ({ Conc.start e0 with pc := Pc.selecting },
   { m := ⟨[⟨e0, some 1⟩, ⟨e1, none⟩], 1, []⟩, e := ⟨some 1, [0]⟩,
     s := ⟨some 0, none, some 0⟩, pc := Pc.selecting },
   { m := ⟨[⟨e0, some 1⟩, ⟨e1, none⟩], 1, []⟩, e := ⟨some 1, [0]⟩,
     s := ⟨some 0, none, some 0⟩, pc := Pc.waiting })

/-- A subscription in use: the `Subscription` and the place of the goroutine
that calls `GetEvent` on it, `none` between two calls.  A call that returns
leaves `none` and its result in the record, so `Pc.returned` does not occur
here. -/
structure Subscriber where
  s : Subscription
  pc : Option Pc
deriving DecidableEq

/-- A log with its subscriptions: the heap, the `eventStream` and the
subscriptions handed out so far with their goroutines, in the order of the
`subscribe` calls. -/
structure System where
  m : Mem
  e : eventStream
  subs : List Subscriber

/-- A new `eventStream` with no subscription. -/
def System.new : System := ⟨Mem.empty, eventStream.new, []⟩

/-- The scheduler's choices: the writer runs one call of `push(event)`, a call
of `subscribe()` is made, or the goroutine of subscription number `i` takes its
next step in `GetEvent`, calling it when it is between two calls. -/
inductive Op
  | push (event : Option Event)
  | subscribe
  | getEvent (i : Nat)
deriving DecidableEq

/-- A subscriber that receives from the channel `ch`: parked in `select` on this
channel, it loops (`continue`) to the head of the loop. -/
def Subscriber.wake (p : Subscriber) (ch : Nat) : Subscriber :=
  if p.pc = some Pc.waiting ∧ p.s.updateCh = some ch then { p with pc := some Pc.checking }
  else p

/-- The non-blocking send `select { case update <- struct{}{}: default: }` of
`push` on the channel `ch`: one subscriber parked in `select` on this channel
receives; when there is none, the send takes the `default` branch and is
dropped. -/
def send : List Subscriber → Nat → List Subscriber
  | [], _ => []
  | p :: ps, ch =>
    if p.pc = some Pc.waiting ∧ p.s.updateCh = some ch then p.wake ch :: ps
    else p :: send ps ch

/-- One step of an interleaved execution: the system after it and what it
records, the result of a call of `GetEvent` that ends in this step together with
the number of the subscription.  A call of `push` is one step: it links the new
node and sends on every channel of `e.updateCh`, in order.  The steps of a
subscriber inside `GetEvent` are the test of `s.elem.next` and the `select`;
`select` returns nil when `closeCh` is a closed channel and parks otherwise.  A
parked subscriber has no step of its own: its call goes on when a `push` sends
on its channel.  A step of a subscription that does not exist, or whose
goroutine has panicked, is no step. -/
def System.step (sys : System) : Op → System × List (Nat × GetEventResult)
  | Op.push event =>
    ({ m := (eventStream.push sys.m sys.e event).1,
       e := (eventStream.push sys.m sys.e event).2,
       subs := sys.e.updateCh.foldl send sys.subs }, [])
  | Op.subscribe =>
    ({ m := (eventStream.subscribe sys.m sys.e).2.1,
       e := (eventStream.subscribe sys.m sys.e).2.2,
       subs := sys.subs ++ [⟨(eventStream.subscribe sys.m sys.e).1, none⟩] }, [])
  | Op.getEvent i =>
    match sys.subs[i]? with
    | none => (sys, [])
    | some p =>
      match p.pc with
      | none | some Pc.checking =>
        match p.s.elem with
        | none =>
          ({ sys with subs := sys.subs.set i { p with pc := some Pc.panicked } },
            [(i, GetEventResult.panic)])
        | some c =>
          match sys.m.elems[c]? with
          | none =>
            ({ sys with subs := sys.subs.set i { p with pc := some Pc.panicked } },
              [(i, GetEventResult.panic)])
          | some el =>
            match el.next with
            | some j =>
              match sys.m.elems[j]? with
              | some el' =>
                ({ sys with
                    subs := sys.subs.set i { s := { p.s with elem := some j }, pc := none } },
                  [(i, GetEventResult.returned el'.event)])
              | none =>
                ({ sys with
                    subs := sys.subs.set i
                      { s := { p.s with elem := some j }, pc := some Pc.panicked } },
                  [(i, GetEventResult.panic)])
            | none => ({ sys with subs := sys.subs.set i { p with pc := some Pc.selecting } }, [])
      | some Pc.selecting =>
        match p.s.closeCh with
        | some c =>
          if c ∈ sys.m.closed then
            ({ sys with subs := sys.subs.set i { p with pc := none } },
              [(i, GetEventResult.returned none)])
          else ({ sys with subs := sys.subs.set i { p with pc := some Pc.waiting } }, [])
        | none => ({ sys with subs := sys.subs.set i { p with pc := some Pc.waiting } }, [])
      | some Pc.waiting => (sys, [])
      | some (Pc.returned _) => (sys, [])
      | some Pc.panicked => (sys, [])

/-- A sequence of steps: the system after them and the record of all
`GetEvent` results. -/
def System.run (sys : System) : List Op → System × List (Nat × GetEventResult)
  | [] => (sys, [])
  | op :: ops => (((sys.step op).1.run ops).1, (sys.step op).2 ++ ((sys.step op).1.run ops).2)

/-- What subscription `i` retrieved, in order. -/
def retrieved (i : Nat) (record : List (Nat × GetEventResult)) : List GetEventResult :=
  (record.filter fun r => r.1 = i).map Prod.snd

/-- The step is a step of a subscription other than `i`. -/
def Op.isOther (i : Nat) : Op → Bool
  | Op.getEvent j => decide (j ≠ i)
  | _ => false

/-- The steps without the steps of the subscriptions other than `i`. -/
def withoutOthers (i : Nat) (ops : List Op) : List Op :=
  ops.filter fun op => !(op.isOther i)

/-- Two systems with the same log and the same subscription `i`. -/
def Agree (i : Nat) (sys sys' : System) : Prop :=
  sys.m = sys'.m ∧ sys.e = sys'.e ∧ sys.subs.length = sys'.subs.length ∧
  sys.subs[i]? = sys'.subs[i]?

/-- The shape of every system reached from a new `eventStream`: the log is one
chain, no two subscriptions share their wake channel, and every subscription has
a channel that `Head` made and appended to `e.updateCh`, the nil `closeCh`, and a
cursor that is nil or a node of the log. -/
def System.Valid (sys : System) : Prop :=
  WellLinked sys.m sys.e ∧
  ((sys.subs.map Subscriber.s).map Subscription.updateCh).Nodup ∧
  ∀ s ∈ sys.subs.map Subscriber.s,
    s.closeCh = none ∧
    (∃ ch, s.updateCh = some ch ∧ ch < sys.m.chans ∧ ch ∈ sys.e.updateCh) ∧
    ∀ c, s.elem = some c → c < sys.m.elems.length

end blockchain

namespace rlpv2

/-! ## Relating the arena decoder to the tree decoder -/

@[simp] theorem Value.view_bytes (v : Value) (x : List UInt8) :
    ((v.setT ValueType.TypeBytes).setB x).view = Tree.bytes x := by
  cases v; simp [Value.setT, Value.setB, Value.view, Value.t, Value.b, Value.l, Value.a]

@[simp] theorem Value.view_bytes_l (v : Value) (x : List UInt8) (n : Nat) :
    (((v.setT ValueType.TypeBytes).setB x).setL n).view = Tree.bytes x := by
  cases v
  simp [Value.setT, Value.setB, Value.setL, Value.view, Value.t, Value.b, Value.l, Value.a]

theorem Value.view_array (v : Value) (h : v.t = ValueType.TypeArray) :
    v.view = Tree.array (Value.viewList v.a) := by
  cases v
  simp only [Value.t] at h
  subst h
  simp [Value.view, Value.a]

theorem Value.viewList_append (xs ys : List Value) :
    Value.viewList (xs ++ ys) = Value.viewList xs ++ Value.viewList ys := by
  induction xs with
  | nil => simp [Value.viewList]
  | cons x xs ih => simp [Value.viewList, ih]

theorem readUint_buf (b : List UInt8) (size : Int) (buf : Fin 8 → UInt8)
    (h : ¬ (size < 0 ∨ 8 < size ∨ (b.length : Int) < size)) :
    copyAt (zeroFill buf (8 - size)) (8 - size) (b.take size.toNat)
      = fun j => if (j.val : Int) < 8 - size then 0 else b.getD (j.val - (8 - size).toNat) 0 := by
  funext j
  have hj := j.isLt
  have hlen : ((b.take size.toNat).length : Int) = size := by
    simp only [List.length_take]; omega
  unfold copyAt zeroFill
  by_cases h1 : (j.val : Int) < 8 - size
  · rw [if_neg (by omega), if_pos h1, if_pos h1]
  · rw [if_pos (by omega), if_neg h1]
    have hidx : j.val - (8 - size).toNat < size.toNat := by omega
    rw [List.getD_eq_getElem?_getD, List.getD_eq_getElem?_getD, List.getElem?_take_of_lt hidx]

theorem readUint_eq (b : List UInt8) (size : Int) (c : cache) :
    (readUint b size c = Res.panic ∧ uintOf b size = none) ∨
    ∃ n tail c', readUint b size c = Res.ok n tail c' ∧ uintOf b size = some (n, tail) := by
  unfold readUint uintOf
  by_cases h : size < 0 ∨ 8 < size ∨ (b.length : Int) < size
  · left; simp [h]
  · right
    simp only [h, if_false]
    rw [readUint_buf b size c.buf h]
    exact ⟨_, _, _, rfl, rfl⟩

theorem parseBytes_view (b : List UInt8) (size : Int) (c : cache) :
    (parseBytes b size c).view = decBytes b size := by
  unfold parseBytes decBytes
  split
  · rfl
  · split
    · rfl
    · simp [Res.view]

theorem parseListLoop_view (pv : List UInt8 → cache → Res Value) (pv' : List UInt8 → PRes)
    (hpv : ∀ b c, (pv b c).view = pv' b) :
    ∀ (k : Nat) (b : List UInt8) (size : Int) (a : Value) (i : Nat) (c : cache),
      a.t = ValueType.TypeArray →
      (parseListLoop pv k b size a i c).view = decLoop pv' k b size (Value.viewList a.a) := by
  intro k
  induction k with
  | zero => intro b size a i c _; rfl
  | succ k ih =>
    intro b size a i c ha
    unfold parseListLoop decLoop
    by_cases h1 : size > 0
    · simp only [h1, if_true]
      have h := hpv b c
      cases hr : pv b c with
      | ok v b' c' =>
        rw [hr] at h
        simp only [Res.view] at h
        rw [← h]
        simp only []
        rw [ih _ _ _ _ _ (by cases a; simp_all [Value.setA, Value.t])]
        congr 1
        cases a
        simp [Value.setA, Value.a, Value.viewList_append, Value.viewList]
      | err e b' c' => rw [hr] at h; simp only [Res.view] at h; rw [← h]; rfl
      | panic => rw [hr] at h; simp only [Res.view] at h; rw [← h]; rfl
      | outOfFuel => rw [hr] at h; simp only [Res.view] at h; rw [← h]; rfl
    · simp only [h1, if_false]
      split
      · rfl
      · simp [Res.view, Value.view_array a ha]

theorem parseListF_view (pv : List UInt8 → cache → Res Value) (pv' : List UInt8 → PRes)
    (hpv : ∀ b c, (pv b c).view = pv' b) (b : List UInt8) (size : Int) (c : cache) :
    (parseListF pv b size c).view = decList pv' b size := by
  unfold parseListF decList
  simp only []
  rw [parseListLoop_view pv pv' hpv]
  · rfl
  · rfl

theorem Res.view_wrap (msg : String) (r : Res Value) :
    (match r with
      | Res.err e tail c => Res.err (Error.wrapf msg e) tail c
      | r => r).view = r.view.wrap msg := by
  cases r <;> rfl

theorem parseValueF_view : ∀ (fuel : Nat) (b : List UInt8) (c : cache),
    (parseValueF fuel b c).view = decodeF fuel b := by
  intro fuel
  induction fuel with
  | zero => intro b c; rfl
  | succ fuel ih =>
    intro b c
    cases b with
    | nil => rfl
    | cons cur rest =>
      unfold parseValueF decodeF
      simp only []
      split
      · simp [Res.view]
      · split
        · rw [Res.view_wrap, parseBytes_view]
        · split
          · rcases readUint_eq rest ((cur - 0xB7).toNat : Int) c with ⟨h1, h2⟩ | ⟨n, t, c', h1, h2⟩
            · rw [h1, h2]; rfl
            · rw [h1, h2]; simp only []; rw [Res.view_wrap, parseBytes_view]
          · split
            · rw [Res.view_wrap, parseListF_view _ _ ih]
            · rcases readUint_eq rest ((cur - 0xF7).toNat : Int) c with ⟨h1, h2⟩ | ⟨n, t, c', h1, h2⟩
              · rw [h1, h2]; rfl
              · rw [h1, h2]; simp only []; rw [Res.view_wrap, parseListF_view _ _ ih]

/-! ## What a successful step consumes -/

theorem PRes.wrap_ok {msg : String} {r : PRes} {v : Tree} {t : List UInt8}
    (h : r.wrap msg = PRes.ok v t) : r = PRes.ok v t := by
  cases r <;> simp_all [PRes.wrap]

theorem PRes.wrap_ne_outOfFuel {msg : String} {r : PRes}
    (h : r ≠ PRes.outOfFuel) : r.wrap msg ≠ PRes.outOfFuel := by
  cases r <;> simp_all [PRes.wrap]

theorem decBytes_ok {b : List UInt8} {size : Int} {v : Tree} {t : List UInt8}
    (h : decBytes b size = PRes.ok v t) :
    0 ≤ size ∧ size ≤ b.length ∧ v = Tree.bytes (b.take size.toNat) ∧ t = b.drop size.toNat := by
  unfold decBytes at h
  split at h
  · simp at h
  · split at h
    · simp at h
    · simp only [PRes.ok.injEq] at h
      refine ⟨by omega, by omega, h.1.symm, h.2.symm⟩

theorem uintOf_some {b : List UInt8} {size n : Int} {t : List UInt8}
    (h : uintOf b size = some (n, t)) :
    0 ≤ size ∧ size ≤ 8 ∧ size ≤ b.length ∧ t = b.drop size.toNat := by
  unfold uintOf at h
  split at h
  · simp at h
  · simp only [Option.some.injEq, Prod.mk.injEq] at h
    refine ⟨by omega, by omega, by omega, h.2.symm⟩

theorem decLoop_ok {pv : List UInt8 → PRes} (hpv : Shrinks pv) :
    ∀ (k : Nat) (b : List UInt8) (size : Int) (acc : List Tree) (v : Tree) (tail : List UInt8),
      decLoop pv k b size acc = PRes.ok v tail →
      ∃ items pre, v = Tree.array (acc ++ items) ∧ b = pre ++ tail ∧ (pre.length : Int) = size ∧
        Chain pv b items tail := by
  intro k
  induction k with
  | zero => intro b size acc v tail h; simp [decLoop] at h
  | succ k ih =>
    intro b size acc v tail h
    unfold decLoop at h
    by_cases h1 : size > 0
    · simp only [h1, if_true] at h
      cases hr : pv b with
      | ok x b' =>
        rw [hr] at h
        simp only [] at h
        obtain ⟨items, pre, hv, hb, hlen, hch⟩ := ih _ _ _ _ _ h
        obtain ⟨p0, hp0, _⟩ := hpv _ _ _ hr
        refine ⟨x :: items, p0 ++ pre, by simp [hv], by rw [hp0, hb]; simp, ?_, Chain.cons hr hch⟩
        have : b.length = p0.length + b'.length := by rw [hp0]; simp
        simp only [List.length_append, Nat.cast_add]
        omega
      | err e b' => rw [hr] at h; simp at h
      | panic => rw [hr] at h; simp at h
      | outOfFuel => rw [hr] at h; simp at h
    · simp only [h1, if_false] at h
      split at h
      · simp at h
      · simp only [PRes.ok.injEq] at h
        refine ⟨[], [], by simp [h.1], by simp [h.2], by simp; omega, ?_⟩
        rw [h.2]; exact Chain.nil _

theorem decodeF_shrinks : ∀ fuel, Shrinks (decodeF fuel) := by
  intro fuel
  induction fuel with
  | zero => intro b v t h; simp [decodeF] at h
  | succ fuel ih =>
    intro b v t h
    cases b with
    | nil => simp [decodeF] at h
    | cons cur rest =>
      unfold decodeF at h
      simp only [] at h
      split at h
      · simp only [PRes.ok.injEq] at h
        exact ⟨[cur], by simp [h.2], by simp⟩
      · split at h
        · obtain ⟨_, _, _, ht⟩ := decBytes_ok (PRes.wrap_ok h)
          exact ⟨cur :: rest.take (cur - 0x80).toNat, by rw [ht]; simp, by simp⟩
        · split at h
          · cases hu : uintOf rest ((cur - 0xB7).toNat : Int) with
            | none => rw [hu] at h; simp at h
            | some p =>
              obtain ⟨n, tl⟩ := p
              rw [hu] at h
              simp only [] at h
              obtain ⟨_, _, _, ht⟩ := decBytes_ok (PRes.wrap_ok h)
              obtain ⟨_, _, _, htl⟩ := uintOf_some hu
              refine ⟨cur :: (rest.take (cur - 0xB7).toNat ++ tl.take n.toNat), ?_, by simp⟩
              rw [ht]
              simp only [List.cons_append, List.append_assoc, List.take_append_drop]
              rw [htl]; simp
          · split at h
            · obtain ⟨items, pre, _, hb, _, _⟩ := decLoop_ok ih _ _ _ _ _ _ (PRes.wrap_ok h)
              exact ⟨cur :: pre, by rw [hb]; simp, by simp⟩
            · cases hu : uintOf rest ((cur - 0xF7).toNat : Int) with
              | none => rw [hu] at h; simp at h
              | some p =>
                obtain ⟨n, tl⟩ := p
                rw [hu] at h
                simp only [] at h
                obtain ⟨items, pre, _, hb, _, _⟩ := decLoop_ok ih _ _ _ _ _ _ (PRes.wrap_ok h)
                obtain ⟨_, _, _, htl⟩ := uintOf_some hu
                refine ⟨cur :: (rest.take (cur - 0xF7).toNat ++ pre), ?_, by simp⟩
                simp only [List.cons_append, List.append_assoc]
                rw [← hb, htl]
                simp

/-! ## The fuel is enough, and the result does not depend on it -/

theorem decLoop_congr {pv pv' : List UInt8 → PRes} (hpv : Shrinks pv) :
    ∀ (k : Nat) (b : List UInt8) (size : Int) (acc : List Tree),
      (∀ b' : List UInt8, b'.length ≤ b.length → pv b' = pv' b') →
      decLoop pv k b size acc = decLoop pv' k b size acc := by
  intro k
  induction k with
  | zero => intro b size acc _; rfl
  | succ k ih =>
    intro b size acc hag
    unfold decLoop
    rw [← hag b (le_refl _)]
    by_cases h1 : size > 0
    · simp only [h1, if_true]
      cases hr : pv b with
      | ok x b' =>
        simp only []
        obtain ⟨p0, hp0, _⟩ := hpv _ _ _ hr
        apply ih
        intro b'' hb''
        apply hag
        rw [hp0]; simp only [List.length_append]; omega
      | err e b' => rfl
      | panic => rfl
      | outOfFuel => rfl
    · simp only [h1, if_false]

theorem decLoop_ne_outOfFuel {pv : List UInt8 → PRes} (hpv : Shrinks pv) :
    ∀ (k : Nat) (b : List UInt8) (size : Int) (acc : List Tree),
      (∀ b' : List UInt8, b'.length ≤ b.length → pv b' ≠ PRes.outOfFuel) →
      b.length < k → decLoop pv k b size acc ≠ PRes.outOfFuel := by
  intro k
  induction k with
  | zero => intro b size acc _ hk; omega
  | succ k ih =>
    intro b size acc hne hk
    unfold decLoop
    by_cases h1 : size > 0
    · simp only [h1, if_true]
      cases hr : pv b with
      | ok x b' =>
        simp only []
        obtain ⟨p0, hp0, hpos⟩ := hpv _ _ _ hr
        have hlen : b.length = p0.length + b'.length := by rw [hp0]; simp
        apply ih
        · intro b'' hb''
          exact hne b'' (by omega)
        · omega
      | err e b' => simp
      | panic => simp
      | outOfFuel => exact absurd hr (hne b (le_refl _))
    · simp only [h1, if_false]
      split <;> simp

theorem uintOf_length {b : List UInt8} {size n : Int} {t : List UInt8}
    (h : uintOf b size = some (n, t)) : t.length ≤ b.length := by
  obtain ⟨_, _, _, ht⟩ := uintOf_some h
  rw [ht]; simp

theorem decodeF_ne_outOfFuel : ∀ (fuel : Nat) (b : List UInt8),
    b.length < fuel → decodeF fuel b ≠ PRes.outOfFuel := by
  intro fuel
  induction fuel with
  | zero => intro b h; omega
  | succ fuel ih =>
    intro b hb
    cases b with
    | nil => simp [decodeF]
    | cons cur rest =>
      simp only [List.length_cons] at hb
      unfold decodeF
      simp only []
      split
      · simp
      · split
        · apply PRes.wrap_ne_outOfFuel
          unfold decBytes; split <;> [simp; (split <;> simp)]
        · split
          · cases hu : uintOf rest ((cur - 0xB7).toNat : Int) with
            | none => simp
            | some p =>
              simp only []
              apply PRes.wrap_ne_outOfFuel
              unfold decBytes; split <;> [simp; (split <;> simp)]
          · split
            · apply PRes.wrap_ne_outOfFuel
              exact decLoop_ne_outOfFuel (decodeF_shrinks fuel) _ _ _ _
                (fun b' hb' => ih b' (by omega)) (by omega)
            · cases hu : uintOf rest ((cur - 0xF7).toNat : Int) with
              | none => simp
              | some p =>
                obtain ⟨n, tl⟩ := p
                simp only []
                have := uintOf_length hu
                apply PRes.wrap_ne_outOfFuel
                exact decLoop_ne_outOfFuel (decodeF_shrinks fuel) _ _ _ _
                  (fun b' hb' => ih b' (by omega)) (by omega)

theorem decodeF_fuel_indep : ∀ (fuel fuel' : Nat) (b : List UInt8),
    b.length < fuel → b.length < fuel' → decodeF fuel b = decodeF fuel' b := by
  intro fuel
  induction fuel with
  | zero => intro fuel' b h; omega
  | succ fuel ih =>
    intro fuel' b hb hb'
    cases fuel' with
    | zero => omega
    | succ fuel' =>
      cases b with
      | nil => simp [decodeF]
      | cons cur rest =>
        simp only [List.length_cons] at hb hb'
        unfold decodeF
        simp only []
        have hl : ∀ (tl : List UInt8) (n : Int), tl.length ≤ rest.length →
            decList (decodeF fuel) tl n = decList (decodeF fuel') tl n := by
          intro tl n htl
          exact decLoop_congr (decodeF_shrinks fuel) _ _ _ _
            (fun b' hb'' => ih fuel' b' (by omega) (by omega))
        rw [hl rest _ (le_refl _)]
        cases hu : uintOf rest ((cur - 0xF7).toNat : Int) with
        | none => rfl
        | some p =>
          obtain ⟨n, tl⟩ := p
          simp only []
          rw [hl tl n (uintOf_length hu)]

theorem parseValue_view (b : List UInt8) (c : cache) : (parseValue b c).view = decode b :=
  parseValueF_view _ b c

theorem parseList_view (b : List UInt8) (size : Int) (c : cache) :
    (parseList b size c).view = decList decode b size :=
  parseListF_view _ _ parseValue_view b size c

theorem decode_shrinks : Shrinks decode := fun b v t h => decodeF_shrinks _ b v t h

theorem decode_ne_outOfFuel (b : List UInt8) : decode b ≠ PRes.outOfFuel :=
  decodeF_ne_outOfFuel _ b (by omega)

theorem decodeF_eq_decode (fuel : Nat) (b : List UInt8) (h : b.length < fuel) :
    decodeF fuel b = decode b :=
  decodeF_fuel_indep _ _ b h (by omega)

theorem decList_decodeF (fuel : Nat) (b : List UInt8) (size : Int) (h : b.length < fuel) :
    decList (decodeF fuel) b size = decList decode b size :=
  decLoop_congr (decodeF_shrinks fuel) _ _ _ _
    (fun b' hb' => decodeF_eq_decode fuel b' (by omega))

theorem decode_nil : decode [] = PRes.err (Error.errorf "cannot parse empty string") [] := rfl

/-- The defining equation of `parseValue` on trees, free of fuel. -/
theorem decode_cons (cur : UInt8) (rest : List UInt8) :
    decode (cur :: rest) =
      if cur.toNat < 0x80 then PRes.ok (Tree.bytes [cur]) rest
      else if cur.toNat < 0xB8 then
        (decBytes rest ((cur - 0x80).toNat : Int)).wrap "cannot parse short bytes"
      else if cur.toNat < 0xC0 then
        match uintOf rest ((cur - 0xB7).toNat : Int) with
        | none => PRes.panic
        | some (size, tail) => (decBytes tail size).wrap "cannot parse long bytes"
      else if cur.toNat < 0xF8 then
        (decList decode rest ((cur - 0xC0).toNat : Int)).wrap "cannot parse short bytes"
      else
        match uintOf rest ((cur - 0xF7).toNat : Int) with
        | none => PRes.panic
        | some (size, tail) => (decList decode tail size).wrap "cannot parse long array" := by
  unfold decode
  simp only [List.length_cons]
  conv => lhs; unfold decodeF
  simp only []
  rw [decList_decodeF _ rest _ (by omega)]
  cases hu : uintOf rest ((cur - 0xF7).toNat : Int) with
  | none => rfl
  | some p =>
    obtain ⟨n, tl⟩ := p
    simp only []
    have := uintOf_length hu
    rw [decList_decodeF _ tl n (by omega)]
    rfl

/-! ## Bytes and big-endian lengths -/

theorem toNat_sub_lit (cur c : UInt8) (h : c.toNat ≤ cur.toNat) :
    (cur - c).toNat = cur.toNat - c.toNat := by
  rw [UInt8.toNat_sub]
  have h1 := UInt8.toNat_lt cur
  have h2 := UInt8.toNat_lt c
  simp only [UInt8.size]
  omega

theorem toNat_ofNat_lt (n : Nat) (h : n < 256) : (UInt8.ofNat n).toNat = n := by
  show n % 256 = n
  omega

theorem toNat_ofNat_mod (n : Nat) : (UInt8.ofNat n).toNat = n % 256 := rfl

theorem beNat_cons_zero (l : List UInt8) : beNat ((0 : UInt8) :: l) = beNat l := by
  simp [beNat]

theorem beNat_dropWhile (l : List UInt8) :
    beNat (l.dropWhile (fun x => x == 0)) = beNat l := by
  induction l with
  | nil => rfl
  | cons x xs ih =>
    by_cases hx : x = 0
    · subst hx
      simp only [List.dropWhile_cons, beq_self_eq_true, if_true] 
      rw [ih, beNat_cons_zero]
    · simp [List.dropWhile_cons, hx]

theorem beNat_bytes8 (n : Nat) : beNat (bytes8 n) = n % 2 ^ 64 := by
  simp only [beNat, bytes8, List.foldl_cons, List.foldl_nil, toNat_ofNat_mod]
  omega

theorem beNat_beMinimal (n : Nat) (h : n < 2 ^ 64) : beNat (beMinimal n) = n := by
  unfold beMinimal
  rw [beNat_dropWhile, beNat_bytes8]
  omega

theorem length_dropWhile_le (p : UInt8 → Bool) (l : List UInt8) :
    (l.dropWhile p).length ≤ l.length := by
  induction l with
  | nil => simp
  | cons x xs ih =>
    simp only [List.dropWhile_cons]
    split
    · simp only [List.length_cons]; omega
    · simp

theorem beMinimal_length_le (n : Nat) : (beMinimal n).length ≤ 8 := by
  unfold beMinimal
  exact le_trans (length_dropWhile_le _ _) (by simp [bytes8])

theorem beMinimal_length_pos (n : Nat) (h0 : 0 < n) (h : n < 2 ^ 64) :
    0 < (beMinimal n).length := by
  rcases Nat.eq_zero_or_pos (beMinimal n).length with h1 | h1
  · have := beNat_beMinimal n h
    rw [List.length_eq_zero.mp h1] at this
    simp [beNat] at this
    omega
  · exact h1

theorem bigEndianUint64_val (g : Nat → UInt8) :
    bigEndianUint64 (fun j => g j.val) =
      (g 0).toNat * 2 ^ 56 + (g 1).toNat * 2 ^ 48 + (g 2).toNat * 2 ^ 40
        + (g 3).toNat * 2 ^ 32 + (g 4).toNat * 2 ^ 24 + (g 5).toNat * 2 ^ 16
        + (g 6).toNat * 2 ^ 8 + (g 7).toNat := rfl

theorem uintOf_val (b : List UInt8) (k : Nat) (hk : k ≤ 8) (hb : k ≤ b.length) :
    uintOf b (k : Int) = some (toInt64 (bigEndianUint64 (fun j =>
      (fun i : Nat => if i < 8 - k then (0 : UInt8) else b.getD (i - (8 - k)) 0) j.val)),
      b.drop k) := by
  unfold uintOf
  have h : ¬ ((k : Int) < 0 ∨ 8 < (k : Int) ∨ (b.length : Int) < (k : Int)) := by omega
  rw [if_neg h]
  have e : (8 - (k : Int)).toNat = 8 - k := by omega
  have e3 : (k : Int).toNat = k := by omega
  rw [e, e3]
  have e2 : ∀ j : Nat, ((j : Int) < 8 - (k : Int)) ↔ (j < 8 - k) := by intro j; omega
  simp only [e2]

theorem uintOf_eq (b : List UInt8) (k : Nat) (hk : k ≤ 8) (hb : k ≤ b.length) :
    uintOf b (k : Int) = some (toInt64 (beNat (b.take k)), b.drop k) := by
  rw [uintOf_val b k hk hb,
    bigEndianUint64_val (fun i : Nat => if i < 8 - k then (0 : UInt8) else b.getD (i - (8 - k)) 0)]
  interval_cases k
  · simp [beNat]
  · match b, hb with
    | a0 :: r, _ => simp [beNat]
  · match b, hb with
    | a0 :: a1 :: r, _ => simp [beNat]
  · match b, hb with
    | a0 :: a1 :: a2 :: r, _ => simp [beNat]; refine congrArg toInt64 ?_; omega
  · match b, hb with
    | a0 :: a1 :: a2 :: a3 :: r, _ => simp [beNat]; refine congrArg toInt64 ?_; omega
  · match b, hb with
    | a0 :: a1 :: a2 :: a3 :: a4 :: r, _ => simp [beNat]; refine congrArg toInt64 ?_; omega
  · match b, hb with
    | a0 :: a1 :: a2 :: a3 :: a4 :: a5 :: r, _ => simp [beNat]; refine congrArg toInt64 ?_; omega
  · match b, hb with
    | a0 :: a1 :: a2 :: a3 :: a4 :: a5 :: a6 :: r, _ => simp [beNat]; refine congrArg toInt64 ?_; omega
  · match b, hb with
    | a0 :: a1 :: a2 :: a3 :: a4 :: a5 :: a6 :: a7 :: r, _ => simp [beNat]; refine congrArg toInt64 ?_; omega

/-! ## Decoding the canonical headers -/

theorem toInt64_of_lt (n : Nat) (h : n < 2 ^ 63) : toInt64 n = (n : Int) := by
  unfold toInt64
  have : n % 2 ^ 64 = n := Nat.mod_eq_of_lt (by omega)
  rw [this, if_pos h]

theorem uintOf_beMinimal (n : Nat) (q : List UInt8) (h : n < 2 ^ 63) :
    uintOf (beMinimal n ++ q) ((beMinimal n).length : Int) = some ((n : Int), q) := by
  rw [uintOf_eq _ _ (beMinimal_length_le n) (by simp)]
  simp only [List.take_left', List.drop_left']
  rw [beNat_beMinimal n (by omega), toInt64_of_lt n h]

theorem decode_header_bytes (n : Nat) (q : List UInt8) (hn : n < 2 ^ 63) :
    decode (encodeHeader 0x80 n ++ q) =
      (decBytes q (n : Int)).wrap
        (if n < 56 then "cannot parse short bytes" else "cannot parse long bytes") := by
  unfold encodeHeader
  by_cases h : n < 56
  · simp only [h, if_true, List.singleton_append]
    rw [decode_cons]
    have e : (UInt8.ofNat (0x80 + n)).toNat = 0x80 + n := toNat_ofNat_lt _ (by omega)
    have e1 : ¬ (UInt8.ofNat (0x80 + n)).toNat < 0x80 := by omega
    have e2 : (UInt8.ofNat (0x80 + n)).toNat < 0xB8 := by omega
    have e3 : (UInt8.ofNat (0x80 + n) - 0x80).toNat = n := by
      rw [toNat_sub_lit _ _ (by rw [e]; show 128 ≤ 128 + n; omega), e]
      show 128 + n - 128 = n
      omega
    rw [if_neg e1, if_pos e2, e3]
  · simp only [h, if_false, List.cons_append]
    rw [decode_cons]
    have hk := beMinimal_length_le n
    have hk0 := beMinimal_length_pos n (by omega) (by omega)
    have e : (UInt8.ofNat (0x80 + 55 + (beMinimal n).length)).toNat
        = 0xB7 + (beMinimal n).length := toNat_ofNat_lt _ (by omega)
    have e1 : ¬ (UInt8.ofNat (0x80 + 55 + (beMinimal n).length)).toNat < 0x80 := by omega
    have e2 : ¬ (UInt8.ofNat (0x80 + 55 + (beMinimal n).length)).toNat < 0xB8 := by omega
    have e4 : (UInt8.ofNat (0x80 + 55 + (beMinimal n).length)).toNat < 0xC0 := by omega
    have e3 : (UInt8.ofNat (0x80 + 55 + (beMinimal n).length) - 0xB7).toNat
        = (beMinimal n).length := by
      rw [toNat_sub_lit _ _ (by rw [e]; show 183 ≤ 183 + _; omega), e]
      show 183 + _ - 183 = _
      omega
    rw [if_neg e1, if_neg e2, if_pos e4, e3, uintOf_beMinimal n q hn]

theorem decode_header_list (n : Nat) (q : List UInt8) (hn : n < 2 ^ 63) :
    decode (encodeHeader 0xC0 n ++ q) =
      (decList decode q (n : Int)).wrap
        (if n < 56 then "cannot parse short bytes" else "cannot parse long array") := by
  unfold encodeHeader
  by_cases h : n < 56
  · simp only [h, if_true, List.singleton_append]
    rw [decode_cons]
    have e : (UInt8.ofNat (0xC0 + n)).toNat = 0xC0 + n := toNat_ofNat_lt _ (by omega)
    have e1 : ¬ (UInt8.ofNat (0xC0 + n)).toNat < 0x80 := by omega
    have e2 : ¬ (UInt8.ofNat (0xC0 + n)).toNat < 0xB8 := by omega
    have e4 : ¬ (UInt8.ofNat (0xC0 + n)).toNat < 0xC0 := by omega
    have e5 : (UInt8.ofNat (0xC0 + n)).toNat < 0xF8 := by omega
    have e3 : (UInt8.ofNat (0xC0 + n) - 0xC0).toNat = n := by
      rw [toNat_sub_lit _ _ (by rw [e]; show 192 ≤ 192 + n; omega), e]
      show 192 + n - 192 = n
      omega
    rw [if_neg e1, if_neg e2, if_neg e4, if_pos e5, e3]
  · simp only [h, if_false, List.cons_append]
    rw [decode_cons]
    have hk := beMinimal_length_le n
    have hk0 := beMinimal_length_pos n (by omega) (by omega)
    have e : (UInt8.ofNat (0xC0 + 55 + (beMinimal n).length)).toNat
        = 0xF7 + (beMinimal n).length := toNat_ofNat_lt _ (by omega)
    have e1 : ¬ (UInt8.ofNat (0xC0 + 55 + (beMinimal n).length)).toNat < 0x80 := by omega
    have e2 : ¬ (UInt8.ofNat (0xC0 + 55 + (beMinimal n).length)).toNat < 0xB8 := by omega
    have e4 : ¬ (UInt8.ofNat (0xC0 + 55 + (beMinimal n).length)).toNat < 0xC0 := by omega
    have e5 : ¬ (UInt8.ofNat (0xC0 + 55 + (beMinimal n).length)).toNat < 0xF8 := by omega
    have e3 : (UInt8.ofNat (0xC0 + 55 + (beMinimal n).length) - 0xF7).toNat
        = (beMinimal n).length := by
      rw [toNat_sub_lit _ _ (by rw [e]; show 247 ≤ 247 + _; omega), e]
      show 247 + _ - 247 = _
      omega
    rw [if_neg e1, if_neg e2, if_neg e4, if_neg e5, e3, uintOf_beMinimal n q hn]

theorem decBytes_append (p rest : List UInt8) :
    decBytes (p ++ rest) (p.length : Int) = PRes.ok (Tree.bytes p) rest := by
  unfold decBytes
  have h1 : ¬ ((p.length : Int) > ((p ++ rest).length : Int)) := by
    simp only [List.length_append, Nat.cast_add]; omega
  have h2 : ¬ ((p.length : Int) < 0) := by omega
  rw [if_neg h1, if_neg h2]
  simp

theorem canonicalEncode_bytes_ne_nil (b : List UInt8) : canonicalEncode (Tree.bytes b) ≠ [] := by
  unfold canonicalEncode
  split
  · rename_i h; intro h'; rw [h'] at h; simp at h
  · unfold encodeHeader; split <;> simp

theorem canonicalEncode_ne_nil (t : Tree) : canonicalEncode t ≠ [] := by
  cases t with
  | bytes b => exact canonicalEncode_bytes_ne_nil b
  | array xs => unfold canonicalEncode encodeHeader; split <;> simp

theorem decode_canonical_bytes (b rest : List UInt8) (h : b.length < 2 ^ 63) :
    decode (canonicalEncode (Tree.bytes b) ++ rest) = PRes.ok (Tree.bytes b) rest := by
  unfold canonicalEncode
  split
  · rename_i hb
    match b, hb with
    | [x], hb =>
      simp only [List.headD_cons] at hb
      simp only [List.singleton_append]
      rw [decode_cons, if_pos hb.2]
  · rw [List.append_assoc, decode_header_bytes _ _ h, decBytes_append]
    rfl

/-! ## Round trip (C1) and totality (C2) -/

theorem decLoop_zero (pv : List UInt8 → PRes) (k : Nat) (b : List UInt8) (acc : List Tree) :
    decLoop pv (k + 1) b 0 acc = PRes.ok (Tree.array acc) b := by
  simp [decLoop]

theorem decLoop_step (pv : List UInt8 → PRes) (k : Nat) (b b' : List UInt8) (size : Int)
    (acc : List Tree) (v : Tree) (hs : 0 < size) (h : pv b = PRes.ok v b') :
    decLoop pv (k + 1) b size acc =
      decLoop pv k b' (size - ((b.length : Int) - (b'.length : Int))) (acc ++ [v]) := by
  conv => lhs; unfold decLoop
  simp only [gt_iff_lt, hs, if_true, h]

theorem length_le_canonicalEncodeList (xs : List Tree) :
    xs.length ≤ (canonicalEncodeList xs).length := by
  induction xs with
  | nil => simp
  | cons x xs ih =>
    have hpos : 0 < (canonicalEncode x).length :=
      List.length_pos.mpr (canonicalEncode_ne_nil x)
    simp only [canonicalEncodeList, List.length_cons, List.length_append]
    omega

mutual
theorem decode_canonical : ∀ (t : Tree), t.lengthsOk = true → ∀ rest : List UInt8,
    decode (canonicalEncode t ++ rest) = PRes.ok t rest
  | Tree.bytes b, h, rest => by
    simp only [Tree.lengthsOk, decide_eq_true_eq] at h
    exact decode_canonical_bytes b rest h
  | Tree.array xs, h, rest => by
    simp only [Tree.lengthsOk, Bool.and_eq_true, decide_eq_true_eq] at h
    unfold canonicalEncode
    rw [List.append_assoc, decode_header_list _ _ h.1]
    unfold decList
    rw [decLoop_canonical xs h.2 _ [] rest (by
      have := length_le_canonicalEncodeList xs
      simp only [List.length_append]; omega)]
    rfl
theorem decLoop_canonical : ∀ (xs : List Tree), Tree.lengthsOkList xs = true →
    ∀ (k : Nat) (acc : List Tree) (rest : List UInt8), xs.length < k →
      decLoop decode k (canonicalEncodeList xs ++ rest) ((canonicalEncodeList xs).length : Int) acc
        = PRes.ok (Tree.array (acc ++ xs)) rest
  | [], _, k, acc, rest, hk => by
    cases k with
    | zero => simp at hk
    | succ k => simp [canonicalEncodeList, decLoop]
  | x :: xs, h, k, acc, rest, hk => by
    simp only [Tree.lengthsOkList, Bool.and_eq_true] at h
    cases k with
    | zero => simp at hk
    | succ k =>
      simp only [canonicalEncodeList, List.append_assoc]
      have hx := decode_canonical x h.1 (canonicalEncodeList xs ++ rest)
      have hpos : 0 < (canonicalEncode x).length :=
        List.length_pos.mpr (canonicalEncode_ne_nil x)
      rw [decLoop_step decode k _ _ _ acc x (by simp only [List.length_append, Nat.cast_add]; omega) hx]
      have e : (((canonicalEncode x ++ canonicalEncodeList xs).length : Nat) : Int)
          - ((((canonicalEncode x ++ (canonicalEncodeList xs ++ rest)).length : Nat) : Int)
            - (((canonicalEncodeList xs ++ rest).length : Nat) : Int))
          = ((canonicalEncodeList xs).length : Int) := by
        simp only [List.length_append, Nat.cast_add]; omega
      rw [e, decLoop_canonical xs h.2 k (acc ++ [x]) rest (by simp only [List.length_cons] at hk; omega)]
      simp
end

theorem Parse_view (p : Parser) (b : List UInt8) : (p.Parse b).view = (decode b).toOutcome := by
  unfold Parser.Parse
  rw [← parseValue_view b p.c.reset]
  cases parseValue b p.c.reset <;> rfl

theorem Parse_ne_outOfFuel (p : Parser) (b : List UInt8) :
    (p.Parse b).view ≠ Outcome.outOfFuel := by
  rw [Parse_view]
  have := decode_ne_outOfFuel b
  cases h : decode b <;> simp_all [PRes.toOutcome]

/-- C1: decoding undoes canonical RLP encoding.  For every value tree `v` whose
string lengths and list payload lengths are all below `2^63`, `Parse` applied to
the canonical encoding of `v` returns, without error, a node whose tree
(discriminant, byte content, ordered children) is `v`; this holds for every
state of the parser. -/
theorem Parse_canonicalEncode (p : Parser) (v : Tree) (h : v.lengthsOk = true) :
    (p.Parse (canonicalEncode v)).view = Outcome.value v := by
  rw [Parse_view]
  have := decode_canonical v h []
  rw [List.append_nil] at this
  rw [this]
  rfl

theorem Parse_canonicalEncode_witness :
    (Tree.array [Tree.bytes [99, 97, 116], Tree.bytes [100, 111, 103]]).lengthsOk = true ∧
    (Parser.new.Parse [0xc8, 0x83, 99, 97, 116, 0x83, 100, 111, 103]).view
      = Outcome.value (Tree.array [Tree.bytes [99, 97, 116], Tree.bytes [100, 111, 103]]) :=
  ⟨by decide, Parse_canonicalEncode Parser.new
    (Tree.array [Tree.bytes [99, 97, 116], Tree.bytes [100, 111, 103]]) (by decide)⟩

/-- The canonical vectors of the specification: `0x80`, `0x00`, `"dog"` and
`["cat", "dog"]`. -/
theorem Parse_vectors :
    (Parser.new.Parse [0x80]).view = Outcome.value (Tree.bytes []) ∧
    (Parser.new.Parse [0x00]).view = Outcome.value (Tree.bytes [0x00]) ∧
    (Parser.new.Parse [0x83, 100, 111, 103]).view = Outcome.value (Tree.bytes [100, 111, 103]) ∧
    (Parser.new.Parse [0xc8, 0x83, 99, 97, 116, 0x83, 100, 111, 103]).view
      = Outcome.value (Tree.array [Tree.bytes [99, 97, 116], Tree.bytes [100, 111, 103]]) := by
  decide

/-- C2 (fails on the code): a lone long-form header makes `readUint` slice
`b[:1]` of an empty `b`: `Parse` panics instead of returning an error, in every
state of the parser. -/
theorem Parse_lone_long_header_panics (p : Parser) :
    (p.Parse [0xB8]).view = Outcome.panic := by
  rw [Parse_view]
  decide

/-- An 8-byte length with its top bit set reaches `parseBytes` as a negative
`size`, which passes `size > len(b)` and panics at `b[:size]`. -/
theorem Parse_top_bit_length_panics (p : Parser) :
    (p.Parse [0xBF, 0xFF, 0xFF, 0xFF, 0xFF, 0xFF, 0xFF, 0xFF, 0xFF]).view = Outcome.panic := by
  rw [Parse_view]
  decide

/-! ## Truncated encodings (C3) -/

theorem PRes.CutShort.wrap {r : PRes} (h : r.CutShort) (msg : String) : (r.wrap msg).CutShort := by
  obtain ⟨e, tail, rfl, he⟩ := h
  exact ⟨Error.wrapf msg e, tail, rfl, he⟩

theorem decBytes_short (q : List UInt8) (n : Nat) (h : q.length < n) :
    (decBytes q (n : Int)).CutShort := by
  unfold decBytes
  rw [if_pos (by omega)]
  exact ⟨_, _, rfl, Or.inl rfl⟩

theorem decode_nil_cutShort : (decode []).CutShort := ⟨_, _, rfl, Or.inr rfl⟩

theorem decLoop_fail (pv : List UInt8 → PRes) (k : Nat) (b : List UInt8) (size : Int)
    (acc : List Tree) (hs : 0 < size) (h : (pv b).CutShort) :
    (decLoop pv (k + 1) b size acc).CutShort := by
  obtain ⟨e, tail, he, hc⟩ := h
  unfold decLoop
  simp only [gt_iff_lt, hs, if_true, he]
  exact ⟨_, _, rfl, hc⟩

theorem canonicalEncodeList_ne_nil (x : Tree) (xs : List Tree) :
    canonicalEncodeList (x :: xs) ≠ [] := by
  simp [canonicalEncodeList, canonicalEncode_ne_nil x]

theorem decode_canonical_bytes_cut (b : List UInt8) (h : b.length < 2 ^ 63) :
    (decode (canonicalEncode (Tree.bytes b)).dropLast).CutShort := by
  unfold canonicalEncode
  split
  · rename_i hb
    match b, hb with
    | [x], hb => exact decode_nil_cutShort
  · by_cases hb : b = []
    · subst hb
      simp only [List.length_nil, List.append_nil]
      exact decode_nil_cutShort
    · rw [List.dropLast_append_of_ne_nil _ hb, decode_header_bytes _ _ h]
      apply PRes.CutShort.wrap
      apply decBytes_short
      have := List.length_pos.mpr hb
      simp only [List.length_dropLast]; omega

mutual
theorem decode_canonical_cut : ∀ (t : Tree), t.lengthsOk = true →
    (decode (canonicalEncode t).dropLast).CutShort
  | Tree.bytes b, h => by
    simp only [Tree.lengthsOk, decide_eq_true_eq] at h
    exact decode_canonical_bytes_cut b h
  | Tree.array [], _ => decode_nil_cutShort
  | Tree.array (x :: xs), h => by
    simp only [Tree.lengthsOk, Bool.and_eq_true, decide_eq_true_eq] at h
    unfold canonicalEncode
    rw [List.dropLast_append_of_ne_nil _ (canonicalEncodeList_ne_nil x xs),
      decode_header_list _ _ h.1]
    apply PRes.CutShort.wrap
    unfold decList
    have hlen := length_le_canonicalEncodeList (x :: xs)
    have hpos := List.length_pos.mpr (canonicalEncodeList_ne_nil x xs)
    have hk : (canonicalEncodeList (x :: xs)).dropLast.length + 1
        = ((canonicalEncodeList (x :: xs)).length - 1) + 1 := by simp
    rw [hk]
    exact decLoop_canonical_cut (x :: xs) (by simp) h.2 _ [] (by omega)
theorem decLoop_canonical_cut : ∀ (xs : List Tree), xs ≠ [] →
    Tree.lengthsOkList xs = true →
    ∀ (k : Nat) (acc : List Tree), xs.length ≤ k →
      (decLoop decode k (canonicalEncodeList xs).dropLast
        ((canonicalEncodeList xs).length : Int) acc).CutShort
  | [], hne, _, _, _, _ => absurd rfl hne
  | [x], _, h, k, acc, hk => by
    simp only [Tree.lengthsOkList, Bool.and_eq_true] at h
    cases k with
    | zero => simp at hk
    | succ k =>
      simp only [canonicalEncodeList, List.append_nil]
      have hpos : 0 < (canonicalEncode x).length :=
        List.length_pos.mpr (canonicalEncode_ne_nil x)
      exact decLoop_fail decode k _ _ acc (by omega) (decode_canonical_cut x h.1)
  | x :: y :: ys, _, h, k, acc, hk => by
    simp only [Tree.lengthsOkList, Bool.and_eq_true] at h
    cases k with
    | zero => simp at hk
    | succ k =>
      have hne := canonicalEncodeList_ne_nil y ys
      have e0 : canonicalEncodeList (x :: y :: ys)
          = canonicalEncode x ++ canonicalEncodeList (y :: ys) := by
        simp [canonicalEncodeList]
      rw [e0, List.dropLast_append_of_ne_nil _ hne]
      have hx := decode_canonical x h.1 (canonicalEncodeList (y :: ys)).dropLast
      have hpos : 0 < (canonicalEncode x).length :=
        List.length_pos.mpr (canonicalEncode_ne_nil x)
      have hpos2 := List.length_pos.mpr hne
      rw [decLoop_step decode k _ _ _ acc x
        (by simp only [List.length_append, Nat.cast_add]; omega) hx]
      have e : (((canonicalEncode x ++ canonicalEncodeList (y :: ys)).length : Nat) : Int)
          - ((((canonicalEncode x ++ (canonicalEncodeList (y :: ys)).dropLast).length : Nat) : Int)
            - ((((canonicalEncodeList (y :: ys)).dropLast).length : Nat) : Int))
          = ((canonicalEncodeList (y :: ys)).length : Int) := by
        simp only [List.length_append, Nat.cast_add]; omega
      rw [e]
      exact decLoop_canonical_cut (y :: ys) (by simp) (by simp [Tree.lengthsOkList, h.2]) k
        (acc ++ [x]) (by simp only [List.length_cons] at hk ⊢; omega)
end

/-- C3 as stated fails: the canonical encoding of the empty string is `0x80`;
without its last byte the input is empty and the error is the empty-input one,
not a Truncated one. -/
theorem Parse_cut_empty_string :
    (Tree.bytes []).lengthsOk = true ∧
    (canonicalEncode (Tree.bytes [])).dropLast = [] ∧
    (Parser.new.Parse (canonicalEncode (Tree.bytes [])).dropLast).view
      = Outcome.error (Error.wrapf "cannot parse RLP" (Error.errorf "cannot parse empty string")) ∧
    ¬ (Error.wrapf "cannot parse RLP" (Error.errorf "cannot parse empty string")).isTruncated := by
  decide

/-- C3 (amended): for every value tree `v` with lengths below `2^63`, `Parse` on
the canonical encoding of `v` without its last byte returns an error and no
value; the innermost cause of the error is Truncated ("length is not enough")
or EmptyInput ("cannot parse empty string"). -/
theorem Parse_cut_canonicalEncode (p : Parser) (v : Tree) (h : v.lengthsOk = true) :
    ∃ e, (p.Parse (canonicalEncode v).dropLast).view = Outcome.error e ∧
      (e.isTruncated ∨ e.isEmptyInput) := by
  obtain ⟨e, tail, he, hc⟩ := decode_canonical_cut v h
  refine ⟨Error.wrapf "cannot parse RLP" e, ?_, hc⟩
  rw [Parse_view, he]
  rfl

theorem Parse_cut_canonicalEncode_witness :
    (Tree.array [Tree.bytes [99, 97, 116], Tree.bytes [100, 111, 103]]).lengthsOk = true ∧
    ∃ e, (Parser.new.Parse [0xc8, 0x83, 99, 97, 116, 0x83, 100, 111]).view = Outcome.error e ∧
      (e.isTruncated ∨ e.isEmptyInput) :=
  ⟨by decide, Parse_cut_canonicalEncode Parser.new
    (Tree.array [Tree.bytes [99, 97, 116], Tree.bytes [100, 111, 103]]) (by decide)⟩

/-! ## Bytes after the first item (C4) -/

theorem decBytes_append_ok {b : List UInt8} {size : Int} {v : Tree} {r : List UInt8}
    (h : decBytes b size = PRes.ok v r) (t : List UInt8) :
    decBytes (b ++ t) size = PRes.ok v (r ++ t) := by
  obtain ⟨h0, h1, hv, hr⟩ := decBytes_ok h
  unfold decBytes
  have e1 : ¬ (size > ((b ++ t).length : Int)) := by
    simp only [List.length_append, Nat.cast_add]; omega
  have e2 : ¬ (size < 0) := by omega
  rw [if_neg e1, if_neg e2, hv, hr]
  have hl : size.toNat ≤ b.length := by omega
  rw [List.take_append_of_le_length hl, List.drop_append_of_le_length hl]

theorem uintOf_append_some {b : List UInt8} {size n : Int} {tl : List UInt8}
    (h : uintOf b size = some (n, tl)) (t : List UInt8) :
    uintOf (b ++ t) size = some (n, tl ++ t) := by
  obtain ⟨h0, h8, hb, _⟩ := uintOf_some h
  obtain ⟨k, rfl⟩ := Int.eq_ofNat_of_zero_le h0
  have hk : k ≤ 8 := by omega
  have hkb : k ≤ b.length := by omega
  rw [uintOf_eq b k hk hkb] at h
  rw [uintOf_eq (b ++ t) k hk (by simp only [List.length_append]; omega)]
  simp only [Option.some.injEq, Prod.mk.injEq] at h
  rw [List.take_append_of_le_length hkb, List.drop_append_of_le_length hkb, h.1, h.2]

theorem decLoop_append {pv : List UInt8 → PRes} (hpv : Shrinks pv) (t : List UInt8) (n : Nat)
    (hloc : LocalUpTo pv t n) :
    ∀ (k : Nat) (b : List UInt8) (size : Int) (acc : List Tree) (v : Tree) (r : List UInt8),
      b.length ≤ n → decLoop pv k b size acc = PRes.ok v r →
      ∀ k', k ≤ k' → decLoop pv k' (b ++ t) size acc = PRes.ok v (r ++ t) := by
  intro k
  induction k with
  | zero => intro b size acc v r _ h; simp [decLoop] at h
  | succ k ih =>
    intro b size acc v r hb h k' hk'
    obtain ⟨k'', rfl⟩ : ∃ k'', k' = k'' + 1 := ⟨k' - 1, by omega⟩
    unfold decLoop at h
    by_cases h1 : size > 0
    · simp only [h1, if_true] at h
      cases hr : pv b with
      | ok x b' =>
        rw [hr] at h
        simp only [] at h
        obtain ⟨p0, hp0, hpos⟩ := hpv _ _ _ hr
        have hlen : b.length = p0.length + b'.length := by rw [hp0]; simp
        rw [decLoop_step pv k'' (b ++ t) (b' ++ t) size acc x h1 (hloc b x b' hb hr)]
        have e : size - ((((b ++ t).length : Nat) : Int) - (((b' ++ t).length : Nat) : Int))
            = size - ((b.length : Int) - (b'.length : Int)) := by
          simp only [List.length_append, Nat.cast_add]; omega
        rw [e]
        exact ih _ _ _ _ _ (by omega) h k'' (by omega)
      | err e b' => rw [hr] at h; simp at h
      | panic => rw [hr] at h; simp at h
      | outOfFuel => rw [hr] at h; simp at h
    · simp only [h1, if_false] at h
      unfold decLoop
      simp only [h1, if_false]
      split at h
      · simp at h
      · rename_i h2
        simp only [h2, if_false]
        simp only [PRes.ok.injEq] at h
        rw [h.1, h.2]

theorem decList_append {t : List UInt8} {n : Nat} (hloc : LocalUpTo decode t n)
    {b : List UInt8} {size : Int} {v : Tree} {r : List UInt8} (hb : b.length ≤ n)
    (h : decList decode b size = PRes.ok v r) :
    decList decode (b ++ t) size = PRes.ok v (r ++ t) :=
  decLoop_append decode_shrinks t n hloc _ b size [] v r hb h _
    (by simp only [List.length_append]; omega)

theorem PRes.wrap_of_ok {msg : String} {r : PRes} {v : Tree} {t : List UInt8}
    (h : r = PRes.ok v t) : r.wrap msg = PRes.ok v t := by
  subst h; rfl

theorem decode_localUpTo (t : List UInt8) : ∀ n, LocalUpTo decode t n := by
  intro n
  induction n with
  | zero =>
    intro b v r hb h
    have : b = [] := List.length_eq_zero.mp (by omega)
    subst this
    simp [decode_nil] at h
  | succ n ih =>
    intro b v r hb h
    cases b with
    | nil => simp [decode_nil] at h
    | cons cur rest =>
      simp only [List.length_cons] at hb
      rw [decode_cons] at h
      rw [List.cons_append, decode_cons]
      split at h
      · rename_i c1
        simp only [c1, if_true]
        simp only [PRes.ok.injEq] at h
        rw [h.1, h.2]
      · rename_i c1
        simp only [c1, if_false]
        split at h
        · rename_i c2
          simp only [c2, if_true]
          exact PRes.wrap_of_ok (decBytes_append_ok (PRes.wrap_ok h) t)
        · rename_i c2
          simp only [c2, if_false]
          split at h
          · rename_i c3
            simp only [c3, if_true]
            cases hu : uintOf rest ((cur - 0xB7).toNat : Int) with
            | none => rw [hu] at h; simp at h
            | some q =>
              obtain ⟨m, tl⟩ := q
              rw [hu] at h
              simp only [] at h
              rw [uintOf_append_some hu t]
              simp only []
              exact PRes.wrap_of_ok (decBytes_append_ok (PRes.wrap_ok h) t)
          · rename_i c3
            simp only [c3, if_false]
            split at h
            · rename_i c4
              simp only [c4, if_true]
              exact PRes.wrap_of_ok (decList_append ih (by omega) (PRes.wrap_ok h))
            · rename_i c4
              simp only [c4, if_false]
              cases hu : uintOf rest ((cur - 0xF7).toNat : Int) with
              | none => rw [hu] at h; simp at h
              | some q =>
                obtain ⟨m, tl⟩ := q
                rw [hu] at h
                simp only [] at h
                rw [uintOf_append_some hu t]
                simp only []
                have := uintOf_length hu
                exact PRes.wrap_of_ok (decList_append ih (by omega) (PRes.wrap_ok h))

/-- The item `decode` reads is not affected by the bytes that follow it. -/
theorem decode_append {b : List UInt8} {v : Tree} {r : List UInt8}
    (h : decode b = PRes.ok v r) (t : List UInt8) : decode (b ++ t) = PRes.ok v (r ++ t) :=
  decode_localUpTo t b.length b v r (le_refl _) h

theorem decBytes_item {b : List UInt8} {size : Int} {v : Tree} {r pre : List UInt8}
    (h : decBytes b size = PRes.ok v r) (hb : b = pre ++ r) :
    decBytes pre size = PRes.ok v [] := by
  obtain ⟨h0, h1, hv, hr⟩ := decBytes_ok h
  have hlen : b.length = pre.length + r.length := by rw [hb]; simp
  have hrl : r.length = b.length - size.toNat := by rw [hr]; simp
  have hpl : (pre.length : Int) = size := by omega
  have : decBytes (pre ++ []) (pre.length : Int) = PRes.ok (Tree.bytes pre) [] :=
    decBytes_append pre []
  rw [List.append_nil, hpl] at this
  rw [this, hv, hb]
  have : size.toNat = pre.length := by omega
  rw [this, List.take_left]

theorem uintOf_item {b : List UInt8} {size n : Int} {tl : List UInt8}
    (h : uintOf b size = some (n, tl)) (pre' : List UInt8) :
    uintOf (b.take size.toNat ++ pre') size = some (n, pre') := by
  obtain ⟨h0, h8, hb, hdrop⟩ := uintOf_some h
  obtain ⟨k, rfl⟩ := Int.eq_ofNat_of_zero_le h0
  have hk : k ≤ 8 := by omega
  have hkb : k ≤ b.length := by omega
  rw [uintOf_eq b k hk hkb] at h
  simp only [Option.some.injEq, Prod.mk.injEq] at h
  have hl : (b.take k).length = k := by simp only [List.length_take]; omega
  simp only [Int.toNat_ofNat]
  rw [uintOf_eq _ k hk (by simp only [List.length_append, hl]; omega)]
  rw [List.take_left' hl, List.drop_left' hl, h.1]

theorem decLoop_item {pv : List UInt8 → PRes} (hpv : Shrinks pv) (n : Nat)
    (hpre : ItemUpTo pv n) (hloc : ∀ t m, LocalUpTo pv t m) :
    ∀ (k : Nat) (b : List UInt8) (size : Int) (acc : List Tree) (v : Tree) (r pre : List UInt8),
      b.length ≤ n → decLoop pv k b size acc = PRes.ok v r → b = pre ++ r →
      ∀ k', pre.length < k' → decLoop pv k' pre size acc = PRes.ok v [] := by
  intro k
  induction k with
  | zero => intro b size acc v r pre _ h; simp [decLoop] at h
  | succ k ih =>
    intro b size acc v r pre hb h hbr k' hk'
    obtain ⟨k'', rfl⟩ : ∃ k'', k' = k'' + 1 := ⟨k' - 1, by omega⟩
    unfold decLoop at h
    by_cases h1 : size > 0
    · simp only [h1, if_true] at h
      cases hr : pv b with
      | ok x b' =>
        rw [hr] at h
        simp only [] at h
        obtain ⟨p0, hp0, hpos⟩ := hpv _ _ _ hr
        obtain ⟨items, pre', _, hb', _, _⟩ := decLoop_ok hpv _ _ _ _ _ _ h
        have hlen : b.length = p0.length + b'.length := by rw [hp0]; simp
        have hpre' : pre = p0 ++ pre' := by
          have : pre ++ r = (p0 ++ pre') ++ r := by
            rw [← hbr, hp0, hb']; simp
          exact List.append_cancel_right this
        have hx0 : pv p0 = PRes.ok x [] := hpre b x b' p0 hb hr hp0
        have hx : pv (p0 ++ pre') = PRes.ok x ([] ++ pre') :=
          hloc pre' p0.length p0 x [] (le_refl _) hx0
        rw [List.nil_append] at hx
        rw [hpre', decLoop_step pv k'' (p0 ++ pre') pre' size acc x h1 hx]
        have e : size - ((((p0 ++ pre').length : Nat) : Int) - ((pre'.length : Nat) : Int))
            = size - ((b.length : Int) - (b'.length : Int)) := by
          simp only [List.length_append, Nat.cast_add]; omega
        rw [e]
        refine ih _ _ _ _ _ pre' (by omega) h hb' k'' ?_
        rw [hpre'] at hk'
        simp only [List.length_append] at hk'
        omega
      | err e b' => rw [hr] at h; simp at h
      | panic => rw [hr] at h; simp at h
      | outOfFuel => rw [hr] at h; simp at h
    · simp only [h1, if_false] at h
      split at h
      · simp at h
      · rename_i h2
        simp only [PRes.ok.injEq] at h
        have hnil : pre = [] := by
          have : pre ++ r = [] ++ r := by rw [← hbr, h.2]; simp
          exact List.append_cancel_right this
        rw [hnil]
        unfold decLoop
        simp only [h1, h2, if_false]
        rw [h.1]

theorem decode_itemUpTo : ∀ n, ItemUpTo decode n := by
  intro n
  induction n with
  | zero =>
    intro b v r pre hb h _
    have : b = [] := List.length_eq_zero.mp (by omega)
    subst this
    simp [decode_nil] at h
  | succ n ih =>
    intro b v r pre hb h hbr
    cases b with
    | nil => simp [decode_nil] at h
    | cons cur rest =>
      simp only [List.length_cons] at hb
      obtain ⟨p0, hp0, hpos⟩ := decode_shrinks _ _ _ h
      have hpp : pre = p0 := by
        have : pre ++ r = p0 ++ r := by rw [← hbr, ← hp0]
        exact List.append_cancel_right this
      subst hpp
      cases pre with
      | nil => simp at hpos
      | cons c0 pre' =>
        have hc : cur = c0 ∧ rest = pre' ++ r := by
          simpa using hbr
        obtain ⟨rfl, hrest⟩ := hc
        rw [decode_cons] at h
        rw [decode_cons]
        split at h
        · rename_i c1
          simp only [c1, if_true]
          simp only [PRes.ok.injEq] at h
          have : pre' = [] := by
            have : pre' ++ r = [] ++ r := by rw [← hrest, h.2]; simp
            exact List.append_cancel_right this
          rw [h.1, this]
        · rename_i c1
          simp only [c1, if_false]
          split at h
          · rename_i c2
            simp only [c2, if_true]
            exact PRes.wrap_of_ok (decBytes_item (PRes.wrap_ok h) hrest)
          · rename_i c2
            simp only [c2, if_false]
            split at h
            · rename_i c3
              simp only [c3, if_true]
              cases hu : uintOf rest ((cur - 0xB7).toNat : Int) with
              | none => rw [hu] at h; simp at h
              | some q =>
                obtain ⟨m, tl⟩ := q
                rw [hu] at h
                simp only [] at h
                obtain ⟨_, _, _, htl⟩ := uintOf_some hu
                obtain ⟨_, _, _, hr'⟩ := decBytes_ok (PRes.wrap_ok h)
                -- `tl = q' ++ r` for the payload `q'`
                have htl' : tl = tl.take m.toNat ++ r := by
                  rw [hr']; simp
                have hpre' : pre' = rest.take ((cur - 0xB7).toNat : Int).toNat ++ tl.take m.toNat := by
                  have : pre' ++ r
                      = (rest.take ((cur - 0xB7).toNat : Int).toNat ++ tl.take m.toNat) ++ r := by
                    rw [← hrest, List.append_assoc, ← htl', htl]; simp
                  exact List.append_cancel_right this
                rw [hpre', uintOf_item hu (tl.take m.toNat)]
                simp only []
                exact PRes.wrap_of_ok (decBytes_item (PRes.wrap_ok h) htl')
            · rename_i c3
              simp only [c3, if_false]
              split at h
              · rename_i c4
                simp only [c4, if_true]
                exact PRes.wrap_of_ok
                  (decLoop_item decode_shrinks n ih decode_localUpTo _ _ _ _ _ _ pre'
                    (by omega) (PRes.wrap_ok h) hrest _ (by omega))
              · rename_i c4
                simp only [c4, if_false]
                cases hu : uintOf rest ((cur - 0xF7).toNat : Int) with
                | none => rw [hu] at h; simp at h
                | some q =>
                  obtain ⟨m, tl⟩ := q
                  rw [hu] at h
                  simp only [] at h
                  obtain ⟨_, _, _, htl⟩ := uintOf_some hu
                  have hlen := uintOf_length hu
                  obtain ⟨items, q', _, hq', _, _⟩ :=
                    decLoop_ok decode_shrinks _ _ _ _ _ _ (PRes.wrap_ok h)
                  have hpre' : pre' = rest.take ((cur - 0xF7).toNat : Int).toNat ++ q' := by
                    have : pre' ++ r
                        = (rest.take ((cur - 0xF7).toNat : Int).toNat ++ q') ++ r := by
                      rw [← hrest, List.append_assoc, ← hq', htl]; simp
                    exact List.append_cancel_right this
                  rw [hpre', uintOf_item hu q']
                  simp only []
                  exact PRes.wrap_of_ok
                    (decLoop_item decode_shrinks n ih decode_localUpTo _ _ _ _ _ _ q'
                      (by omega) (PRes.wrap_ok h) hq' _ (by omega))

/-- What `decode` consumes is an item by itself. -/
theorem decode_item {b : List UInt8} {v : Tree} {r pre : List UInt8}
    (h : decode b = PRes.ok v r) (hb : b = pre ++ r) : decode pre = PRes.ok v [] :=
  decode_itemUpTo b.length b v r pre (le_refl _) h hb

theorem itemAt_eq : itemAt = decode := funext fun b => parseValue_view b cache.empty

/-- C4 as stated fails: `0x00` is a well-formed item, and `0x00 0x01` is that
item followed by one more byte; `parseValue` leaves the tail `0x01` and `Parse`
drops it and returns the value of the first item. -/
theorem Parse_trailing_byte :
    (Parser.new.Parse [0x00]).view = Outcome.value (Tree.bytes [0x00]) ∧
    itemAt [0x00, 0x01] = PRes.ok (Tree.bytes [0x00]) [0x01] ∧
    (Parser.new.Parse [0x00, 0x01]).view = Outcome.value (Tree.bytes [0x00]) := by
  decide

/-- C4 (amended): if `Parse(b)` returns a value, the item it decoded is a
non-empty prefix `pre` of `b`: `parseValue(b)` returns that value with the rest
of `b` as tail, and `parseValue(pre)` returns it with an empty tail.  Bytes
after the item are ignored and not rejected: `pre` followed by any bytes decodes
to the same value. -/
theorem Parse_value_item (p : Parser) (b : List UInt8) (v : Tree)
    (h : (p.Parse b).view = Outcome.value v) :
    ∃ pre tail, b = pre ++ tail ∧ 0 < pre.length ∧
      (∀ c, (parseValue b c).view = PRes.ok v tail) ∧
      (∀ c, (parseValue pre c).view = PRes.ok v []) ∧
      ∀ (p' : Parser) (t : List UInt8), (p'.Parse (pre ++ t)).view = Outcome.value v := by
  rw [Parse_view] at h
  cases hd : decode b with
  | ok x tail =>
    rw [hd] at h
    simp only [PRes.toOutcome, Outcome.value.injEq] at h
    subst h
    obtain ⟨pre, hpre, hpos⟩ := decode_shrinks b x tail hd
    have hp := decode_item hd hpre
    refine ⟨pre, tail, hpre, hpos, fun c => by rw [parseValue_view, hd],
      fun c => by rw [parseValue_view, hp], fun p' t => ?_⟩
    rw [Parse_view, decode_append hp t]
    rfl
  | err e tail => rw [hd] at h; simp [PRes.toOutcome] at h
  | panic => rw [hd] at h; simp [PRes.toOutcome] at h
  | outOfFuel => rw [hd] at h; simp [PRes.toOutcome] at h

theorem Parse_value_item_witness :
    (Parser.new.Parse [0x83, 100, 111, 103, 0x01]).view = Outcome.value (Tree.bytes [100, 111, 103]) ∧
    ∃ pre tail, [0x83, 100, 111, 103, 0x01] = pre ++ tail ∧ 0 < pre.length ∧
      (∀ c, (parseValue [0x83, 100, 111, 103, 0x01] c).view
        = PRes.ok (Tree.bytes [100, 111, 103]) tail) ∧
      (∀ c, (parseValue pre c).view = PRes.ok (Tree.bytes [100, 111, 103]) []) ∧
      ∀ (p' : Parser) (t : List UInt8),
        (p'.Parse (pre ++ t)).view = Outcome.value (Tree.bytes [100, 111, 103]) :=
  ⟨by decide, Parse_value_item Parser.new [0x83, 100, 111, 103, 0x01]
    (Tree.bytes [100, 111, 103]) (by decide)⟩

/-! ## The declared length of a list (C5) -/

theorem Chain.length_le {pv : List UInt8 → PRes} (hpv : Shrinks pv) {b tail : List UInt8}
    {items : List Tree} (h : Chain pv b items tail) : tail.length + items.length ≤ b.length := by
  induction h with
  | nil b => simp
  | cons hv _ ih =>
    obtain ⟨p0, hp0, hpos⟩ := hpv _ _ _ hv
    rw [hp0]
    simp only [List.length_append, List.length_cons]
    omega

theorem decLoop_overshoot {pv : List UInt8 → PRes} (hpv : Shrinks pv) {b mid : List UInt8}
    {items : List Tree} (h : Chain pv b items mid) :
    ∀ (k : Nat) (size : Int) (acc : List Tree) (x : Tree) (tail : List UInt8),
      pv mid = PRes.ok x tail → items.length + 1 < k →
      (b.length : Int) - (mid.length : Int) < size →
      size < (b.length : Int) - (tail.length : Int) →
      decLoop pv k b size acc = PRes.err (Error.errorf "bad ending") [] := by
  induction h with
  | nil b =>
    intro k size acc x tail hx hk h1 h2
    obtain ⟨k, rfl⟩ : ∃ k', k = k' + 1 := ⟨k - 1, by simp at hk; omega⟩
    obtain ⟨k, rfl⟩ : ∃ k', k = k' + 1 := ⟨k - 1, by simp at hk; omega⟩
    rw [decLoop_step pv _ b tail size acc x (by omega) hx]
    unfold decLoop
    rw [if_neg (by omega), if_pos (by omega)]
  | @cons b t t' v vs hv hch ih =>
    intro k size acc x tail hx hk h1 h2
    obtain ⟨k, rfl⟩ : ∃ k', k = k' + 1 := ⟨k - 1, by omega⟩
    have hlen := Chain.length_le hpv hch
    obtain ⟨p0, hp0, hpos⟩ := hpv _ _ _ hv
    have hb : b.length = p0.length + t.length := by rw [hp0]; simp
    rw [decLoop_step pv k b t size acc v (by omega) hv]
    exact ih k _ _ x tail hx (by simp only [List.length_cons] at hk; omega) (by omega) (by omega)

theorem decLoop_chain {pv : List UInt8 → PRes} (hpv : Shrinks pv) {b tail : List UInt8}
    {items : List Tree} (h : Chain pv b items tail) :
    ∀ (k : Nat) (acc : List Tree), items.length < k →
      decLoop pv k b ((b.length : Int) - (tail.length : Int)) acc
        = PRes.ok (Tree.array (acc ++ items)) tail := by
  induction h with
  | nil b =>
    intro k acc hk
    obtain ⟨k, rfl⟩ : ∃ k', k = k' + 1 := ⟨k - 1, by simp at hk; omega⟩
    rw [Int.sub_self, decLoop_zero]
    simp
  | @cons b t t' v vs hv hch ih =>
    intro k acc hk
    obtain ⟨k, rfl⟩ : ∃ k', k = k' + 1 := ⟨k - 1, by omega⟩
    have hlen := Chain.length_le hpv hch
    obtain ⟨p0, hp0, hpos⟩ := hpv _ _ _ hv
    have hb : b.length = p0.length + t.length := by rw [hp0]; simp
    rw [decLoop_step pv k b t _ acc v (by omega) hv]
    have e : (b.length : Int) - (t'.length : Int) - ((b.length : Int) - (t.length : Int))
        = (t.length : Int) - (t'.length : Int) := by omega
    rw [e, ih k (acc ++ [v]) (by simp only [List.length_cons] at hk; omega)]
    simp

/-- C5: the declared length of a list is the exact byte length of its items.
For a declared size `n ≥ 0`, `parseList(b, n)` succeeds only if consecutive
items starting at `b` end exactly at `b[n:]`; it then returns those items in
input order and the tail `b[n:]`.  Conversely, whenever consecutive items
starting at `b` take exactly `n` bytes, `parseList(b, n)` does succeed, with
these items in input order and the rest of the input as its tail.  If the items
read overshoot `n` (the items before the last one take less than `n` bytes,
with the last one more than `n`), the result is the error "bad ending". -/
theorem parseList_exact (b : List UInt8) (n : Int) (c : cache) (hn : 0 ≤ n) :
    (∀ a tail c', parseList b n c = Res.ok a tail c' →
      n ≤ (b.length : Int) ∧ tail = b.drop n.toNat ∧
      ∃ items, a.view = Tree.array items ∧ Chain itemAt b items tail) ∧
    (∀ items tail, Chain itemAt b items tail →
      (b.length : Int) - (tail.length : Int) = n →
      ∃ a c', parseList b n c = Res.ok a tail c' ∧ a.view = Tree.array items) ∧
    (∀ items mid x tail, Chain itemAt b items mid → itemAt mid = PRes.ok x tail →
      (b.length : Int) - (mid.length : Int) < n → n < (b.length : Int) - (tail.length : Int) →
      (parseList b n c).view = PRes.err (Error.errorf "bad ending") []) := by
  refine ⟨?_, ?_, ?_⟩
  · intro a tail c' h
    have hv := parseList_view b n c
    rw [h] at hv
    simp only [Res.view] at hv
    obtain ⟨items, pre, hitems, hb, hlen, hch⟩ :=
      decLoop_ok decode_shrinks _ _ _ _ _ _ hv.symm
    have hpre : pre.length = n.toNat := by omega
    refine ⟨?_, ?_, items, ?_, ?_⟩
    · rw [hb]; simp only [List.length_append, Nat.cast_add]; omega
    · rw [hb, ← hpre]; simp
    · simpa using hitems
    · rw [itemAt_eq]; exact hch
  · intro items tail hch hlen
    have hv := parseList_view b n c
    rw [itemAt_eq] at hch
    have hle := Chain.length_le decode_shrinks hch
    have hd := decLoop_chain decode_shrinks hch (b.length + 1) [] (by omega)
    rw [hlen] at hd
    unfold decList at hv
    rw [hd] at hv
    cases hr : parseList b n c with
    | ok a tail' c' =>
      rw [hr] at hv
      simp only [Res.view, List.nil_append, PRes.ok.injEq] at hv
      exact ⟨a, c', by rw [hv.2], hv.1⟩
    | err e tail' c' => rw [hr] at hv; simp [Res.view] at hv
    | panic => rw [hr] at hv; simp [Res.view] at hv
    | outOfFuel => rw [hr] at hv; simp [Res.view] at hv
  · intro items mid x tail hch hx h1 h2
    rw [parseList_view]
    rw [itemAt_eq] at hch hx
    have hlen := Chain.length_le decode_shrinks hch
    obtain ⟨p0, hp0, hpos⟩ := decode_shrinks _ _ _ hx
    have hm : mid.length = p0.length + tail.length := by rw [hp0]; simp
    exact decLoop_overshoot decode_shrinks hch _ n [] x tail hx (by omega) h1 h2

theorem parseList_exact_witness :
    (0 : Int) ≤ 8 ∧
    (∃ a c', parseList [0x83, 99, 97, 116, 0x83, 100, 111, 103, 0x01] 8 cache.empty
        = Res.ok a [0x01] c' ∧
      a.view = Tree.array [Tree.bytes [99, 97, 116], Tree.bytes [100, 111, 103]]) ∧
    (parseList [0x83, 100, 111, 103] 1 cache.empty).view
      = PRes.err (Error.errorf "bad ending") [] :=
  ⟨by decide,
    (parseList_exact [0x83, 99, 97, 116, 0x83, 100, 111, 103, 0x01] 8 cache.empty
      (by decide)).2.1
      [Tree.bytes [99, 97, 116], Tree.bytes [100, 111, 103]] [0x01]
      (Chain.cons (t := [0x83, 100, 111, 103, 0x01]) (by decide)
        (Chain.cons (t := [0x01]) (by decide) (Chain.nil _)))
      (by decide),
    (parseList_exact [0x83, 100, 111, 103] 1 cache.empty (by decide)).2.2
      [] [0x83, 100, 111, 103] (Tree.bytes [100, 111, 103]) [] (Chain.nil _)
      (by decide) (by decide) (by decide)⟩

/-! ## Declared lengths beyond the input (C6) -/

theorem beNat_lt (bs : List UInt8) : beNat bs < 256 ^ bs.length := by
  unfold beNat
  suffices h : ∀ (l : List UInt8) (a : Nat),
      l.foldl (fun a x => a * 256 + x.toNat) a < (a + 1) * 256 ^ l.length by
    simpa using h bs 0
  intro l
  induction l with
  | nil => intro a; simp
  | cons x xs ih =>
    intro a
    simp only [List.foldl_cons, List.length_cons]
    have hx := UInt8.toNat_lt x
    calc List.foldl (fun a x => a * 256 + x.toNat) (a * 256 + x.toNat) xs
        < (a * 256 + x.toNat + 1) * 256 ^ xs.length := ih _
      _ ≤ ((a + 1) * 256) * 256 ^ xs.length := Nat.mul_le_mul_right _ (by omega)
      _ = (a + 1) * 256 ^ (xs.length + 1) := by ring

theorem toInt64_cases (n : Nat) (h : n < 2 ^ 64) :
    (n < 2 ^ 63 ∧ toInt64 n = (n : Int)) ∨ (2 ^ 63 ≤ n ∧ toInt64 n < 0) := by
  unfold toInt64
  have e : n % 2 ^ 64 = n := Nat.mod_eq_of_lt h
  rw [e]
  by_cases h1 : n < 2 ^ 63
  · left; exact ⟨h1, by rw [if_pos h1]⟩
  · right; refine ⟨by omega, ?_⟩
    rw [if_neg h1]; omega

theorem decList_not_ok_of_short (q : List UInt8) (size : Int) (h : (q.length : Int) < size)
    (v : Tree) (r : List UInt8) : decList decode q size ≠ PRes.ok v r := by
  intro hok
  obtain ⟨items, pre, _, hb, hlen, _⟩ := decLoop_ok decode_shrinks _ _ _ _ _ _ hok
  have : q.length = pre.length + r.length := by rw [hb]; simp
  omega

theorem decList_not_ok_of_neg (q : List UInt8) (size : Int) (h : size < 0)
    (v : Tree) (r : List UInt8) : decList decode q size ≠ PRes.ok v r := by
  intro hok
  obtain ⟨items, pre, _, hb, hlen, _⟩ := decLoop_ok decode_shrinks _ _ _ _ _ _ hok
  omega

theorem decBytes_not_ok_of_short (q : List UInt8) (size : Int) (h : (q.length : Int) < size)
    (v : Tree) (r : List UInt8) : decBytes q size ≠ PRes.ok v r := by
  intro hok
  obtain ⟨_, h1, _, _⟩ := decBytes_ok hok
  omega

theorem decBytes_not_ok_of_neg (q : List UInt8) (size : Int) (h : size < 0)
    (v : Tree) (r : List UInt8) : decBytes q size ≠ PRes.ok v r := by
  intro hok
  obtain ⟨h0, _, _, _⟩ := decBytes_ok hok
  omega

theorem PRes.wrap_not_ok {msg : String} {r : PRes} (h : ∀ v t, r ≠ PRes.ok v t) :
    ∀ v t, r.wrap msg ≠ PRes.ok v t := by
  intro v t hw
  exact h v t (PRes.wrap_ok hw)

theorem PRes.toOutcome_not_value {r : PRes} (h : ∀ v t, r ≠ PRes.ok v t) :
    ∀ v, r.toOutcome ≠ Outcome.value v := by
  intro v
  cases r with
  | ok x t => exact absurd rfl (h x t)
  | err e t => simp [PRes.toOutcome]
  | panic => simp [PRes.toOutcome]
  | outOfFuel => simp [PRes.toOutcome]

theorem beNat_take_lt (rest : List UInt8) (k : Nat) (hk : k ≤ 8) :
    beNat (rest.take k) < 2 ^ 64 := by
  have hb := beNat_lt (rest.take k)
  have hl : (rest.take k).length ≤ 8 := by
    simp only [List.length_take]; omega
  exact lt_of_lt_of_le hb (by
    calc 256 ^ (rest.take k).length ≤ 256 ^ 8 := Nat.pow_le_pow_right (by omega) hl
      _ = 2 ^ 64 := by norm_num)

theorem decBytes_truncated (q : List UInt8) (n : Nat) (h : q.length < n) (msg : String) :
    ∃ e t, (decBytes q (n : Int)).wrap msg = PRes.err e t ∧ e.isTruncated := by
  unfold decBytes
  rw [if_pos (by omega)]
  exact ⟨_, _, rfl, rfl⟩

theorem decode_short_declared (b : List UInt8) (hd : ItemHeader) (h : headerOf b = some hd)
    (hlt : hd.rest.length < hd.declared) :
    (∀ v t, decode b ≠ PRes.ok v t) ∧
    (hd.isList = false → hd.declared < 2 ^ 63 →
      ∃ e t, decode b = PRes.err e t ∧ e.isTruncated) := by
  cases b with
  | nil => simp [headerOf] at h
  | cons cur rest =>
    simp only [headerOf] at h
    rw [decode_cons]
    have hcur := UInt8.toNat_lt cur
    by_cases c1 : cur.toNat < 0x80
    · rw [if_pos c1] at h; simp at h
    rw [if_neg c1] at h ⊢
    by_cases c2 : cur.toNat < 0xB8
    · rw [if_pos c2] at h ⊢
      simp only [Option.some.injEq] at h
      subst h
      simp only at hlt
      have e : ((cur - 0x80).toNat : Int) = ((cur.toNat - 0x80 : Nat) : Int) := by
        rw [toNat_sub_lit cur 0x80 (by show 128 ≤ cur.toNat; omega)]; rfl
      rw [e]
      exact ⟨PRes.wrap_not_ok (decBytes_not_ok_of_short _ _ (by omega)),
        fun _ _ => decBytes_truncated rest _ hlt _⟩
    rw [if_neg c2] at h ⊢
    by_cases c3 : cur.toNat < 0xC0
    · rw [if_pos c3] at h ⊢
      by_cases c4 : rest.length < cur.toNat - 0xB7
      · rw [if_pos c4] at h; simp at h
      rw [if_neg c4] at h
      simp only [Option.some.injEq] at h
      subst h
      simp only at hlt
      have e : ((cur - 0xB7).toNat : Int) = ((cur.toNat - 0xB7 : Nat) : Int) := by
        rw [toNat_sub_lit cur 0xB7 (by show 183 ≤ cur.toNat; omega)]; rfl
      rw [e, uintOf_eq rest _ (by omega) (by omega)]
      simp only []
      rcases toInt64_cases _ (beNat_take_lt rest (cur.toNat - 0xB7) (by omega))
        with ⟨h63, hi⟩ | ⟨h63, hi⟩
      · rw [hi]
        exact ⟨PRes.wrap_not_ok (decBytes_not_ok_of_short _ _ (by omega)),
          fun _ _ => decBytes_truncated _ _ hlt _⟩
      · refine ⟨PRes.wrap_not_ok (decBytes_not_ok_of_neg _ _ hi), fun _ hlt63 => ?_⟩
        simp only at hlt63
        omega
    rw [if_neg c3] at h ⊢
    by_cases c4 : cur.toNat < 0xF8
    · rw [if_pos c4] at h ⊢
      simp only [Option.some.injEq] at h
      subst h
      simp only at hlt
      have e : ((cur - 0xC0).toNat : Int) = ((cur.toNat - 0xC0 : Nat) : Int) := by
        rw [toNat_sub_lit cur 0xC0 (by show 192 ≤ cur.toNat; omega)]; rfl
      rw [e]
      exact ⟨PRes.wrap_not_ok (decList_not_ok_of_short _ _ (by omega)),
        fun hl => by simp at hl⟩
    rw [if_neg c4] at h ⊢
    by_cases c5 : rest.length < cur.toNat - 0xF7
    · rw [if_pos c5] at h; simp at h
    rw [if_neg c5] at h
    simp only [Option.some.injEq] at h
    subst h
    simp only at hlt
    have e : ((cur - 0xF7).toNat : Int) = ((cur.toNat - 0xF7 : Nat) : Int) := by
      rw [toNat_sub_lit cur 0xF7 (by show 247 ≤ cur.toNat; omega)]; rfl
    rw [e, uintOf_eq rest _ (by omega) (by omega)]
    simp only []
    refine ⟨?_, fun hl => by simp at hl⟩
    rcases toInt64_cases _ (beNat_take_lt rest (cur.toNat - 0xF7) (by omega))
      with ⟨h63, hi⟩ | ⟨h63, hi⟩
    · rw [hi]
      exact PRes.wrap_not_ok (decList_not_ok_of_short _ _ (by omega))
    · exact PRes.wrap_not_ok (decList_not_ok_of_neg _ _ hi)

/-- C6 as stated fails for lists: `0xC1` declares a payload of one byte and no
byte follows; `parseList` calls `parseValue` on the empty rest, and the error is
the empty-input one, not the truncated one. -/
theorem Parse_short_list_not_truncated :
    headerOf [0xC1] = some ⟨true, 1, []⟩ ∧
    (Parser.new.Parse [0xC1]).view
      = Outcome.error (Error.wrapf "cannot parse RLP" (Error.wrapf "cannot parse short bytes"
          (Error.wrapf "cannot parse array value" (Error.errorf "cannot parse empty string")))) ∧
    ¬ (Error.wrapf "cannot parse RLP" (Error.wrapf "cannot parse short bytes"
          (Error.wrapf "cannot parse array value"
            (Error.errorf "cannot parse empty string")))).isTruncated := by
  decide

/-- C6 (amended): when the input starts with a string or list header whose
declared payload length exceeds the number of bytes remaining after the header,
`Parse` does not return a value; for a string header with a declared length
below `2^63` it returns an error whose innermost cause is the truncated error
"length is not enough". -/
theorem Parse_short_declared (p : Parser) (b : List UInt8) (hd : ItemHeader)
    (h : headerOf b = some hd) (hlt : hd.rest.length < hd.declared) :
    (∀ v, (p.Parse b).view ≠ Outcome.value v) ∧
    (hd.isList = false → hd.declared < 2 ^ 63 →
      ∃ e, (p.Parse b).view = Outcome.error e ∧ e.isTruncated) := by
  obtain ⟨h1, h2⟩ := decode_short_declared b hd h hlt
  rw [Parse_view]
  refine ⟨PRes.toOutcome_not_value h1, fun hs h63 => ?_⟩
  obtain ⟨e, t, he, hc⟩ := h2 hs h63
  rw [he]
  exact ⟨_, rfl, hc⟩

theorem Parse_short_declared_witness :
    headerOf [0x83, 100, 111] = some ⟨false, 3, [100, 111]⟩ ∧
    ([100, 111] : List UInt8).length < 3 ∧
    (∀ v, (Parser.new.Parse [0x83, 100, 111]).view ≠ Outcome.value v) ∧
    ((false = false) → 3 < 2 ^ 63 →
      ∃ e, (Parser.new.Parse [0x83, 100, 111]).view = Outcome.error e ∧ e.isTruncated) :=
  ⟨by decide, by decide,
    Parse_short_declared Parser.new [0x83, 100, 111] ⟨false, 3, [100, 111]⟩ (by decide) (by decide)⟩

/-! ## Reuse of a parser (C7) -/

/-- C7: arena isolation.  When `Parse(A)` has returned on some parser (a value or
an error) and `Parse(B)` is then called on the same parser, the outcome for `B`
is the one a new parser gives: the same error, or a node with the same tree
(discriminants, byte contents, children and their number).  Neither the nodes
recycled from `A` nor the old content of the length buffer show. -/
theorem Parse_reuse (p0 : Parser) (A B : List UInt8) (p : Parser)
    (_h : (p0.Parse A).parser? = some p) :
    (p.Parse B).view = (Parser.new.Parse B).view := by
  rw [Parse_view, Parse_view]

theorem Parse_reuse_witness :
    ∃ p, (Parser.new.Parse [0xc4, 0x01, 0x02, 0x03, 0x04]).parser? = some p ∧
      (p.c.vs.map Value.view) =
        [Tree.array [Tree.bytes [1], Tree.bytes [2], Tree.bytes [3], Tree.bytes [4]],
          Tree.bytes [1], Tree.bytes [2], Tree.bytes [3], Tree.bytes [4]] ∧
      (p.Parse [0xc1, 0x05]).view = (Parser.new.Parse [0xc1, 0x05]).view ∧
      (Parser.new.Parse [0xc1, 0x05]).view = Outcome.value (Tree.array [Tree.bytes [5]]) :=
  ⟨_, rfl, by decide,
    Parse_reuse Parser.new [0xc4, 0x01, 0x02, 0x03, 0x04] [0xc1, 0x05] _ rfl, by decide⟩

/-- Fields that are not part of the tree are not reset: the node of a single
literal byte keeps the length `l` its slot had in the parse before (`parseValue`
sets `t` and `b` only), where a new parser has `0`. -/
theorem Parse_reuse_stale_length :
    ((Parser.new.Parse [0x83, 100, 111, 103]).parser?.bind
      (fun p => (p.Parse [0x05]).value?)).map Value.l = some 3 ∧
    ((Parser.new.Parse [0x05]).value?).map Value.l = some 0 := by
  decide

/-! ## Locality (C19) and progress (C20) -/

theorem Parse_value_iff (p : Parser) (b : List UInt8) (v : Tree) :
    (p.Parse b).view = Outcome.value v ↔ ∃ r, decode b = PRes.ok v r := by
  rw [Parse_view]
  cases hd : decode b with
  | ok x tail =>
    simp only [PRes.toOutcome, Outcome.value.injEq, PRes.ok.injEq]
    constructor
    · intro h; exact ⟨tail, h, rfl⟩
    · rintro ⟨r, h, _⟩; exact h
  | err e tail => simp [PRes.toOutcome]
  | panic => simp [PRes.toOutcome]
  | outOfFuel => simp [PRes.toOutcome]

/-- C19: decoding depends only on the bytes of the first item.  If `Parse(b)`
returns a value, `Parse(b ++ t)` returns the same value, on any parser; and if
`parseValue(b)` succeeds with a value and the tail `r`, `parseValue(b ++ t)`
succeeds with the same value and the tail `r ++ t`, for any state of the
arena. -/
theorem parseValue_append (b t : List UInt8) :
    (∀ (p p' : Parser) (v : Tree),
      (p.Parse b).view = Outcome.value v → (p'.Parse (b ++ t)).view = Outcome.value v) ∧
    (∀ (c c' : cache) (v : Tree) (r : List UInt8),
      (parseValue b c).view = PRes.ok v r →
      (parseValue (b ++ t) c').view = PRes.ok v (r ++ t)) := by
  constructor
  · intro p p' v h
    obtain ⟨r, hr⟩ := (Parse_value_iff p b v).mp h
    exact (Parse_value_iff p' (b ++ t) v).mpr ⟨r ++ t, decode_append hr t⟩
  · intro c c' v r h
    rw [parseValue_view] at h ⊢
    exact decode_append h t

theorem parseValue_append_witness :
    (Parser.new.Parse ([0x83, 100, 111, 103] ++ [0xff, 0x00])).view
      = Outcome.value (Tree.bytes [100, 111, 103]) ∧
    (parseValue ([0xc2, 0x01, 0x02] ++ [0xb8]) cache.empty).view
      = PRes.ok (Tree.array [Tree.bytes [1], Tree.bytes [2]]) ([] ++ [0xb8]) :=
  ⟨(parseValue_append [0x83, 100, 111, 103] [0xff, 0x00]).1 Parser.new Parser.new
      (Tree.bytes [100, 111, 103]) (by decide),
    (parseValue_append [0xc2, 0x01, 0x02] [0xb8]).2 cache.empty cache.empty
      (Tree.array [Tree.bytes [1], Tree.bytes [2]]) [] (by decide)⟩

theorem parseList_ne_outOfFuel (b : List UInt8) (size : Int) (c : cache) :
    (parseList b size c).view ≠ PRes.outOfFuel := by
  rw [parseList_view]
  exact decLoop_ne_outOfFuel decode_shrinks _ _ _ _
    (fun b' _ => decode_ne_outOfFuel b') (by omega)

/-- C20: parsing makes progress and terminates.  For every input `b` and arena
`c`: a successful `parseValue` consumes a non-empty prefix `pre` of `b` which is
the item by itself, and returns the rest of `b` unchanged as tail, so the
remaining size of the loop in `parseList` strictly decreases with every item;
`parseValue` and `parseList` return on every input (the recursion bound of the
embedding is never reached), and `len(b)` nested recursive calls below the
outermost call are enough: every larger bound gives the same result. -/
theorem parseValue_progress (b : List UInt8) (c : cache) :
    (∀ (v : Tree) (tail : List UInt8), (parseValue b c).view = PRes.ok v tail →
      ∃ pre, b = pre ++ tail ∧ 0 < pre.length ∧ tail.length < b.length ∧
        (parseValue pre c).view = PRes.ok v [] ∧
        ∀ size : Int, size - ((b.length : Int) - (tail.length : Int)) < size) ∧
    (parseValue b c).view ≠ PRes.outOfFuel ∧
    (∀ size : Int, (parseList b size c).view ≠ PRes.outOfFuel) ∧
    (∀ fuel : Nat, b.length < fuel →
      (parseValueF fuel b c).view = (parseValue b c).view) := by
  refine ⟨?_, ?_, fun size => parseList_ne_outOfFuel b size c, ?_⟩
  · intro v tail h
    rw [parseValue_view] at h
    obtain ⟨pre, hpre, hpos⟩ := decode_shrinks b v tail h
    have hlen : b.length = pre.length + tail.length := by rw [hpre]; simp
    refine ⟨pre, hpre, hpos, by omega, ?_, fun size => by omega⟩
    rw [parseValue_view]
    exact decode_item h hpre
  · rw [parseValue_view]
    exact decode_ne_outOfFuel b
  · intro fuel hf
    rw [parseValueF_view, parseValue_view]
    exact decodeF_eq_decode fuel b hf

theorem parseValue_progress_witness :
    ∃ pre, ([0xc2, 0x01, 0x02, 0x05] : List UInt8) = pre ++ [0x05] ∧ 0 < pre.length ∧
      ([0x05] : List UInt8).length < ([0xc2, 0x01, 0x02, 0x05] : List UInt8).length ∧
      (parseValue pre cache.empty).view = PRes.ok (Tree.array [Tree.bytes [1], Tree.bytes [2]]) [] ∧
      ∀ size : Int, size - ((([0xc2, 0x01, 0x02, 0x05] : List UInt8).length : Int)
        - ((([0x05] : List UInt8).length : Nat) : Int)) < size :=
  (parseValue_progress [0xc2, 0x01, 0x02, 0x05] cache.empty).1
    (Tree.array [Tree.bytes [1], Tree.bytes [2]]) [0x05] (by decide)

/-- The bound `len(b) + 1` counts the outermost call: with `len(b)` calls in all
the input `0xC1`, a list that announces one byte and has none, does not get to
the call of `parseValue` on its empty payload. -/
theorem parseValueF_bound_tight :
    (parseValueF 1 [0xC1] cache.empty).view = PRes.outOfFuel ∧
    (parseValueF 2 [0xC1] cache.empty).view
      = PRes.err (Error.wrapf "cannot parse short bytes"
          (Error.wrapf "cannot parse array value" (Error.errorf "cannot parse empty string"))) [] := by
  decide

/-! ## Long-form lengths (C16, C12) -/

theorem readUint_result (b : List UInt8) (k : Nat) (c : cache) (hk : k ≤ 8)
    (hb : k ≤ b.length) :
    (readUint b (k : Int) c).result? = some (toInt64 (beNat (b.take k)), b.drop k) := by
  rcases readUint_eq b (k : Int) c with ⟨_, h2⟩ | ⟨n, tail, c', h1, h2⟩
  · rw [uintOf_eq b k hk hb] at h2; simp at h2
  · rw [uintOf_eq b k hk hb] at h2
    simp only [Option.some.injEq, Prod.mk.injEq] at h2
    rw [h1, h2.1, h2.2]
    rfl

/-- For a length below `2^63` the size `readUint` returns is the unsigned
big-endian number of the `k` bytes, whatever the scratch buffer held. -/
theorem readUint_exact (b : List UInt8) (k : Nat) (c : cache) (hk : k ≤ 8)
    (hb : k ≤ b.length) (h63 : beNat (b.take k) < 2 ^ 63) :
    (readUint b (k : Int) c).result? = some ((beNat (b.take k) : Int), b.drop k) := by
  rw [readUint_result b k c hk hb, toInt64_of_lt _ h63]

/-- C16 (fails on the code): an 8-byte length with its top bit set denotes a
number from `2^63` on, and `readUint` returns it through `int(i)` as a negative
size: `0x80 00 00 00 00 00 00 00` denotes `2^63` and comes back as `-2^63`,
whatever the scratch buffer held. -/
theorem readUint_top_bit_negative (c : cache) :
    beNat [0x80, 0, 0, 0, 0, 0, 0, 0] = 2 ^ 63 ∧
    (readUint [0x80, 0, 0, 0, 0, 0, 0, 0] 8 c).result? = some (-(2 ^ 63), []) := by
  constructor
  · decide
  · rw [show (8 : Int) = ((8 : Nat) : Int) from rfl, readUint_result _ 8 c (by omega) (by simp)]
    decide

theorem beNat_append_singleton (l : List UInt8) (x : UInt8) :
    beNat (l ++ [x]) = beNat l * 256 + x.toNat := by
  simp [beNat]

theorem beFixed_length (k n : Nat) : (beFixed k n).length = k := by
  induction k generalizing n with
  | zero => rfl
  | succ k ih => simp [beFixed, ih]

theorem beNat_beFixed (k : Nat) : ∀ n, n < 256 ^ k → beNat (beFixed k n) = n := by
  induction k with
  | zero => intro n h; simp at h; subst h; rfl
  | succ k ih =>
    intro n h
    have h1 : n / 256 < 256 ^ k := by
      rw [Nat.div_lt_iff_lt_mul (by omega)]
      calc n < 256 ^ (k + 1) := h
        _ = 256 ^ k * 256 := by ring
    simp only [beFixed]
    rw [beNat_append_singleton, ih _ h1, toNat_ofNat_mod]
    omega

theorem uintOf_beFixed (k n : Nat) (q : List UInt8) (hk : k ≤ 8) (hn : n < 256 ^ k)
    (h63 : n < 2 ^ 63) :
    uintOf (beFixed k n ++ q) (k : Int) = some ((n : Int), q) := by
  have hl := beFixed_length k n
  rw [uintOf_eq _ k hk (by simp only [List.length_append, hl]; omega)]
  rw [List.take_left' hl, List.drop_left' hl, beNat_beFixed k n hn, toInt64_of_lt n h63]

theorem decode_long_bytes (k n : Nat) (q : List UInt8) (hk1 : 1 ≤ k) (hk8 : k ≤ 8)
    (hn : n < 256 ^ k) (h63 : n < 2 ^ 63) :
    decode (UInt8.ofNat (0xB7 + k) :: (beFixed k n ++ q))
      = (decBytes q (n : Int)).wrap "cannot parse long bytes" := by
  rw [decode_cons]
  have e : (UInt8.ofNat (0xB7 + k)).toNat = 0xB7 + k := toNat_ofNat_lt _ (by omega)
  have e1 : ¬ (UInt8.ofNat (0xB7 + k)).toNat < 0x80 := by omega
  have e2 : ¬ (UInt8.ofNat (0xB7 + k)).toNat < 0xB8 := by omega
  have e4 : (UInt8.ofNat (0xB7 + k)).toNat < 0xC0 := by omega
  have e3 : (UInt8.ofNat (0xB7 + k) - 0xB7).toNat = k := by
    rw [toNat_sub_lit _ _ (by rw [e]; show 183 ≤ 183 + _; omega), e]
    show 183 + _ - 183 = _
    omega
  rw [if_neg e1, if_neg e2, if_pos e4, e3, uintOf_beFixed k n q hk8 hn h63]

theorem decode_long_list (k n : Nat) (q : List UInt8) (hk1 : 1 ≤ k) (hk8 : k ≤ 8)
    (hn : n < 256 ^ k) (h63 : n < 2 ^ 63) :
    decode (UInt8.ofNat (0xF7 + k) :: (beFixed k n ++ q))
      = (decList decode q (n : Int)).wrap "cannot parse long array" := by
  rw [decode_cons]
  have e : (UInt8.ofNat (0xF7 + k)).toNat = 0xF7 + k := toNat_ofNat_lt _ (by omega)
  have e1 : ¬ (UInt8.ofNat (0xF7 + k)).toNat < 0x80 := by omega
  have e2 : ¬ (UInt8.ofNat (0xF7 + k)).toNat < 0xB8 := by omega
  have e4 : ¬ (UInt8.ofNat (0xF7 + k)).toNat < 0xC0 := by omega
  have e5 : ¬ (UInt8.ofNat (0xF7 + k)).toNat < 0xF8 := by omega
  have e3 : (UInt8.ofNat (0xF7 + k) - 0xF7).toNat = k := by
    rw [toNat_sub_lit _ _ (by rw [e]; show 247 ≤ 247 + _; omega), e]
    show 247 + _ - 247 = _
    omega
  rw [if_neg e1, if_neg e2, if_neg e4, if_neg e5, e3, uintOf_beFixed k n q hk8 hn h63]

theorem chain_canonicalEncodeList : ∀ (xs : List Tree), Tree.lengthsOkList xs = true →
    ∀ rest : List UInt8, Chain decode (canonicalEncodeList xs ++ rest) xs rest
  | [], _, rest => by simpa [canonicalEncodeList] using Chain.nil rest
  | x :: xs, h, rest => by
    simp only [Tree.lengthsOkList, Bool.and_eq_true] at h
    simp only [canonicalEncodeList, List.append_assoc]
    exact Chain.cons (decode_canonical x h.1 _) (chain_canonicalEncodeList xs h.2 rest)

/-- C12: long-form lengths that are not canonical are accepted.  For `k` from 1
to 8 and a payload whose length is below `2^(8k)` and below `2^63`, the header
`0xB7+k`, the length written as exactly `k` big-endian bytes (leading zero bytes
and lengths below 56 included) and the payload decode to the byte string of the
payload, the value its canonical encoding has; with the header `0xF7+k` a
payload made of consecutive items decodes to the array of these items, and so
does the payload of canonical item encodings, to the value of the canonical
encoding of the list. -/
theorem Parse_noncanonical_length (p : Parser) (k : Nat) (hk1 : 1 ≤ k) (hk8 : k ≤ 8) :
    (∀ payload : List UInt8, payload.length < 256 ^ k → payload.length < 2 ^ 63 →
      (p.Parse (UInt8.ofNat (0xB7 + k) :: (beFixed k payload.length ++ payload))).view
        = Outcome.value (Tree.bytes payload) ∧
      (p.Parse (canonicalEncode (Tree.bytes payload))).view
        = Outcome.value (Tree.bytes payload)) ∧
    (∀ (payload : List UInt8) (items : List Tree), Chain itemAt payload items [] →
      payload.length < 256 ^ k → payload.length < 2 ^ 63 →
      (p.Parse (UInt8.ofNat (0xF7 + k) :: (beFixed k payload.length ++ payload))).view
        = Outcome.value (Tree.array items)) ∧
    (∀ xs : List Tree, (Tree.array xs).lengthsOk = true →
      (canonicalEncodeList xs).length < 256 ^ k →
      (p.Parse (UInt8.ofNat (0xF7 + k) ::
          (beFixed k (canonicalEncodeList xs).length ++ canonicalEncodeList xs))).view
        = Outcome.value (Tree.array xs) ∧
      (p.Parse (canonicalEncode (Tree.array xs))).view = Outcome.value (Tree.array xs)) := by
  have hlist : ∀ (payload : List UInt8) (items : List Tree), Chain decode payload items [] →
      payload.length < 256 ^ k → payload.length < 2 ^ 63 →
      (p.Parse (UInt8.ofNat (0xF7 + k) :: (beFixed k payload.length ++ payload))).view
        = Outcome.value (Tree.array items) := by
    intro payload items hch hn h63
    rw [Parse_view, decode_long_list k _ payload hk1 hk8 hn h63]
    have hlen := Chain.length_le decode_shrinks hch
    have := decLoop_chain decode_shrinks hch (payload.length + 1) [] (by omega)
    simp only [List.length_nil, Nat.cast_zero, Int.sub_zero, List.nil_append] at this
    unfold decList
    rw [this]
    rfl
  refine ⟨fun payload hn h63 => ⟨?_, ?_⟩, fun payload items hch hn h63 => ?_,
    fun xs hok hn => ⟨?_, ?_⟩⟩
  · rw [Parse_view, decode_long_bytes k _ payload hk1 hk8 hn h63]
    have := decBytes_append payload []
    rw [List.append_nil] at this
    rw [this]
    rfl
  · rw [Parse_view]
    have := decode_canonical (Tree.bytes payload)
      (by simp only [Tree.lengthsOk, decide_eq_true_eq]; exact h63) []
    rw [List.append_nil] at this
    rw [this]
    rfl
  · rw [itemAt_eq] at hch
    exact hlist payload items hch hn h63
  · have hok' := hok
    simp only [Tree.lengthsOk, Bool.and_eq_true, decide_eq_true_eq] at hok'
    have hch := chain_canonicalEncodeList xs hok'.2 []
    rw [List.append_nil] at hch
    exact hlist _ xs hch hn hok'.1
  · rw [Parse_view]
    have := decode_canonical (Tree.array xs) hok []
    rw [List.append_nil] at this
    rw [this]
    rfl

theorem Parse_noncanonical_length_witness :
    (1 ≤ 2 ∧ 2 ≤ 8) ∧
    (Parser.new.Parse [0xB9, 0x00, 0x01, 0x41]).view = Outcome.value (Tree.bytes [0x41]) ∧
    (Parser.new.Parse [0x41]).view = Outcome.value (Tree.bytes [0x41]) :=
  ⟨by decide, (Parse_noncanonical_length Parser.new 2 (by decide) (by decide)).1 [0x41]
    (by decide) (by decide)⟩

/-! ## The phase of a wrapping error (C17) -/

theorem PRes.wrap_err {msg : String} {r : PRes} {e : Error} {t : List UInt8}
    (h : r.wrap msg = PRes.err e t) : ∃ inner, r = PRes.err inner t ∧ e = Error.wrapf msg inner := by
  cases r with
  | ok v t' => simp [PRes.wrap] at h
  | err inner t' =>
    simp only [PRes.wrap, PRes.err.injEq] at h
    exact ⟨inner, by rw [h.2], h.1.symm⟩
  | panic => simp [PRes.wrap] at h
  | outOfFuel => simp [PRes.wrap] at h

/-- Every error of `parseValue` on a non-empty input is a wrapping error whose
message is fixed by the leading byte; a failure to read a long-form length is
not among them, `readUint` has no failing return. -/
theorem decode_error_shape (b : List UInt8) (e : Error) (t : List UInt8)
    (h : decode b = PRes.err e t) :
    (b = [] ∧ e = Error.errorf "cannot parse empty string") ∨
    ∃ cur rest inner, b = cur :: rest ∧ ¬ cur.toNat < 0x80 ∧
      e = Error.wrapf (itemMessage cur) inner := by
  cases b with
  | nil =>
    left
    simp only [decode_nil, PRes.err.injEq] at h
    exact ⟨rfl, h.1.symm⟩
  | cons cur rest =>
    right
    rw [decode_cons] at h
    unfold itemMessage
    by_cases c1 : cur.toNat < 0x80
    · rw [if_pos c1] at h; simp at h
    rw [if_neg c1] at h
    by_cases c2 : cur.toNat < 0xB8
    · rw [if_pos c2] at h
      obtain ⟨inner, _, he⟩ := PRes.wrap_err h
      exact ⟨cur, rest, inner, rfl, c1, by rw [if_pos c2]; exact he⟩
    rw [if_neg c2] at h
    by_cases c3 : cur.toNat < 0xC0
    · rw [if_pos c3] at h
      cases hu : uintOf rest ((cur - 0xB7).toNat : Int) with
      | none => rw [hu] at h; simp at h
      | some q =>
        obtain ⟨m, tl⟩ := q
        rw [hu] at h
        simp only [] at h
        obtain ⟨inner, _, he⟩ := PRes.wrap_err h
        exact ⟨cur, rest, inner, rfl, c1, by rw [if_neg c2, if_pos c3]; exact he⟩
    rw [if_neg c3] at h
    by_cases c4 : cur.toNat < 0xF8
    · rw [if_pos c4] at h
      obtain ⟨inner, _, he⟩ := PRes.wrap_err h
      exact ⟨cur, rest, inner, rfl, c1, by rw [if_neg c2, if_neg c3, if_pos c4]; exact he⟩
    rw [if_neg c4] at h
    cases hu : uintOf rest ((cur - 0xF7).toNat : Int) with
    | none => rw [hu] at h; simp at h
    | some q =>
      obtain ⟨m, tl⟩ := q
      rw [hu] at h
      simp only [] at h
      obtain ⟨inner, _, he⟩ := PRes.wrap_err h
      exact ⟨cur, rest, inner, rfl, c1, by rw [if_neg c2, if_neg c3, if_neg c4]; exact he⟩

/-- What holds of the phases: an error on an item with a string header names
the string phase and one on a long list the array phase; an error on a short
list names the string phase too, and no error names the long-size phase. -/
theorem parseValue_error_phase (cur : UInt8) (rest : List UInt8) (c : cache) (e : Error)
    (t : List UInt8) (h : (parseValue (cur :: rest) c).view = PRes.err e t) :
    ¬ cur.toNat < 0x80 ∧
    e.phase = (if cur.toNat < 0xF8 then some Phase.string else some Phase.array) := by
  rw [parseValue_view] at h
  rcases decode_error_shape _ e t h with ⟨hnil, _⟩ | ⟨cur', rest', inner, hb, hc, he⟩
  · simp at hnil
  · simp only [List.cons.injEq] at hb
    obtain ⟨rfl, rfl⟩ := hb
    refine ⟨hc, ?_⟩
    rw [he]
    simp only [Error.phase, itemMessage]
    by_cases c2 : cur.toNat < 0xB8
    · rw [if_pos c2, if_pos (by omega)]; decide
    rw [if_neg c2]
    by_cases c3 : cur.toNat < 0xC0
    · rw [if_pos c3, if_pos (by omega)]; decide
    rw [if_neg c3]
    by_cases c4 : cur.toNat < 0xF8
    · rw [if_pos c4, if_pos c4]; decide
    · rw [if_neg c4, if_neg c4]; decide

/-- C17 (fails on the code): `0xC1` is a short list header with one byte
announced and none present; decoding fails inside the list, and `parseValue`
wraps the failure with "cannot parse short bytes", the message of short
strings: the error names the string phase and not the array phase, for every
state of the arena. -/
theorem parseValue_short_list_phase (c : cache) :
    (parseValue [0xC1] c).view
      = PRes.err (Error.wrapf "cannot parse short bytes"
          (Error.wrapf "cannot parse array value" (Error.errorf "cannot parse empty string"))) [] ∧
    (Error.wrapf "cannot parse short bytes"
      (Error.wrapf "cannot parse array value"
        (Error.errorf "cannot parse empty string"))).phase = some Phase.string ∧
    (Error.wrapf "cannot parse short bytes"
      (Error.wrapf "cannot parse array value"
        (Error.errorf "cannot parse empty string"))).phase ≠ some Phase.array := by
  rw [parseValue_view]
  decide

end rlpv2

namespace blockchain

/-! ## The event stream (C8, C9, C10) -/

theorem wellLinked_new : WellLinked Mem.empty eventStream.new := by
  constructor
  · intro i el h; simp [Mem.empty] at h
  · rfl

theorem map_event_set (l : List eventElem) (h : Nat) (el : eventElem) (q : Option Nat)
    (hel : l[h]? = some el) :
    (l.set h { el with next := q }).map eventElem.event = l.map eventElem.event := by
  apply List.ext_getElem?
  intro i
  simp only [List.getElem?_map, List.getElem?_set]
  by_cases hi : h = i
  · subst hi
    have hlt : h < l.length := by
      rcases List.getElem?_eq_some.mp hel with ⟨hlt, _⟩; exact hlt
    simp [hlt, hel]
  · simp [hi]

theorem push_elems (m : Mem) (e : eventStream) (ev : Option Event) (hwl : WellLinked m e) :
    (eventStream.push m e ev).1.elems.length = m.elems.length + 1 ∧
    (eventStream.push m e ev).1.events = m.events ++ [ev] ∧
    WellLinked (eventStream.push m e ev).1 (eventStream.push m e ev).2 := by
  obtain ⟨hnext, hhead⟩ := hwl
  by_cases h0 : m.elems.length = 0
  · rw [if_pos h0] at hhead
    have hnil : m.elems = [] := List.length_eq_zero.mp h0
    simp only [eventStream.push, hhead, Mem.events, hnil]
    refine ⟨by simp, by simp, ?_, by simp⟩
    intro i el h
    cases i with
    | zero => simp at h; subst h; simp
    | succ i => simp at h
  · rw [if_neg h0] at hhead
    have hlt : m.elems.length - 1 < m.elems.length := by omega
    have hget : (m.elems ++ [(⟨ev, none⟩ : eventElem)])[m.elems.length - 1]?
        = some (m.elems[m.elems.length - 1]) := by
      rw [List.getElem?_append_left hlt, List.getElem?_eq_getElem hlt]
    simp only [eventStream.push, hhead, Mem.setNext, hget, Mem.events]
    refine ⟨by simp, ?_, ?_, by simp⟩
    · rw [map_event_set _ _ _ _ hget]; simp
    · intro i el h
      simp only [List.length_set, List.length_append, List.length_singleton]
      rw [List.getElem?_set] at h
      by_cases hi : m.elems.length - 1 = i
      · rw [if_pos hi] at h
        simp only [List.length_append, List.length_singleton] at h
        rw [if_pos (by omega)] at h
        simp only [Option.some.injEq] at h
        subst h
        simp only []
        rw [if_pos (by omega)]
        congr 1; omega
      · rw [if_neg hi] at h
        by_cases hi2 : i < m.elems.length
        · rw [List.getElem?_append_left hi2] at h
          rw [hnext i el h, if_pos (by omega), if_pos (by omega)]
        · rw [List.getElem?_append_right (by omega)] at h
          have : i - m.elems.length = 0 ∨ 0 < i - m.elems.length := by omega
          rcases this with h3 | h3
          · rw [h3] at h
            simp only [List.getElem?_cons_zero, Option.some.injEq] at h
            subst h
            simp only []
            rw [if_neg (by omega)]
          · obtain ⟨j, hj⟩ : ∃ j, i - m.elems.length = j + 1 := ⟨i - m.elems.length - 1, by omega⟩
            rw [hj] at h
            simp at h

theorem pushAll_elems (evs : List (Option Event)) :
    ∀ (m : Mem) (e : eventStream), WellLinked m e →
      (pushAll m e evs).1.elems.length = m.elems.length + evs.length ∧
      (pushAll m e evs).1.events = m.events ++ evs ∧
      WellLinked (pushAll m e evs).1 (pushAll m e evs).2 := by
  induction evs with
  | nil => intro m e h; simp [pushAll, h]
  | cons ev evs ih =>
    intro m e h
    obtain ⟨h1, h2, h3⟩ := push_elems m e ev h
    obtain ⟨i1, i2, i3⟩ := ih _ _ h3
    simp only [pushAll]
    refine ⟨by rw [i1, h1]; simp only [List.length_cons]; omega, by rw [i2, h2]; simp, i3⟩

theorem subscribe_elems (m : Mem) (e : eventStream) :
    (eventStream.subscribe m e).2.1.elems = m.elems ∧
    (eventStream.subscribe m e).2.2.head = e.head ∧
    (eventStream.subscribe m e).1.elem = e.head ∧
    (eventStream.subscribe m e).1.closeCh = none :=
  ⟨rfl, rfl, rfl, rfl⟩

theorem subscribe_wellLinked (m : Mem) (e : eventStream) (h : WellLinked m e) :
    WellLinked (eventStream.subscribe m e).2.1 (eventStream.subscribe m e).2.2 := h

theorem GetEvent_next (m : Mem) (e : eventStream) (hwl : WellLinked m e) (s : Subscription)
    (i : Nat) (hs : s.elem = some i) (hi : i + 1 < m.elems.length) :
    Subscription.GetEvent m s
      = (GetEventResult.returned (m.events.getD (i + 1) none), { s with elem := some (i + 1) }) := by
  have h1 : m.elems[i]? = some m.elems[i] := List.getElem?_eq_getElem (by omega)
  have h2 : m.elems[i + 1]? = some m.elems[i + 1] := List.getElem?_eq_getElem hi
  have hn := hwl.1 i _ h1
  rw [if_pos hi] at hn
  unfold Subscription.GetEvent
  simp only [hs, h1, hn, h2]
  simp [Mem.events, List.getD, h2]

theorem GetEvent_last (m : Mem) (e : eventStream) (hwl : WellLinked m e) (s : Subscription)
    (i : Nat) (hs : s.elem = some i) (hi : i + 1 = m.elems.length) (hc : s.closeCh = none) :
    Subscription.GetEvent m s = (GetEventResult.blocked, s) := by
  have h1 : m.elems[i]? = some m.elems[i] := List.getElem?_eq_getElem (by omega)
  have hn := hwl.1 i _ h1
  rw [if_neg (by omega)] at hn
  unfold Subscription.GetEvent
  simp only [hs, h1, hn, hc]

theorem getEvents_run (m : Mem) (e : eventStream) (hwl : WellLinked m e) :
    ∀ (n : Nat) (s : Subscription) (i : Nat), s.elem = some i → i + n < m.elems.length →
      (getEvents m n s).1 = ((m.events.drop (i + 1)).take n).map GetEventResult.returned ∧
      (getEvents m n s).2 = { s with elem := some (i + n) } := by
  intro n
  induction n with
  | zero =>
    intro s i hs _
    simp only [getEvents, List.take_zero, List.map_nil, Nat.add_zero, true_and]
    cases s; simp_all
  | succ n ih =>
    intro s i hs hi
    have hstep := GetEvent_next m e hwl s i hs (by omega)
    obtain ⟨r1, r2⟩ := ih { s with elem := some (i + 1) } (i + 1) rfl (by omega)
    simp only [getEvents, hstep, r1, r2]
    constructor
    · have hlen : i + 1 < m.events.length := by simp [Mem.events]; omega
      rw [List.drop_eq_getElem_cons hlen, List.take_succ_cons, List.map_cons]
      simp [List.getD, List.getElem?_eq_getElem hlen]
    · simp only [Subscription.mk.injEq, Option.some.injEq, true_and]
      omega

/-- A subscription taken on a log that is not empty retrieves the events pushed
after it, in push order, and then waits. -/
theorem getEvents_subscribeBetween (m : Mem) (e : eventStream) (hwl : WellLinked m e)
    (es1 es2 : List (Option Event)) (hne : 0 < m.elems.length + es1.length) :
    (getEvents (subscribeBetween m e es1 es2).1 es2.length (subscribeBetween m e es1 es2).2).1
      = es2.map GetEventResult.returned ∧
    (Subscription.GetEvent (subscribeBetween m e es1 es2).1
      (getEvents (subscribeBetween m e es1 es2).1 es2.length
        (subscribeBetween m e es1 es2).2).2).1 = GetEventResult.blocked := by
  obtain ⟨l1, _, w1⟩ := pushAll_elems es1 m e hwl
  have w1' := subscribe_wellLinked _ _ w1
  obtain ⟨l2, ev2, w2⟩ := pushAll_elems es2 _ _ w1'
  obtain ⟨s1, _, s3, s4⟩ := subscribe_elems (pushAll m e es1).1 (pushAll m e es1).2
  have hhead := w1.2
  rw [if_neg (by omega)] at hhead
  rw [s1] at l2
  have hev0 : (eventStream.subscribe (pushAll m e es1).1 (pushAll m e es1).2).2.1.events
      = (pushAll m e es1).1.events := by
    simp only [Mem.events, s1]
  rw [hev0] at ev2
  have hl1 : (pushAll m e es1).1.events.length = (pushAll m e es1).1.elems.length := by
    simp [Mem.events]
  simp only [subscribeBetween]
  obtain ⟨r1, r2⟩ := getEvents_run _ _ w2 es2.length
    (eventStream.subscribe (pushAll m e es1).1 (pushAll m e es1).2).1
    ((pushAll m e es1).1.elems.length - 1) (by rw [s3, hhead]) (by rw [l2]; omega)
  constructor
  · rw [r1, ev2]
    have e1 : (pushAll m e es1).1.elems.length - 1 + 1 = (pushAll m e es1).1.events.length := by
      omega
    rw [e1, List.drop_left, List.take_length]
  · rw [r2]
    have hlast := GetEvent_last _ _ w2
      { (eventStream.subscribe (pushAll m e es1).1 (pushAll m e es1).2).1 with
        elem := some ((pushAll m e es1).1.elems.length - 1 + es2.length) }
      ((pushAll m e es1).1.elems.length - 1 + es2.length) rfl (by rw [l2]; omega) s4
    rw [hlast]

/-- C8 (fails on the code): on a newly created log nothing has been pushed and
`head` is nil; `subscribe` copies the nil head into `elem`, and whatever is
pushed afterwards the first `GetEvent` dereferences it (`s.elem.next`) and
panics instead of returning the first event. -/
theorem GetEvent_new_stream_panics (es : List (Option Event)) :
    (Subscription.GetEvent (subscribeBetween Mem.empty eventStream.new [] es).1
      (subscribeBetween Mem.empty eventStream.new [] es).2).1 = GetEventResult.panic :=
  rfl

/-- C9: late subscribe never sees history.  On a log built by `push`, after the
events `es1` (at least one) have been pushed, a subscription is created and the
events `es2` are pushed: the successive calls of `GetEvent` return exactly the
events of `es2`, in push order, and the call after them finds no event and
waits (with `es2` empty: the first call). -/
theorem GetEvent_late_subscribe (m : Mem) (e : eventStream) (hwl : WellLinked m e)
    (es1 es2 : List (Option Event)) (hk : es1 ≠ []) :
    (getEvents (subscribeBetween m e es1 es2).1 es2.length (subscribeBetween m e es1 es2).2).1
      = es2.map GetEventResult.returned ∧
    (Subscription.GetEvent (subscribeBetween m e es1 es2).1
      (getEvents (subscribeBetween m e es1 es2).1 es2.length
        (subscribeBetween m e es1 es2).2).2).1 = GetEventResult.blocked :=
  getEvents_subscribeBetween m e hwl es1 es2
    (by have := List.length_pos.mpr hk; omega)

theorem GetEvent_late_subscribe_witness :
    WellLinked Mem.empty eventStream.new ∧
    ([some ⟨[], [1]⟩] : List (Option Event)) ≠ [] ∧
    (getEvents (subscribeBetween Mem.empty eventStream.new [some ⟨[], [1]⟩]
        [some ⟨[], [2]⟩, some ⟨[2], [3]⟩]).1 2
      (subscribeBetween Mem.empty eventStream.new [some ⟨[], [1]⟩]
        [some ⟨[], [2]⟩, some ⟨[2], [3]⟩]).2).1
      = [GetEventResult.returned (some ⟨[], [2]⟩),
          GetEventResult.returned (some ⟨[2], [3]⟩)] ∧
    (Subscription.GetEvent (subscribeBetween Mem.empty eventStream.new [some ⟨[], [1]⟩]
        [some ⟨[], [2]⟩, some ⟨[2], [3]⟩]).1
      (getEvents (subscribeBetween Mem.empty eventStream.new [some ⟨[], [1]⟩]
        [some ⟨[], [2]⟩, some ⟨[2], [3]⟩]).1 2
        (subscribeBetween Mem.empty eventStream.new [some ⟨[], [1]⟩]
          [some ⟨[], [2]⟩, some ⟨[2], [3]⟩]).2).2).1 = GetEventResult.blocked :=
  ⟨wellLinked_new, by decide,
    GetEvent_late_subscribe Mem.empty eventStream.new wellLinked_new
      [some ⟨[], [1]⟩] [some ⟨[], [2]⟩, some ⟨[2], [3]⟩] (by decide)⟩

/-- C10 (fails on the code): `subscribe` never makes `closeCh`, so for every
subscription it returns `Close` closes a nil channel and panics, in every state
of the heap. -/
theorem Close_after_subscribe_panics (m : Mem) (e : eventStream) (m' : Mem) :
    Subscription.Close m' (eventStream.subscribe m e).1 = none :=
  rfl

/-- With the nil `closeCh` a `GetEvent` that finds no successor waits: the case
`<-s.closeCh` is never ready. -/
theorem GetEvent_after_subscribe_blocks (m : Mem) (e : eventStream) (hwl : WellLinked m e)
    (hne : 0 < m.elems.length) :
    (Subscription.GetEvent (eventStream.subscribe m e).2.1 (eventStream.subscribe m e).1).1
      = GetEventResult.blocked := by
  have h := getEvents_subscribeBetween m e hwl [] [] (by simpa using hne)
  exact h.2

/-! ## Headers added to an event (C13) -/

theorem getElem?_set_append_last (heap : HeaderHeap) (hd x : Header) (h : Nat)
    (hh : h < heap.length) :
    ((heap ++ [hd]).set h x)[heap.length]? = some hd := by
  rw [List.getElem?_set_ne (by omega)]
  exact List.getElem?_concat_length heap hd

theorem deref_set_append (heap : HeaderHeap) (hd x : Header) (h : Nat) (hh : h < heap.length)
    (chain : List Nat) (hne : ∀ p ∈ chain, p ≠ h) :
    deref ((heap ++ [hd]).set h x) (chain ++ [heap.length])
      = deref (heap ++ [hd]) (chain ++ [heap.length]) := by
  unfold deref
  apply List.map_congr_left
  intro p hp
  rw [List.mem_append] at hp
  rcases hp with hp | hp
  · exact List.getElem?_set_ne (fun h' => hne p hp h'.symm)
  · simp only [List.mem_singleton] at hp
    subst hp
    exact List.getElem?_set_ne (by omega)

/-- C13: `AddNewHeader(h)` appends a copy of `h` as the last element of
`NewChain`.  The length grows by one, the earlier elements keep their position
and no record that existed changes, `OldChain` is unchanged; the new element
points to a new record with the content of `h`, so a later write through `h`
leaves the stored record as it is, and the whole chain when no earlier element
is `h` itself.  `AddOldHeader(h)` does the same with `OldChain`, leaving
`NewChain` unchanged. -/
theorem AddNewHeader_appends (heap : HeaderHeap) (e : Event) (h : Nat) (hd : Header)
    (hh : heap[h]? = some hd) :
    (∃ heap' e', Event.AddNewHeader heap e h = some (heap', e') ∧
      e'.NewChain = e.NewChain ++ [heap.length] ∧
      e'.NewChain.length = e.NewChain.length + 1 ∧
      e'.OldChain = e.OldChain ∧
      (∀ i, i < heap.length → heap'[i]? = heap[i]?) ∧
      heap'[heap.length]? = some hd ∧
      (∀ x : Header, (heap'.set h x)[heap.length]? = some hd) ∧
      (∀ x : Header, (∀ p ∈ e.NewChain, p ≠ h) →
        deref (heap'.set h x) e'.NewChain = deref heap' e'.NewChain)) ∧
    (∃ heap' e', Event.AddOldHeader heap e h = some (heap', e') ∧
      e'.OldChain = e.OldChain ++ [heap.length] ∧
      e'.OldChain.length = e.OldChain.length + 1 ∧
      e'.NewChain = e.NewChain ∧
      (∀ i, i < heap.length → heap'[i]? = heap[i]?) ∧
      heap'[heap.length]? = some hd ∧
      (∀ x : Header, (heap'.set h x)[heap.length]? = some hd) ∧
      (∀ x : Header, (∀ p ∈ e.OldChain, p ≠ h) →
        deref (heap'.set h x) e'.OldChain = deref heap' e'.OldChain)) := by
  have hlt : h < heap.length := by
    rcases List.getElem?_eq_some.mp hh with ⟨hlt, _⟩; exact hlt
  constructor
  · refine ⟨heap ++ [hd], { e with NewChain := e.NewChain ++ [heap.length] }, ?_, rfl,
      by simp, rfl, fun i hi => List.getElem?_append_left hi,
      List.getElem?_concat_length heap hd,
      fun x => getElem?_set_append_last heap hd x h hlt,
      fun x hne => deref_set_append heap hd x h hlt e.NewChain hne⟩
    simp only [Event.AddNewHeader, Header.Copy, hh]
  · refine ⟨heap ++ [hd], { e with OldChain := e.OldChain ++ [heap.length] }, ?_, rfl,
      by simp, rfl, fun i hi => List.getElem?_append_left hi,
      List.getElem?_concat_length heap hd,
      fun x => getElem?_set_append_last heap hd x h hlt,
      fun x hne => deref_set_append heap hd x h hlt e.OldChain hne⟩
    simp only [Event.AddOldHeader, Header.Copy, hh]

theorem AddNewHeader_appends_witness :
    ([⟨[7]⟩, ⟨[8]⟩] : HeaderHeap)[1]? = some ⟨[8]⟩ ∧
    Event.AddNewHeader [⟨[7]⟩, ⟨[8]⟩] ⟨[], [0]⟩ 1 = some ([⟨[7]⟩, ⟨[8]⟩, ⟨[8]⟩], ⟨[], [0, 2]⟩) ∧
    Event.AddOldHeader [⟨[7]⟩, ⟨[8]⟩] ⟨[], [0]⟩ 1 = some ([⟨[7]⟩, ⟨[8]⟩, ⟨[8]⟩], ⟨[2], [0]⟩) ∧
    ((∃ heap' e', Event.AddNewHeader [⟨[7]⟩, ⟨[8]⟩] ⟨[], [0]⟩ 1 = some (heap', e') ∧
      e'.NewChain = [0] ++ [2] ∧
      e'.NewChain.length = 1 + 1 ∧
      e'.OldChain = [] ∧
      (∀ i, i < 2 → heap'[i]? = ([⟨[7]⟩, ⟨[8]⟩] : HeaderHeap)[i]?) ∧
      heap'[2]? = some ⟨[8]⟩ ∧
      (∀ x : Header, (heap'.set 1 x)[2]? = some ⟨[8]⟩) ∧
      (∀ x : Header, (∀ p ∈ [0], p ≠ 1) →
        deref (heap'.set 1 x) e'.NewChain = deref heap' e'.NewChain)) ∧
    (∃ heap' e', Event.AddOldHeader [⟨[7]⟩, ⟨[8]⟩] ⟨[], [0]⟩ 1 = some (heap', e') ∧
      e'.OldChain = [] ++ [2] ∧
      e'.OldChain.length = 0 + 1 ∧
      e'.NewChain = [0] ∧
      (∀ i, i < 2 → heap'[i]? = ([⟨[7]⟩, ⟨[8]⟩] : HeaderHeap)[i]?) ∧
      heap'[2]? = some ⟨[8]⟩ ∧
      (∀ x : Header, (heap'.set 1 x)[2]? = some ⟨[8]⟩) ∧
      (∀ x : Header, (∀ p ∈ ([] : List Nat), p ≠ 1) →
        deref (heap'.set 1 x) e'.OldChain = deref heap' e'.OldChain))) :=
  ⟨by decide, by decide, by decide,
    AddNewHeader_appends [⟨[7]⟩, ⟨[8]⟩] ⟨[], [0]⟩ 1 ⟨[8]⟩ (by decide)⟩

/-! ## Independent subscribers (C11) -/

theorem set_getElem?_self {α : Type} : ∀ (l : List α) (i : Nat) (a : α),
    l[i]? = some a → l.set i a = l
  | [], _, _, h => by simp at h
  | x :: xs, 0, a, h => by simp at h; simp [h]
  | x :: xs, i + 1, a, h => by
    simp only [List.getElem?_cons_succ] at h
    simp [set_getElem?_self xs i a h]

theorem wake_s (p : Subscriber) (ch : Nat) : (p.wake ch).s = p.s := by
  unfold Subscriber.wake
  split <;> rfl

theorem foldl_wake_s (chs : List Nat) : ∀ p : Subscriber, (chs.foldl Subscriber.wake p).s = p.s := by
  induction chs with
  | nil => intro p; rfl
  | cons ch chs ih => intro p; rw [List.foldl_cons, ih, wake_s]

theorem send_map_s : ∀ (subs : List Subscriber) (ch : Nat),
    (send subs ch).map Subscriber.s = subs.map Subscriber.s
  | [], _ => rfl
  | p :: ps, ch => by
    unfold send
    split
    · simp [wake_s]
    · simp [send_map_s ps ch]

theorem foldl_send_map_s (chs : List Nat) : ∀ subs : List Subscriber,
    (chs.foldl send subs).map Subscriber.s = subs.map Subscriber.s := by
  induction chs with
  | nil => intro subs; rfl
  | cons ch chs ih => intro subs; rw [List.foldl_cons, ih, send_map_s]

theorem map_updateCh (subs : List Subscriber) :
    (subs.map fun p => p.s.updateCh) = (subs.map Subscriber.s).map Subscription.updateCh := by
  simp

theorem send_getElem? : ∀ (subs : List Subscriber) (ch : Nat) (i : Nat),
    (subs.map fun p => p.s.updateCh).Nodup →
    (send subs ch)[i]? = subs[i]?.map fun p => p.wake ch
  | [], _, _, _ => rfl
  | p :: ps, ch, i, h => by
    simp only [List.map_cons, List.nodup_cons] at h
    unfold send
    by_cases hc : p.pc = some Pc.waiting ∧ p.s.updateCh = some ch
    · rw [if_pos hc]
      cases i with
      | zero => simp
      | succ i =>
        simp only [List.getElem?_cons_succ]
        cases hq : ps[i]? with
        | none => rfl
        | some q =>
          have hmem : q ∈ ps := List.mem_iff_getElem?.mpr ⟨i, hq⟩
          have hne : q.s.updateCh ≠ some ch := by
            intro hq'
            apply h.1
            rw [hc.2, ← hq']
            exact List.mem_map.mpr ⟨q, hmem, rfl⟩
          simp [Subscriber.wake, hne]
    · rw [if_neg hc]
      cases i with
      | zero => simp [Subscriber.wake, hc]
      | succ i =>
        simp only [List.getElem?_cons_succ]
        exact send_getElem? ps ch i h.2

theorem foldl_send_getElem? (chs : List Nat) (i : Nat) : ∀ subs : List Subscriber,
    (subs.map fun p => p.s.updateCh).Nodup →
    (chs.foldl send subs)[i]? = subs[i]?.map fun p => chs.foldl Subscriber.wake p := by
  induction chs with
  | nil => intro subs _; simp
  | cons ch chs ih =>
    intro subs h
    rw [List.foldl_cons, ih (send subs ch) (by rw [map_updateCh, send_map_s, ← map_updateCh]; exact h),
      send_getElem? subs ch i h]
    cases subs[i]? <;> simp


theorem step_getEvent_none (sys : System) (i : Nat) (h : sys.subs[i]? = none) :
    sys.step (Op.getEvent i) = (sys, []) := by
  simp only [System.step, h]

theorem step_getEvent_spec (sys : System) (i : Nat) (p : Subscriber) :
    ∃ (p' : Subscriber) (r : List (Nat × GetEventResult)),
      (∀ sys' : System, sys'.m = sys.m → sys'.subs[i]? = some p →
        sys'.step (Op.getEvent i) = ({ sys' with subs := sys'.subs.set i p' }, r)) ∧
      p'.s.updateCh = p.s.updateCh ∧ p'.s.closeCh = p.s.closeCh ∧
      ((r = [] ∧ p'.s = p.s) ∨
       (r = [(i, GetEventResult.panic)] ∧ p'.s = p.s ∧
          (p.s.elem = none ∨ ∃ c, p.s.elem = some c ∧ sys.m.elems[c]? = none)) ∨
       (r = [(i, GetEventResult.returned none)] ∧ p'.s = p.s ∧
          ∃ c, p.s.closeCh = some c ∧ c ∈ sys.m.closed) ∨
       (∃ c el j, p.s.elem = some c ∧ sys.m.elems[c]? = some el ∧ el.next = some j ∧
          p'.s = { p.s with elem := some j } ∧
          ((∃ el', sys.m.elems[j]? = some el' ∧ r = [(i, GetEventResult.returned el'.event)]) ∨
           (sys.m.elems[j]? = none ∧ r = [(i, GetEventResult.panic)])))) := by
  have key : (p.pc = none ∨ p.pc = some Pc.checking) ∨ p.pc = some Pc.selecting ∨
      (∀ sys' : System, sys'.subs[i]? = some p →
        sys'.step (Op.getEvent i) = (sys', [])) := by
    cases hpc : p.pc with
    | none => exact Or.inl (Or.inl rfl)
    | some pc =>
      cases pc with
      | checking => exact Or.inl (Or.inr rfl)
      | selecting => exact Or.inr (Or.inl rfl)
      | waiting => exact Or.inr (Or.inr fun sys' h' => by simp only [System.step, h', hpc])
      | returned ev => exact Or.inr (Or.inr fun sys' h' => by simp only [System.step, h', hpc])
      | panicked => exact Or.inr (Or.inr fun sys' h' => by simp only [System.step, h', hpc])
  rcases key with hpc | hpc | hstep
  · cases hel : p.s.elem with
    | none =>
      refine ⟨{ p with pc := some Pc.panicked }, [(i, GetEventResult.panic)],
        fun sys' hm h' => ?_, rfl, rfl, Or.inr (Or.inl ⟨rfl, rfl, Or.inl rfl⟩)⟩
      rcases hpc with hpc | hpc <;> simp only [System.step, h', hpc, hel]
    | some c =>
      cases hc : sys.m.elems[c]? with
      | none =>
        refine ⟨{ p with pc := some Pc.panicked }, [(i, GetEventResult.panic)],
          fun sys' hm h' => ?_, rfl, rfl, Or.inr (Or.inl ⟨rfl, rfl, Or.inr ⟨c, rfl, hc⟩⟩)⟩
        rcases hpc with hpc | hpc <;> simp only [System.step, h', hpc, hel, hm, hc]
      | some el =>
        cases hn : el.next with
        | none =>
          refine ⟨{ p with pc := some Pc.selecting }, [],
            fun sys' hm h' => ?_, rfl, rfl, Or.inl ⟨rfl, rfl⟩⟩
          rcases hpc with hpc | hpc <;> simp only [System.step, h', hpc, hel, hm, hc, hn]
        | some j =>
          cases hj : sys.m.elems[j]? with
          | none =>
            refine ⟨{ s := { p.s with elem := some j }, pc := some Pc.panicked },
              [(i, GetEventResult.panic)], fun sys' hm h' => ?_, rfl, rfl,
              Or.inr (Or.inr (Or.inr ⟨c, el, j, rfl, hc, hn, rfl, Or.inr ⟨hj, rfl⟩⟩))⟩
            rcases hpc with hpc | hpc <;> simp only [System.step, h', hpc, hel, hm, hc, hn, hj]
          | some el' =>
            refine ⟨{ s := { p.s with elem := some j }, pc := none },
              [(i, GetEventResult.returned el'.event)], fun sys' hm h' => ?_, rfl, rfl,
              Or.inr (Or.inr (Or.inr ⟨c, el, j, rfl, hc, hn, rfl, Or.inl ⟨el', hj, rfl⟩⟩))⟩
            rcases hpc with hpc | hpc <;> simp only [System.step, h', hpc, hel, hm, hc, hn, hj]
  · cases hcl : p.s.closeCh with
    | none =>
      refine ⟨{ p with pc := some Pc.waiting }, [], fun sys' hm h' => ?_, rfl, hcl,
        Or.inl ⟨rfl, rfl⟩⟩
      simp only [System.step, h', hpc, hcl]
    | some c =>
      by_cases hclosed : c ∈ sys.m.closed
      · refine ⟨{ p with pc := none }, [(i, GetEventResult.returned none)],
          fun sys' hm h' => ?_, rfl, hcl, Or.inr (Or.inr (Or.inl ⟨rfl, rfl, c, rfl, hclosed⟩))⟩
        simp only [System.step, h', hpc, hcl, hm, hclosed, if_true]
      · refine ⟨{ p with pc := some Pc.waiting }, [], fun sys' hm h' => ?_, rfl, hcl,
          Or.inl ⟨rfl, rfl⟩⟩
        simp only [System.step, h', hpc, hcl, hm, hclosed, if_false]
  · refine ⟨p, [], fun sys' hm h' => ?_, rfl, rfl, Or.inl ⟨rfl, rfl⟩⟩
    rw [hstep sys' h', set_getElem?_self _ _ _ h']


theorem valid_new : System.new.Valid := by
  refine ⟨wellLinked_new, ?_, ?_⟩
  · simp [System.new]
  · intro s hs; simp [System.new] at hs

theorem push_chans (m : Mem) (e : eventStream) (ev : Option Event) :
    (eventStream.push m e ev).1.chans = m.chans := by
  unfold eventStream.push
  cases e.head with
  | none => rfl
  | some h =>
    simp only [Mem.setNext]
    split <;> rfl

theorem step_valid (sys : System) (op : Op) (h : sys.Valid) : (sys.step op).1.Valid := by
  obtain ⟨hwl, hnd, hall⟩ := h
  cases op with
  | push ev =>
    obtain ⟨hlen, _, hwl'⟩ := push_elems sys.m sys.e ev hwl
    refine ⟨hwl', ?_, ?_⟩
    · show (((sys.e.updateCh.foldl send sys.subs).map Subscriber.s).map
        Subscription.updateCh).Nodup
      rw [foldl_send_map_s]; exact hnd
    · intro s hs
      have hs' : s ∈ sys.subs.map Subscriber.s := by
        rw [← foldl_send_map_s sys.e.updateCh]; exact hs
      obtain ⟨h1, h2, h3⟩ := hall s hs'
      refine ⟨h1, ?_, ?_⟩
      · show ∃ ch, s.updateCh = some ch ∧ ch < (eventStream.push sys.m sys.e ev).1.chans ∧
          ch ∈ sys.e.updateCh
        rw [push_chans]; exact h2
      · intro c hc
        show c < (eventStream.push sys.m sys.e ev).1.elems.length
        rw [hlen]
        exact Nat.lt_succ_of_lt (h3 c hc)
  | subscribe =>
    refine ⟨subscribe_wellLinked sys.m sys.e hwl, ?_, ?_⟩
    · show (((sys.subs ++ [Subscriber.mk (eventStream.subscribe sys.m sys.e).1 none]).map
        Subscriber.s).map Subscription.updateCh).Nodup
      simp only [List.map_append, List.map_cons, List.map_nil]
      refine List.Nodup.append hnd (List.nodup_singleton _) ?_
      intro x hx hx'
      simp only [List.mem_singleton] at hx'
      obtain ⟨s, hs, rfl⟩ := List.mem_map.mp hx
      obtain ⟨_, ⟨ch, hch, hlt, _⟩, _⟩ := hall s hs
      rw [hch] at hx'
      have : ch = sys.m.chans := by
        simpa [eventStream.subscribe, eventStream.Head] using hx'
      omega
    · intro s hs
      have hs' : s ∈ sys.subs.map Subscriber.s ∨ s = (eventStream.subscribe sys.m sys.e).1 := by
        have : s ∈ (sys.subs ++ [Subscriber.mk (eventStream.subscribe sys.m sys.e).1 none]).map
            Subscriber.s := hs
        simpa using this
      rcases hs' with hs' | rfl
      · obtain ⟨h1, ⟨ch, hch, hlt, hmem⟩, h3⟩ := hall s hs'
        refine ⟨h1, ⟨ch, hch, ?_, ?_⟩, h3⟩
        · show ch < sys.m.chans + 1
          omega
        · show ch ∈ sys.e.updateCh ++ [sys.m.chans]
          exact List.mem_append_left _ hmem
      · refine ⟨rfl, ⟨sys.m.chans, rfl, ?_, ?_⟩, ?_⟩
        · show sys.m.chans < sys.m.chans + 1
          omega
        · show sys.m.chans ∈ sys.e.updateCh ++ [sys.m.chans]
          simp
        · intro c hc
          have hc' : sys.e.head = some c := hc
          have h2 := hwl.2
          show c < sys.m.elems.length
          by_cases h0 : sys.m.elems.length = 0
          · rw [if_pos h0, hc'] at h2; simp at h2
          · rw [if_neg h0, hc'] at h2
            simp only [Option.some.injEq] at h2
            omega
  | getEvent i =>
    cases hsub : sys.subs[i]? with
    | none => rw [step_getEvent_none sys i hsub]; exact ⟨hwl, hnd, hall⟩
    | some p =>
      obtain ⟨p', r, hstep, hu, hc, hcases⟩ := step_getEvent_spec sys i p
      rw [hstep sys rfl hsub]
      have hp : p.s ∈ sys.subs.map Subscriber.s :=
        List.mem_map.mpr ⟨p, List.mem_iff_getElem?.mpr ⟨i, hsub⟩, rfl⟩
      refine ⟨hwl, ?_, ?_⟩
      · show (((sys.subs.set i p').map Subscriber.s).map Subscription.updateCh).Nodup
        rw [List.map_set, List.map_set, hu, set_getElem?_self]
        · exact hnd
        · simp [hsub]
      · intro s hs
        have hs' : s ∈ (sys.subs.set i p').map Subscriber.s := hs
        rw [List.map_set] at hs'
        rcases List.mem_or_eq_of_mem_set hs' with hs' | rfl
        · exact hall s hs'
        · obtain ⟨h1, h2, h3⟩ := hall p.s hp
          refine ⟨by rw [hc]; exact h1, by rw [hu]; exact h2, ?_⟩
          intro c hcur
          show c < sys.m.elems.length
          rcases hcases with ⟨_, hs⟩ | ⟨_, hs, _⟩ | ⟨_, hs, _⟩ | ⟨c0, el, j, h0, hel, hn, hs, _⟩
          · rw [hs] at hcur; exact h3 c hcur
          · rw [hs] at hcur; exact h3 c hcur
          · rw [hs] at hcur; exact h3 c hcur
          · rw [hs] at hcur
            simp only [Option.some.injEq] at hcur
            subst hcur
            have hnx := hwl.1 c0 el hel
            rw [hn] at hnx
            by_cases hlt : c0 + 1 < sys.m.elems.length
            · rw [if_pos hlt] at hnx
              simp only [Option.some.injEq] at hnx
              omega
            · rw [if_neg hlt] at hnx; simp at hnx

theorem run_valid (ops : List Op) : ∀ sys : System, sys.Valid → (sys.run ops).1.Valid := by
  induction ops with
  | nil => intro sys h; exact h
  | cons op ops ih => intro sys h; exact ih _ (step_valid sys op h)


theorem retrieved_append (i : Nat) (r r' : List (Nat × GetEventResult)) :
    retrieved i (r ++ r') = retrieved i r ++ retrieved i r' := by
  simp [retrieved]

theorem step_agree (i : Nat) (sys sys' : System) (h : Agree i sys sys') (hv : sys.Valid)
    (hv' : sys'.Valid) (op : Op) (hop : op.isOther i = false) :
    Agree i (sys.step op).1 (sys'.step op).1 ∧
    retrieved i (sys.step op).2 = retrieved i (sys'.step op).2 := by
  obtain ⟨hm, he, hl, hs⟩ := h
  cases op with
  | push ev =>
    refine ⟨⟨?_, ?_, ?_, ?_⟩, rfl⟩
    · show (eventStream.push sys.m sys.e ev).1 = (eventStream.push sys'.m sys'.e ev).1
      rw [hm, he]
    · show (eventStream.push sys.m sys.e ev).2 = (eventStream.push sys'.m sys'.e ev).2
      rw [hm, he]
    · show (sys.e.updateCh.foldl send sys.subs).length
        = (sys'.e.updateCh.foldl send sys'.subs).length
      have e1 := congrArg List.length (foldl_send_map_s sys.e.updateCh sys.subs)
      have e2 := congrArg List.length (foldl_send_map_s sys'.e.updateCh sys'.subs)
      simp only [List.length_map] at e1 e2
      rw [e1, e2, hl]
    · show (sys.e.updateCh.foldl send sys.subs)[i]?
        = (sys'.e.updateCh.foldl send sys'.subs)[i]?
      rw [foldl_send_getElem? _ _ _ (by rw [map_updateCh]; exact hv.2.1),
        foldl_send_getElem? _ _ _ (by rw [map_updateCh]; exact hv'.2.1), hs, he]
  | subscribe =>
    refine ⟨⟨?_, ?_, ?_, ?_⟩, rfl⟩
    · show (eventStream.subscribe sys.m sys.e).2.1 = (eventStream.subscribe sys'.m sys'.e).2.1
      rw [hm, he]
    · show (eventStream.subscribe sys.m sys.e).2.2 = (eventStream.subscribe sys'.m sys'.e).2.2
      rw [hm, he]
    · show (sys.subs ++ [Subscriber.mk (eventStream.subscribe sys.m sys.e).1 none]).length
        = (sys'.subs ++ [Subscriber.mk (eventStream.subscribe sys'.m sys'.e).1 none]).length
      simp [hl]
    · show (sys.subs ++ [Subscriber.mk (eventStream.subscribe sys.m sys.e).1 none])[i]?
        = (sys'.subs ++ [Subscriber.mk (eventStream.subscribe sys'.m sys'.e).1 none])[i]?
      rw [hm, he]
      by_cases hi : i < sys.subs.length
      · rw [List.getElem?_append_left hi, List.getElem?_append_left (by omega)]
        exact hs
      · rw [List.getElem?_append_right (by omega), List.getElem?_append_right (by omega), hl]
  | getEvent j =>
    have hj : j = i := by
      simp only [Op.isOther, decide_eq_false_iff_not, ne_eq, not_not] at hop
      exact hop
    subst hj
    cases hsub : sys.subs[j]? with
    | none =>
      have hsub' : sys'.subs[j]? = none := by rw [← hs, hsub]
      rw [step_getEvent_none sys j hsub, step_getEvent_none sys' j hsub']
      exact ⟨⟨hm, he, hl, hs⟩, rfl⟩
    | some p =>
      have hsub' : sys'.subs[j]? = some p := by rw [← hs, hsub]
      have h1 : j < sys.subs.length := by
        rcases List.getElem?_eq_some.mp hsub with ⟨h1, _⟩; exact h1
      obtain ⟨p', r, hstep, _⟩ := step_getEvent_spec sys j p
      rw [hstep sys rfl hsub, hstep sys' hm.symm hsub']
      refine ⟨⟨hm, he, ?_, ?_⟩, rfl⟩
      · show (sys.subs.set j p').length = (sys'.subs.set j p').length
        simp [hl]
      · show (sys.subs.set j p')[j]? = (sys'.subs.set j p')[j]?
        rw [List.getElem?_set, List.getElem?_set]
        simp [h1, ← hl]

theorem step_getEvent_other (sys : System) (i j : Nat) (hj : j ≠ i) :
    (sys.step (Op.getEvent j)).1.m = sys.m ∧ (sys.step (Op.getEvent j)).1.e = sys.e ∧
    (sys.step (Op.getEvent j)).1.subs.length = sys.subs.length ∧
    (sys.step (Op.getEvent j)).1.subs[i]? = sys.subs[i]? ∧
    retrieved i (sys.step (Op.getEvent j)).2 = [] := by
  cases hsub : sys.subs[j]? with
  | none => rw [step_getEvent_none sys j hsub]; exact ⟨rfl, rfl, rfl, rfl, rfl⟩
  | some p =>
    obtain ⟨p', r, hstep, _, _, hcases⟩ := step_getEvent_spec sys j p
    rw [hstep sys rfl hsub]
    refine ⟨rfl, rfl, by simp, List.getElem?_set_ne hj, ?_⟩
    show retrieved i r = []
    rcases hcases with ⟨hr, _⟩ | ⟨hr, _⟩ | ⟨hr, _⟩ | ⟨_, _, _, _, _, _, _, ⟨_, _, hr⟩ | ⟨_, hr⟩⟩ <;>
      simp [hr, retrieved, hj]

theorem step_agree_other (i : Nat) (sys sys' : System) (h : Agree i sys sys') (op : Op)
    (hop : op.isOther i = true) :
    Agree i (sys.step op).1 sys' ∧ retrieved i (sys.step op).2 = [] := by
  obtain ⟨hm, he, hl, hs⟩ := h
  cases op with
  | push ev => simp [Op.isOther] at hop
  | subscribe => simp [Op.isOther] at hop
  | getEvent j =>
    have hj : j ≠ i := by
      simpa [Op.isOther] using hop
    obtain ⟨h1, h2, h3, h4, h5⟩ := step_getEvent_other sys i j hj
    exact ⟨⟨by rw [h1, hm], by rw [h2, he], by rw [h3, hl], by rw [h4, hs]⟩, h5⟩

theorem run_agree (i : Nat) (ops : List Op) :
    ∀ (sys sys' : System), Agree i sys sys' → sys.Valid → sys'.Valid →
      retrieved i (sys.run ops).2 = retrieved i (sys'.run (withoutOthers i ops)).2 := by
  induction ops with
  | nil => intro sys sys' _ _ _; rfl
  | cons op ops ih =>
    intro sys sys' h hv hv'
    cases hop : op.isOther i with
    | false =>
      obtain ⟨h1, h2⟩ := step_agree i sys sys' h hv hv' op hop
      have hw : withoutOthers i (op :: ops) = op :: withoutOthers i ops := by
        simp [withoutOthers, hop]
      rw [hw]
      simp only [System.run, retrieved_append]
      rw [h2, ih _ _ h1 (step_valid sys op hv) (step_valid sys' op hv')]
    | true =>
      obtain ⟨h1, h2⟩ := step_agree_other i sys sys' h op hop
      have hw : withoutOthers i (op :: ops) = withoutOthers i ops := by
        simp [withoutOthers, hop]
      rw [hw]
      simp only [System.run, retrieved_append]
      rw [h2, ih _ _ h1 (step_valid sys op hv) hv']
      rfl

theorem getElem?_event (m : Mem) (i : Nat) (el : eventElem) (h : m.elems[i]? = some el) :
    m.events[i]? = some el.event := by
  simp [Mem.events, h]

theorem step_events (sys : System) (op : Op) (h : sys.Valid) :
    ∃ evs, (sys.step op).1.m.events = sys.m.events ++ evs := by
  cases op with
  | push ev => exact ⟨[ev], (push_elems sys.m sys.e ev h.1).2.1⟩
  | subscribe => exact ⟨[], by simp [System.step, Mem.events, eventStream.subscribe, eventStream.Head]⟩
  | getEvent i =>
    refine ⟨[], ?_⟩
    cases hsub : sys.subs[i]? with
    | none => rw [step_getEvent_none sys i hsub]; simp
    | some p =>
      obtain ⟨p', r, hstep, _⟩ := step_getEvent_spec sys i p
      rw [hstep sys rfl hsub]; simp

theorem run_events (ops : List Op) : ∀ sys : System, sys.Valid →
    ∃ evs, (sys.run ops).1.m.events = sys.m.events ++ evs := by
  induction ops with
  | nil => intro sys _; exact ⟨[], by simp [System.run]⟩
  | cons op ops ih =>
    intro sys h
    obtain ⟨evs, he⟩ := step_events sys op h
    obtain ⟨evs', he'⟩ := ih _ (step_valid sys op h)
    refine ⟨evs ++ evs', ?_⟩
    show ((sys.step op).1.run ops).1.m.events = _
    rw [he', he, List.append_assoc]

theorem step_order (sys : System) (h : sys.Valid) (i : Nat) (p : Subscriber) (c : Nat)
    (hsub : sys.subs[i]? = some p) (hcur : p.s.elem = some c) (op : Op) :
    ∃ p1, (sys.step op).1.subs[i]? = some p1 ∧
      ((p1.s.elem = some c ∧ retrieved i (sys.step op).2 = []) ∨
       (p1.s.elem = some (c + 1) ∧ ∃ ev, sys.m.events[c + 1]? = some ev ∧
          retrieved i (sys.step op).2 = [GetEventResult.returned ev])) := by
  have hi : i < sys.subs.length := by
    rcases List.getElem?_eq_some.mp hsub with ⟨h1, _⟩; exact h1
  have hp : p.s ∈ sys.subs.map Subscriber.s :=
    List.mem_map.mpr ⟨p, List.mem_iff_getElem?.mpr ⟨i, hsub⟩, rfl⟩
  obtain ⟨hclose, _, hlt⟩ := h.2.2 p.s hp
  cases op with
  | push ev =>
    refine ⟨sys.e.updateCh.foldl Subscriber.wake p, ?_, Or.inl ⟨?_, rfl⟩⟩
    · show (sys.e.updateCh.foldl send sys.subs)[i]? = _
      rw [foldl_send_getElem? _ _ _ (by rw [map_updateCh]; exact h.2.1), hsub]
      rfl
    · rw [foldl_wake_s, hcur]
  | subscribe =>
    refine ⟨p, ?_, Or.inl ⟨hcur, rfl⟩⟩
    show (sys.subs ++ [Subscriber.mk (eventStream.subscribe sys.m sys.e).1 none])[i]? = _
    rw [List.getElem?_append_left hi, hsub]
  | getEvent j =>
    by_cases hj : j = i
    · subst hj
      obtain ⟨p', r, hstep, _, _, hcases⟩ := step_getEvent_spec sys j p
      rw [hstep sys rfl hsub]
      refine ⟨p', ?_, ?_⟩
      · show (sys.subs.set j p')[j]? = some p'
        rw [List.getElem?_set]; simp [hi]
      · show (p'.s.elem = some c ∧ retrieved j r = []) ∨
          (p'.s.elem = some (c + 1) ∧ ∃ ev, sys.m.events[c + 1]? = some ev ∧
            retrieved j r = [GetEventResult.returned ev])
        rcases hcases with ⟨hr, hs⟩ | ⟨_, _, hbad⟩ | ⟨_, _, c0, hc0, _⟩ |
          ⟨c0, el, j0, h0, hel, hn, hs, hres⟩
        · left; rw [hs, hr]; exact ⟨hcur, rfl⟩
        · exfalso
          rcases hbad with hbad | ⟨c0, hc0, hnone⟩
          · rw [hbad] at hcur; simp at hcur
          · rw [hc0] at hcur
            simp only [Option.some.injEq] at hcur
            subst hcur
            have := hlt c0 hc0
            rw [List.getElem?_eq_getElem this] at hnone
            simp at hnone
        · rw [hclose] at hc0; simp at hc0
        · rw [h0] at hcur
          simp only [Option.some.injEq] at hcur
          subst hcur
          have hnx := h.1.1 c0 el hel
          rw [hn] at hnx
          by_cases hlt1 : c0 + 1 < sys.m.elems.length
          · rw [if_pos hlt1] at hnx
            simp only [Option.some.injEq] at hnx
            subst hnx
            right
            rcases hres with ⟨el', hel', hr⟩ | ⟨hnone, _⟩
            · refine ⟨by rw [hs], el'.event, getElem?_event _ _ _ hel', ?_⟩
              rw [hr]; simp [retrieved]
            · rw [List.getElem?_eq_getElem hlt1] at hnone
              simp at hnone
          · rw [if_neg hlt1] at hnx; simp at hnx
    · obtain ⟨_, _, _, h4, h5⟩ := step_getEvent_other sys i j hj
      exact ⟨p, by rw [h4, hsub], Or.inl ⟨hcur, h5⟩⟩

theorem run_order (i : Nat) (ops : List Op) : ∀ (sys : System), sys.Valid →
    ∀ (p : Subscriber) (c : Nat), sys.subs[i]? = some p → p.s.elem = some c →
    ∃ (k : Nat) (p' : Subscriber), (sys.run ops).1.subs[i]? = some p' ∧
      p'.s.elem = some (c + k) ∧
      retrieved i (sys.run ops).2
        = (((sys.run ops).1.m.events.drop (c + 1)).take k).map GetEventResult.returned := by
  induction ops with
  | nil =>
    intro sys _ p c hsub hcur
    exact ⟨0, p, hsub, hcur, by simp [System.run, retrieved]⟩
  | cons op ops ih =>
    intro sys h p c hsub hcur
    obtain ⟨p1, hsub1, hstep⟩ := step_order sys h i p c hsub hcur op
    have hv1 := step_valid sys op h
    obtain ⟨evs, hevs⟩ := run_events (op :: ops) sys h
    rcases hstep with ⟨hc1, hr⟩ | ⟨hc1, ev, hev, hr⟩
    · obtain ⟨k, p', hsub', hcur', hret⟩ := ih _ hv1 p1 c hsub1 hc1
      refine ⟨k, p', hsub', hcur', ?_⟩
      simp only [System.run, retrieved_append]
      rw [hr, hret]
      rfl
    · obtain ⟨k, p', hsub', hcur', hret⟩ := ih _ hv1 p1 (c + 1) hsub1 hc1
      refine ⟨k + 1, p', hsub', by rw [hcur']; congr 1; omega, ?_⟩
      have hlt : c + 1 < sys.m.events.length := by
        rcases List.getElem?_eq_some.mp hev with ⟨h1, _⟩; exact h1
      have hev' : (sys.run (op :: ops)).1.m.events[c + 1]? = some ev := by
        rw [hevs, List.getElem?_append_left hlt, hev]
      have hlt' : c + 1 < (sys.run (op :: ops)).1.m.events.length := by
        rcases List.getElem?_eq_some.mp hev' with ⟨h1, _⟩; exact h1
      have hget : (sys.run (op :: ops)).1.m.events[c + 1] = ev := by
        rcases List.getElem?_eq_some.mp hev' with ⟨_, h2⟩; exact h2
      rw [List.drop_eq_getElem_cons hlt', hget]
      simp only [System.run, retrieved_append, List.take_succ_cons, List.map_cons]
      rw [hr, hret]
      rfl


theorem step_getEvent_frame (sys : System) (i : Nat) :
    (sys.step (Op.getEvent i)).1.m = sys.m ∧
    (sys.step (Op.getEvent i)).1.e = sys.e ∧
    (∀ j, j ≠ i → (sys.step (Op.getEvent i)).1.subs[j]? = sys.subs[j]?) ∧
    (∀ p, sys.subs[i]? = some p → ∃ p', (sys.step (Op.getEvent i)).1.subs[i]? = some p' ∧
      p'.s.updateCh = p.s.updateCh ∧ p'.s.closeCh = p.s.closeCh ∧
      (p'.s.elem = p.s.elem ∨
        ∃ c el j, p.s.elem = some c ∧ sys.m.elems[c]? = some el ∧ el.next = some j ∧
          p'.s.elem = some j)) := by
  cases hsub : sys.subs[i]? with
  | none =>
    rw [step_getEvent_none sys i hsub]
    exact ⟨rfl, rfl, fun _ _ => rfl, fun p hp => by simp at hp⟩
  | some p =>
    obtain ⟨p', r, hstep, hu, hc, hcases⟩ := step_getEvent_spec sys i p
    rw [hstep sys rfl hsub]
    have hi : i < sys.subs.length := by
      rcases List.getElem?_eq_some.mp hsub with ⟨h1, _⟩; exact h1
    refine ⟨rfl, rfl, fun j hj => List.getElem?_set_ne (Ne.symm hj), fun p0 hp0 => ?_⟩
    simp only [Option.some.injEq] at hp0
    subst hp0
    refine ⟨p', ?_, hu, hc, ?_⟩
    · show (sys.subs.set i p')[i]? = some p'
      rw [List.getElem?_set]; simp [hi]
    · rcases hcases with ⟨_, hs⟩ | ⟨_, hs, _⟩ | ⟨_, hs, _⟩ | ⟨c0, el, j, h0, hel, hn, hs, _⟩
      · left; rw [hs]
      · left; rw [hs]
      · left; rw [hs]
      · right; exact ⟨c0, el, j, h0, hel, hn, by rw [hs]⟩

theorem foldl_wake_of_ne (chs : List Nat) : ∀ p : Subscriber, p.pc ≠ some Pc.waiting →
    chs.foldl Subscriber.wake p = p := by
  induction chs with
  | nil => intro p _; rfl
  | cons ch chs ih =>
    intro p hp
    have e : p.wake ch = p := by simp [Subscriber.wake, hp]
    rw [List.foldl_cons, e, ih p hp]

theorem foldl_wake_parked (ch : Nat) (chs : List Nat) (hch : ch ∈ chs) : ∀ p : Subscriber,
    p.pc = some Pc.waiting → p.s.updateCh = some ch →
    chs.foldl Subscriber.wake p = { p with pc := some Pc.checking } := by
  induction chs with
  | nil => simp at hch
  | cons ch' chs ih =>
    intro p hp hu
    rw [List.foldl_cons]
    by_cases he : ch' = ch
    · subst he
      have e : p.wake ch' = { p with pc := some Pc.checking } := by
        simp [Subscriber.wake, hp, hu]
      rw [e, foldl_wake_of_ne]
      simp
    · have e : p.wake ch' = p := by
        simp [Subscriber.wake, hu, Ne.symm he]
      rw [e]
      have hmem : ch ∈ chs := by
        rcases List.mem_cons.mp hch with h | h
        · exact absurd h.symm he
        · exact h
      exact ih hmem p hp hu

theorem step_getEvent_next (sys : System) (i : Nat) (p : Subscriber) (c j : Nat)
    (el el' : eventElem) (hsub : sys.subs[i]? = some p)
    (hpc : p.pc = none ∨ p.pc = some Pc.checking) (hcur : p.s.elem = some c)
    (hc : sys.m.elems[c]? = some el) (hn : el.next = some j) (hj : sys.m.elems[j]? = some el') :
    sys.step (Op.getEvent i)
      = ({ sys with subs := sys.subs.set i { s := { p.s with elem := some j }, pc := none } },
          [(i, GetEventResult.returned el'.event)]) := by
  rcases hpc with hpc | hpc <;> simp only [System.step, hsub, hpc, hcur, hc, hn, hj]

theorem push_wakes_parked (sys : System) (hwl : WellLinked sys.m sys.e)
    (hnd : ((sys.subs.map Subscriber.s).map Subscription.updateCh).Nodup)
    (i : Nat) (p : Subscriber) (c ch : Nat) (ev : Option Event)
    (hsub : sys.subs[i]? = some p) (hpc : p.pc = some Pc.waiting)
    (hu : p.s.updateCh = some ch) (hch : ch ∈ sys.e.updateCh)
    (hcur : p.s.elem = some c) (hlast : c + 1 = sys.m.elems.length) :
    sys.step (Op.getEvent i) = (sys, []) ∧
    (sys.step (Op.push ev)).1.subs[i]? = some { p with pc := some Pc.checking } ∧
    (sys.run [Op.push ev, Op.getEvent i]).2 = [(i, GetEventResult.returned ev)] ∧
    (sys.run [Op.push ev, Op.getEvent i]).1.subs[i]?
      = some { s := { p.s with elem := some (c + 1) }, pc := none } := by
  have hi : i < sys.subs.length := by
    rcases List.getElem?_eq_some.mp hsub with ⟨h1, _⟩; exact h1
  have h1 : (sys.step (Op.push ev)).1.subs[i]? = some { p with pc := some Pc.checking } := by
    show (sys.e.updateCh.foldl send sys.subs)[i]? = _
    rw [foldl_send_getElem? _ _ _ (by rw [map_updateCh]; exact hnd), hsub]
    simp only [Option.map_some']
    rw [foldl_wake_parked ch _ hch p hpc hu]
  obtain ⟨hlen, hev, hwl'⟩ := push_elems sys.m sys.e ev hwl
  have hm1 : (sys.step (Op.push ev)).1.m = (eventStream.push sys.m sys.e ev).1 := rfl
  rw [← hm1] at hlen hev
  have hwl1 : WellLinked (sys.step (Op.push ev)).1.m (sys.step (Op.push ev)).1.e := hwl'
  obtain ⟨el1, hc1⟩ : ∃ el1, (sys.step (Op.push ev)).1.m.elems[c]? = some el1 :=
    ⟨_, List.getElem?_eq_getElem (by omega)⟩
  obtain ⟨el2, hc2⟩ : ∃ el2, (sys.step (Op.push ev)).1.m.elems[c + 1]? = some el2 :=
    ⟨_, List.getElem?_eq_getElem (by omega)⟩
  have hn1 : el1.next = some (c + 1) := by
    rw [hwl1.1 c el1 hc1, if_pos (by omega)]
  have hev2 : el2.event = ev := by
    have := getElem?_event _ _ _ hc2
    rw [hev, List.getElem?_append_right (by simp [Mem.events]; omega)] at this
    simp only [Mem.events, List.length_map] at this
    rw [hlast] at this
    simpa using this.symm
  have hi1 : i < (sys.step (Op.push ev)).1.subs.length := by
    rcases List.getElem?_eq_some.mp h1 with ⟨h, _⟩; exact h
  have hstep := step_getEvent_next (sys.step (Op.push ev)).1 i _ c (c + 1) el1 el2 h1
    (Or.inr rfl) hcur hc1 hn1 hc2
  rw [hev2] at hstep
  refine ⟨by simp only [System.step, hsub, hpc], h1, ?_, ?_⟩
  · simp only [System.run, hstep]
    rfl
  · simp only [System.run, hstep]
    rw [List.getElem?_set]
    simp [hi1]

/-- A call of `GetEvent` that no `push` overlaps ends in `System.step` as
`Subscription.GetEvent` says: after at most two steps of a subscriber that is
between two calls, the call has returned or panicked with the result and the
cursor of `Subscription.GetEvent`, or it is parked in `select` where
`Subscription.GetEvent` reports `blocked`. -/
theorem run_GetEvent (sys : System) (i : Nat) (p : Subscriber) (hsub : sys.subs[i]? = some p)
    (hpc : p.pc = none) :
    ∃ n, n ≤ 2 ∧ sys.run (List.replicate n (Op.getEvent i)) =
      match Subscription.GetEvent sys.m p.s with
      | (GetEventResult.blocked, s') =>
        ({ sys with subs := sys.subs.set i ⟨s', some Pc.waiting⟩ }, [])
      | (GetEventResult.panic, s') =>
        ({ sys with subs := sys.subs.set i ⟨s', some Pc.panicked⟩ }, [(i, GetEventResult.panic)])
      | (GetEventResult.returned ev, s') =>
        ({ sys with subs := sys.subs.set i ⟨s', none⟩ }, [(i, GetEventResult.returned ev)]) := by
  have hi : i < sys.subs.length := by
    rcases List.getElem?_eq_some.mp hsub with ⟨h1, _⟩; exact h1
  cases hel : p.s.elem with
  | none =>
    refine ⟨1, by omega, ?_⟩
    simp [System.run, System.step, hsub, hpc, hel, Subscription.GetEvent]
  | some c =>
    cases hc : sys.m.elems[c]? with
    | none =>
      refine ⟨1, by omega, ?_⟩
      simp [System.run, System.step, hsub, hpc, hel, hc, Subscription.GetEvent]
    | some el =>
      cases hn : el.next with
      | some j =>
        refine ⟨1, by omega, ?_⟩
        cases hj : sys.m.elems[j]? <;>
          simp [System.run, System.step, hsub, hpc, hel, hc, hn, hj, Subscription.GetEvent]
      | none =>
        refine ⟨2, by omega, ?_⟩
        cases hcl : p.s.closeCh with
        | none =>
          simp [System.run, System.step, hsub, hpc, hel, hc, hn, hcl, Subscription.GetEvent,
            List.replicate, hi]
        | some cc =>
          by_cases hclosed : cc ∈ sys.m.closed <;>
            simp [System.run, System.step, hsub, hpc, hel, hc, hn, hcl, Subscription.GetEvent,
              List.replicate, hi, hclosed]

/-- C11: subscriber independence.  A step of `GetEvent` on subscription `i`
leaves the heap of the log (every node's event and link), the stream with its
tail and every other subscription as they are; of subscription `i` it keeps the
channels, and it keeps the cursor or moves it to the successor of its node.
Hence, in every system reached from a new `eventStream`, for every interleaving
of `push`, `subscribe` and steps of `GetEvent` of any subscriptions, what
subscription `i` retrieves is what it retrieves when the steps of all other
subscriptions are left out; and a subscription whose cursor is at node `c`
retrieves the events of the nodes `c+1`, ..., `c+k` of the log, in the order of
the pushes, none skipped and none repeated, and its cursor ends at node `c+k`.
A call that is parked in `select` at the tail of the log has no step of its
own; the next `push` wakes it, and this same call returns the event of that
`push` and moves the cursor to the new node. -/
theorem GetEvent_independent (i : Nat) :
    (∀ sys : System,
      (sys.step (Op.getEvent i)).1.m = sys.m ∧
      (sys.step (Op.getEvent i)).1.e = sys.e ∧
      (∀ j, j ≠ i → (sys.step (Op.getEvent i)).1.subs[j]? = sys.subs[j]?) ∧
      (∀ p, sys.subs[i]? = some p → ∃ p', (sys.step (Op.getEvent i)).1.subs[i]? = some p' ∧
        p'.s.updateCh = p.s.updateCh ∧ p'.s.closeCh = p.s.closeCh ∧
        (p'.s.elem = p.s.elem ∨
          ∃ c el j, p.s.elem = some c ∧ sys.m.elems[c]? = some el ∧ el.next = some j ∧
            p'.s.elem = some j))) ∧
    (∀ pre ops : List Op,
      retrieved i ((System.new.run pre).1.run ops).2
        = retrieved i ((System.new.run pre).1.run (withoutOthers i ops)).2) ∧
    (∀ (pre ops : List Op) (p : Subscriber) (c : Nat),
      (System.new.run pre).1.subs[i]? = some p → p.s.elem = some c →
      ∃ (k : Nat) (p' : Subscriber),
        ((System.new.run pre).1.run ops).1.subs[i]? = some p' ∧
        p'.s.elem = some (c + k) ∧
        c + k < ((System.new.run pre).1.run ops).1.m.elems.length ∧
        retrieved i ((System.new.run pre).1.run ops).2
          = ((((System.new.run pre).1.run ops).1.m.events.drop (c + 1)).take k).map
              GetEventResult.returned) ∧
    (∀ (pre : List Op) (p : Subscriber) (c : Nat) (ev : Option Event),
      (System.new.run pre).1.subs[i]? = some p → p.pc = some Pc.waiting →
      p.s.elem = some c → c + 1 = (System.new.run pre).1.m.elems.length →
      (System.new.run pre).1.step (Op.getEvent i) = ((System.new.run pre).1, []) ∧
      ((System.new.run pre).1.step (Op.push ev)).1.subs[i]?
        = some { p with pc := some Pc.checking } ∧
      ((System.new.run pre).1.run [Op.push ev, Op.getEvent i]).2
        = [(i, GetEventResult.returned ev)] ∧
      ((System.new.run pre).1.run [Op.push ev, Op.getEvent i]).1.subs[i]?
        = some { s := { p.s with elem := some (c + 1) }, pc := none }) := by
  refine ⟨fun sys => step_getEvent_frame sys i, fun pre ops => ?_,
    fun pre ops p c hsub hcur => ?_, fun pre p c ev hsub hpc hcur hlast => ?_⟩
  · have hv := run_valid pre System.new valid_new
    exact run_agree i ops _ _ ⟨rfl, rfl, rfl, rfl⟩ hv hv
  · have hv := run_valid pre System.new valid_new
    obtain ⟨k, p', hsub', hcur', hret⟩ := run_order i ops _ hv p c hsub hcur
    refine ⟨k, p', hsub', hcur', ?_, hret⟩
    have hv' := run_valid ops _ hv
    exact (hv'.2.2 p'.s (List.mem_map.mpr ⟨p', List.mem_iff_getElem?.mpr ⟨i, hsub'⟩, rfl⟩)).2.2
      _ hcur'
  · have hv := run_valid pre System.new valid_new
    obtain ⟨_, ⟨ch, hu, _, hch⟩, _⟩ :=
      hv.2.2 p.s (List.mem_map.mpr ⟨p, List.mem_iff_getElem?.mpr ⟨i, hsub⟩, rfl⟩)
    exact push_wakes_parked _ hv.1 hv.2.1 i p c ch ev hsub hpc hu hch hcur hlast

theorem GetEvent_independent_witness :
    retrieved 1 ((System.new.run [Op.push (some ⟨[], [0]⟩), Op.subscribe, Op.subscribe]).1.run
        [Op.getEvent 1, Op.getEvent 1, Op.push (some ⟨[], [1]⟩), Op.getEvent 1, Op.getEvent 0,
          Op.push (some ⟨[], [2]⟩), Op.getEvent 0, Op.getEvent 1]).2
      = retrieved 1 ((System.new.run [Op.push (some ⟨[], [0]⟩), Op.subscribe,
          Op.subscribe]).1.run
        (withoutOthers 1 [Op.getEvent 1, Op.getEvent 1, Op.push (some ⟨[], [1]⟩), Op.getEvent 1,
          Op.getEvent 0, Op.push (some ⟨[], [2]⟩), Op.getEvent 0, Op.getEvent 1])).2 ∧
    (System.new.run [Op.push (some ⟨[], [0]⟩), Op.subscribe, Op.subscribe, Op.getEvent 1,
        Op.getEvent 1]).1.subs.map Subscriber.pc = [none, some Pc.waiting] ∧
    retrieved 1 ((System.new.run [Op.push (some ⟨[], [0]⟩), Op.subscribe, Op.subscribe]).1.run
        [Op.getEvent 1, Op.getEvent 1, Op.push (some ⟨[], [1]⟩), Op.getEvent 1, Op.getEvent 0,
          Op.push (some ⟨[], [2]⟩), Op.getEvent 0, Op.getEvent 1]).2
      = [GetEventResult.returned (some ⟨[], [1]⟩), GetEventResult.returned (some ⟨[], [2]⟩)] :=
  ⟨(GetEvent_independent 1).2.1 _ _, by decide, by decide⟩

/-! ## Write-once links (C14) and the cursor (C18) -/

theorem step_wellLinked (sys : System) (op : Op) (h : WellLinked sys.m sys.e) :
    WellLinked (sys.step op).1.m (sys.step op).1.e := by
  cases op with
  | push ev => exact (push_elems sys.m sys.e ev h).2.2
  | subscribe => exact subscribe_wellLinked sys.m sys.e h
  | getEvent i =>
    rw [(step_getEvent_frame sys i).1, (step_getEvent_frame sys i).2.1]
    exact h

theorem run_wellLinked (ops : List Op) :
    ∀ sys : System, WellLinked sys.m sys.e →
      WellLinked (sys.run ops).1.m (sys.run ops).1.e := by
  induction ops with
  | nil => intro sys h; exact h
  | cons op ops ih =>
    intro sys h
    exact ih _ (step_wellLinked sys op h)

theorem chainFromF_wellLinked (m : Mem) (e : eventStream) (h : WellLinked m e) :
    ∀ (d fuel i : Nat), i + d = m.elems.length → d ≤ fuel →
      m.chainFromF fuel i = List.range' i d := by
  intro d
  induction d with
  | zero =>
    intro fuel i hi _
    have hnone : m.elems[i]? = none := List.getElem?_eq_none (by omega)
    cases fuel with
    | zero => rfl
    | succ f => simp [Mem.chainFromF, hnone]
  | succ d ih =>
    intro fuel i hi hf
    obtain ⟨f, rfl⟩ : ∃ f, fuel = f + 1 := ⟨fuel - 1, by omega⟩
    have hlt : i < m.elems.length := by omega
    have hget : m.elems[i]? = some m.elems[i] := List.getElem?_eq_getElem hlt
    have hn := h.1 i _ hget
    simp only [Mem.chainFromF, hget, hn, List.range'_succ]
    by_cases h1 : i + 1 < m.elems.length
    · rw [if_pos h1]
      simp only []
      rw [ih f (i + 1) (by omega) (by omega)]
    · rw [if_neg h1]
      have : d = 0 := by omega
      subst this
      rfl

theorem chainFrom_wellLinked (m : Mem) (e : eventStream) (h : WellLinked m e) (i : Nat)
    (hi : i ≤ m.elems.length) :
    m.chainFrom i = List.range' i (m.elems.length - i) :=
  chainFromF_wellLinked m e h (m.elems.length - i) m.elems.length i (by omega) (by omega)

/-- C14: write-once links and a monotonic tail.  In every state `sys` reached
from a new `eventStream` by `push`, `subscribe` and `GetEvent` calls, in any
interleaving of the steps of the `GetEvent` calls with the other calls, the tail
node, when there is one, has no successor.  A `push` makes the new node, which
has no successor, the tail; it keeps the event of every node and every link that
was set, and sets one link, the unset link of the previous tail, to the new
node.  So the sequence of nodes reachable from any node grows by the new node at
its end.  `subscribe` and `GetEvent` change no node and not the tail. -/
theorem push_write_once (ops : List Op) (event : Option Event) (sys sys' : System)
    (hsys : sys = (System.new.run ops).1) (hsys' : sys' = (sys.step (Op.push event)).1) :
    (∀ h, sys.e.head = some h → ∃ el, sys.m.elems[h]? = some el ∧ el.next = none) ∧
    (sys'.e.head = some sys.m.elems.length ∧
      sys'.m.elems[sys.m.elems.length]? = some ⟨event, none⟩ ∧
      sys'.m.elems.length = sys.m.elems.length + 1) ∧
    (∀ i el, sys.m.elems[i]? = some el →
      ∃ el', sys'.m.elems[i]? = some el' ∧ el'.event = el.event ∧
        (el.next ≠ none → el'.next = el.next) ∧
        (sys.e.head ≠ some i → el'.next = el.next) ∧
        (sys.e.head = some i → el.next = none ∧ el'.next = some sys.m.elems.length)) ∧
    (∀ i, i < sys.m.elems.length →
      sys'.m.chainFrom i = sys.m.chainFrom i ++ [sys.m.elems.length]) ∧
    (∀ i, (sys.step (Op.getEvent i)).1.m = sys.m ∧ (sys.step (Op.getEvent i)).1.e = sys.e) ∧
    ((sys.step Op.subscribe).1.m.elems = sys.m.elems ∧
      (sys.step Op.subscribe).1.e.head = sys.e.head) := by
  have hwl : WellLinked sys.m sys.e := by
    rw [hsys]; exact run_wellLinked ops System.new wellLinked_new
  obtain ⟨hlen, hev, hwl'⟩ := push_elems sys.m sys.e event hwl
  have hm' : sys'.m = (eventStream.push sys.m sys.e event).1 := by rw [hsys']; rfl
  have he' : sys'.e = (eventStream.push sys.m sys.e event).2 := by rw [hsys']; rfl
  rw [← hm'] at hlen hev hwl'
  rw [← he'] at hwl'
  obtain ⟨eln, hnew⟩ : ∃ eln, sys'.m.elems[sys.m.elems.length]? = some eln :=
    ⟨_, List.getElem?_eq_getElem (by omega)⟩
  refine ⟨?_, ⟨?_, ?_, hlen⟩, ?_, ?_, ?_, ⟨rfl, rfl⟩⟩
  · intro h hh
    have h2 := hwl.2
    by_cases h0 : sys.m.elems.length = 0
    · rw [if_pos h0, hh] at h2; simp at h2
    · rw [if_neg h0, hh] at h2
      simp only [Option.some.injEq] at h2
      have hget : sys.m.elems[h]? = some sys.m.elems[h] :=
        List.getElem?_eq_getElem (by omega)
      refine ⟨_, hget, ?_⟩
      rw [hwl.1 h _ hget, if_neg (by omega)]
  · rw [hwl'.2, if_neg (by omega), hlen]
    simp
  · have hn := hwl'.1 _ _ hnew
    rw [if_neg (by omega)] at hn
    have hevn := getElem?_event _ _ _ hnew
    rw [hev, List.getElem?_append_right (by simp [Mem.events])] at hevn
    simp only [Mem.events, List.length_map, Nat.sub_self, List.getElem?_cons_zero,
      Option.some.injEq] at hevn
    rw [hnew]
    congr 1
    cases eln with
    | mk ev nx =>
      simp only at hn hevn
      rw [hn, ← hevn]
  · intro i el hget
    have hi : i < sys.m.elems.length := by
      rcases List.getElem?_eq_some.mp hget with ⟨h1, _⟩; exact h1
    obtain ⟨el', hget'⟩ : ∃ el', sys'.m.elems[i]? = some el' :=
      ⟨_, List.getElem?_eq_getElem (by omega)⟩
    have hn := hwl.1 i el hget
    have hn' := hwl'.1 i el' hget'
    rw [hlen, if_pos (by omega)] at hn'
    have hev1 := getElem?_event _ _ _ hget
    have hev2 := getElem?_event _ _ _ hget'
    rw [hev, List.getElem?_append_left (by simp [Mem.events]; exact hi), hev1] at hev2
    simp only [Option.some.injEq] at hev2
    have hhead := hwl.2
    rw [if_neg (by omega)] at hhead
    refine ⟨el', hget', hev2.symm, ?_, ?_, ?_⟩
    · intro hne
      by_cases h1 : i + 1 < sys.m.elems.length
      · rw [hn, if_pos h1, hn']
      · rw [hn, if_neg h1] at hne; exact absurd rfl hne
    · intro hne
      have h1 : i + 1 < sys.m.elems.length := by
        by_contra hc
        apply hne
        rw [hhead]
        congr 1
        omega
      rw [hn, if_pos h1, hn']
    · intro hh
      rw [hhead] at hh
      simp only [Option.some.injEq] at hh
      refine ⟨by rw [hn, if_neg (by omega)], ?_⟩
      rw [hn']
      congr 1
      omega
  · intro i hi
    rw [chainFrom_wellLinked _ _ hwl' i (by omega), chainFrom_wellLinked _ _ hwl i (by omega),
      hlen]
    have e : sys.m.elems.length + 1 - i = (sys.m.elems.length - i) + 1 := by omega
    rw [e, List.range'_concat]
    congr 2
    omega
  · intro i
    exact ⟨(step_getEvent_frame sys i).1, (step_getEvent_frame sys i).2.1⟩

theorem push_write_once_witness :
    ((System.new.run [Op.push (some ⟨[], [0]⟩), Op.subscribe, Op.push (some ⟨[], [1]⟩),
          Op.getEvent 0]).1.step (Op.push (some ⟨[], [2]⟩))).1.m.chainFrom 0
      = (System.new.run [Op.push (some ⟨[], [0]⟩), Op.subscribe, Op.push (some ⟨[], [1]⟩),
          Op.getEvent 0]).1.m.chainFrom 0 ++ [2] ∧
    (System.new.run [Op.push (some ⟨[], [0]⟩), Op.subscribe, Op.push (some ⟨[], [1]⟩),
          Op.getEvent 0]).1.m.chainFrom 0 = [0, 1] :=
  ⟨(push_write_once [Op.push (some ⟨[], [0]⟩), Op.subscribe, Op.push (some ⟨[], [1]⟩),
      Op.getEvent 0] (some ⟨[], [2]⟩) _ _ rfl rfl).2.2.2.1 0 (by decide), by decide⟩

/-- The cursor after a call of `GetEvent` is the cursor before it or the
successor of that node. -/
theorem GetEvent_cursor (m : Mem) (s : Subscription) :
    (Subscription.GetEvent m s).2.elem = s.elem ∨
    ∃ i el j, s.elem = some i ∧ m.elems[i]? = some el ∧ el.next = some j ∧
      (Subscription.GetEvent m s).2.elem = some j := by
  obtain ⟨u, c, elem⟩ := s
  cases elem with
  | none => left; rfl
  | some i =>
    cases hi : m.elems[i]? with
    | none => left; simp [Subscription.GetEvent, hi]
    | some el =>
      cases hn : el.next with
      | none =>
        left
        cases c with
        | none => simp [Subscription.GetEvent, hi, hn]
        | some c =>
          by_cases hc : c ∈ m.closed <;> simp [Subscription.GetEvent, hi, hn, hc]
      | some j =>
        right
        refine ⟨i, el, j, rfl, hi, hn, ?_⟩
        cases hj : m.elems[j]? <;> simp [Subscription.GetEvent, hi, hn, hj]

/-- C18: an event that is already linked is never missed.  When the node of the
cursor has a successor, `GetEvent` returns the event of that successor and moves
the cursor to it, one node forward, whatever the state of the wake channel and
of the cancellation channel is (made or nil, closed or not).  In every call the
cursor stays or moves to the successor of its node: it never moves backwards and
never skips a node. -/
theorem GetEvent_successor (m : Mem) (s : Subscription) (i j : Nat) (el el' : eventElem)
    (hs : s.elem = some i) (hi : m.elems[i]? = some el) (hn : el.next = some j)
    (hj : m.elems[j]? = some el') :
    Subscription.GetEvent m s = (GetEventResult.returned el'.event, { s with elem := some j }) ∧
    (∀ (updateCh closeCh : Option Nat) (chans : Nat) (closed : List Nat),
      Subscription.GetEvent { m with chans := chans, closed := closed }
          { s with updateCh := updateCh, closeCh := closeCh }
        = (GetEventResult.returned el'.event,
            { updateCh := updateCh, closeCh := closeCh, elem := some j })) ∧
    (∀ (m' : Mem) (s' : Subscription),
      (Subscription.GetEvent m' s').2.elem = s'.elem ∨
      ∃ i' el'' j', s'.elem = some i' ∧ m'.elems[i']? = some el'' ∧ el''.next = some j' ∧
        (Subscription.GetEvent m' s').2.elem = some j') := by
  refine ⟨?_, fun u c chans closed => ?_, GetEvent_cursor⟩
  · unfold Subscription.GetEvent
    simp only [hs, hi, hn, hj]
  · unfold Subscription.GetEvent
    simp only [hs, hi, hn, hj]

theorem GetEvent_successor_witness :
    Subscription.GetEvent ⟨[⟨some ⟨[], [0]⟩, some 1⟩, ⟨some ⟨[], [1]⟩, none⟩], 2, [1]⟩
        ⟨some 0, some 1, some 0⟩
      = (GetEventResult.returned (some ⟨[], [1]⟩), ⟨some 0, some 1, some 1⟩) :=
  (GetEvent_successor ⟨[⟨some ⟨[], [0]⟩, some 1⟩, ⟨some ⟨[], [1]⟩, none⟩], 2, [1]⟩
    ⟨some 0, some 1, some 0⟩ 0 1 ⟨some ⟨[], [0]⟩, some 1⟩ ⟨some ⟨[], [1]⟩, none⟩
    rfl rfl rfl rfl).1

/-! ## The dropped wake (C15) -/

/-- When the subscriber is parked in `select` at the time of the `push`, the
send is received and the subscriber tests `s.elem.next` again. -/
theorem push_wakes_waiting (st : Conc) (event : Option Event) (ch : Nat)
    (hpc : st.pc = Pc.waiting) (hch : st.s.updateCh = some ch) (hreg : ch ∈ st.e.updateCh) :
    ∃ st', st.step (Act.push event) = some st' ∧ st'.pc = Pc.checking := by
  refine ⟨_, rfl, ?_⟩
  simp only []
  rw [if_pos ⟨hpc, ch, hch, hreg⟩]

/-- C15: the edge-triggered wake can stall.  The subscriber has called
`GetEvent` and found no successor, so it is about to wait; `push` then links
`e1` after the cursor, and its only wake is dropped, no receiver being parked at
that instant; the subscriber then parks in `select`.  In the state reached the
event is linked after the cursor, the subscriber has no step, and with a nil or
open `closeCh` only a further `push` or the cancellation can end the wait.
`push` itself is enabled in every state: it never blocks on a subscriber. -/
theorem GetEvent_stall (e0 e1 : Option Event) :
    (Conc.start e0).step Act.sub = some (Conc.stall e0 e1).1 ∧
    (Conc.stall e0 e1).1.step (Act.push e1) = some (Conc.stall e0 e1).2.1 ∧
    (Conc.stall e0 e1).2.1.step Act.sub = some (Conc.stall e0 e1).2.2 ∧
    (Conc.stall e0 e1).2.2.pc = Pc.waiting ∧
    (Conc.stall e0 e1).2.2.s.elem = some 0 ∧
    (Conc.stall e0 e1).2.2.m.elems[0]? = some ⟨e0, some 1⟩ ∧
    (Conc.stall e0 e1).2.2.m.elems[1]? = some ⟨e1, none⟩ ∧
    (Conc.stall e0 e1).2.2.step Act.sub = none ∧
    (Subscription.GetEvent (Conc.stall e0 e1).2.2.m (Conc.stall e0 e1).2.2.s).1
      = GetEventResult.returned e1 ∧
    (∀ (st : Conc) (event : Option Event), st.step (Act.push event) ≠ none) := by
  refine ⟨rfl, ?_, rfl, rfl, rfl, rfl, rfl, rfl, rfl, fun st event => by simp [Conc.step]⟩
  simp only [Conc.step, Conc.stall, Conc.start, eventStream.push, eventStream.subscribe,
    eventStream.Head, Mem.setNext, Mem.empty, eventStream.new]
  simp

end blockchain
